import Mathlib

/-!
Verification of the Graflib undirected-graph library (src/graflib.py).

The Python `Graph` class stores a dictionary mapping each node id to a record
holding a set `near` of `(neighbor_id, weight)` tuples (weight is `None` for
unweighted graphs) and an optional payload.  We embed this shallowly:

* a Python dictionary becomes an insertion-ordered association list
  (first-match lookup, new keys appended at the end, which matches CPython's
  documented dict insertion order);
* a Python set of tuples becomes an insertion-ordered duplicate-free list:
  `set.add` appends when the element is absent, `set.remove` deletes the
  element and signals `KeyError` when it is absent (set iteration order is
  unspecified in Python; the embedding fixes insertion order, making the
  embedded functions deterministic);
* Python floats used as link weights are modelled by `ℚ`: the library never
  does arithmetic on weights, it only stores them and compares them for
  equality;
* payloads are an opaque type `β`; the Python sentinel `None` is `Option.none`;
* operations that can raise (`KeyError` from `set.remove` or dict indexing,
  `TypeError` from iterating `None`) return `Except PyErr` results, and the
  raising operations additionally return the partially mutated store, mirroring
  in-place mutation that has happened before the exception escapes;
* the unbounded Python recursions and `while` loops are given an explicit
  fuel argument; the wrappers pass fuel that provably suffices (lemmas below
  show the `fuelOut` branch is unreachable in the situations the claims are
  about).
-/

set_option linter.unusedVariables false

namespace Graflib

/-- Runtime errors of the Python fragments we embed: `TypeError` (iterating
`None`), `KeyError` (dict lookup / `set.remove` misses), and an artificial
`fuelOut` marker for exhausted fuel (proved unreachable where it matters). -/
inductive PyErr where
  | typeError
  | keyError
  | fuelOut
deriving DecidableEq, Repr

/-- Value stored for one node: the `near` set (as an insertion-ordered list of
`(neighbor, weight)` tuples) and the optional payload.  Mirrors
`BASE_NODE_DATA = {'near': set(), 'payload': None}`. -/
structure NodeRec (α β : Type) where
  near : List (α × Option ℚ)
  payload : Option β
deriving DecidableEq, Repr

/-- The graph object: the `has_weights` flag fixed at construction plus the
node dictionary. -/
structure Graph (α β : Type) where
  hasWeights : Bool
  data : List (α × NodeRec α β)
deriving DecidableEq, Repr

/-- The `Graph(has_weights)` constructor. -/
def Graph.mkEmpty (α β : Type) (hasWeights : Bool) : Graph α β := ⟨hasWeights, []⟩

variable {α β γ : Type} [DecidableEq α]

/-- First-match association-list lookup: Python dict access. -/
def pyGet [DecidableEq γ] (k : γ) : List (γ × δ) → Option δ
  | [] => none
  | p :: rest => if p.1 = k then some p.2 else pyGet k rest

/-- Python `set.add`: append the element when absent. -/
def setAdd [DecidableEq γ] (x : γ) (s : List γ) : List γ :=
  if x ∈ s then s else s ++ [x]

/-- Python `set.remove` (successful case): delete the first occurrence. -/
def setRemove [DecidableEq γ] (x : γ) : List γ → List γ
  | [] => []
  | y :: rest => if y = x then rest else y :: setRemove x rest

/-- Dictionary record for a node id; `none` when the id is not a key. -/
def Graph.lookupRec (g : Graph α β) (a : α) : Option (NodeRec α β) :=
  pyGet a g.data

/-- The `near` set of a node (empty when the node is absent; every caller in
the source checks existence before reading `near`). -/
def Graph.nearList (g : Graph α β) (a : α) : List (α × Option ℚ) :=
  match g.lookupRec a with
  | none => []
  | some r => r.near

/-- Embeds `size`. -/
def Graph.size (g : Graph α β) : Nat := g.data.length

/-- Embeds `get_nodes` (dictionary key view). -/
def Graph.get_nodes (g : Graph α β) : List α := g.data.map Prod.fst

/-- Embeds `node_exists`. -/
def Graph.node_exists (g : Graph α β) (a : α) : Bool :=
  (g.lookupRec a).isSome

/-- Embeds `node_does_not_exist`. -/
def Graph.node_does_not_exist (g : Graph α β) (a : α) : Bool :=
  !g.node_exists a

/-- Embeds `are_neighbors`: both endpoints must exist and each must appear in
the first components of the other's `near` set. -/
def Graph.are_neighbors (g : Graph α β) (init_id dest_id : α) : Bool :=
  if g.node_exists init_id && g.node_exists dest_id then
    decide (dest_id ∈ (g.nearList init_id).map Prod.fst) &&
      decide (init_id ∈ (g.nearList dest_id).map Prod.fst)
  else false

/-- Embeds `are_not_neighbors`. -/
def Graph.are_not_neighbors (g : Graph α β) (i d : α) : Bool :=
  !g.are_neighbors i d

/-- Python link tuples as returned by `get_links`: 2-tuples for unweighted
graphs, 3-tuples for weighted graphs. -/
inductive PyTuple (α : Type) where
  | pair (a b : α)
  | triple (a b : α) (w : Option ℚ)
deriving DecidableEq, Repr

/-- Second component of a link tuple (`link[1]` in the source). -/
def PyTuple.snd : PyTuple α → α
  | .pair _ b => b
  | .triple _ b _ => b

/-- Embeds `get_links`: `None` if the node is absent, else one tuple per
`near` entry, of arity depending on `has_weights`. -/
def Graph.get_links (g : Graph α β) (a : α) : Option (List (PyTuple α)) :=
  if g.node_does_not_exist a then none
  else
    some (if g.hasWeights then (g.nearList a).map (fun e => .triple a e.1 e.2)
          else (g.nearList a).map (fun e => .pair a e.1))

/-- Embeds `get_neighbors`: `None` if the node is absent, else the second
components of its links. -/
def Graph.get_neighbors (g : Graph α β) (a : α) : Option (List α) :=
  if g.node_exists a then (g.get_links a).map (List.map PyTuple.snd)
  else none

/-- Rebuild a node's record with a transformed `near` set (in-place mutation of
`self.__data[a]['near']`). -/
def Graph.setNear (g : Graph α β) (a : α)
    (f : List (α × Option ℚ) → List (α × Option ℚ)) : Graph α β :=
  ⟨g.hasWeights, g.data.map (fun p => if p.1 = a then (p.1, ⟨f p.2.near, p.2.payload⟩) else p)⟩

/-- Rebuild a node's record with a new payload (in-place mutation of
`self.__data[a]['payload']`). -/
def Graph.setPayload (g : Graph α β) (a : α) (p : Option β) : Graph α β :=
  ⟨g.hasWeights, g.data.map (fun q => if q.1 = a then (q.1, ⟨q.2.near, p⟩) else q)⟩

/-- Embeds `add_node`: fresh ids are appended to the dictionary with an empty
`near` set and no payload; existing ids are left alone.  Returns the count. -/
def Graph.add_node (g : Graph α β) (a : α) : Graph α β × Nat :=
  if g.node_does_not_exist a then
    (⟨g.hasWeights, g.data ++ [(a, ⟨[], none⟩)]⟩, 1)
  else (g, 0)

/-- Embeds `add_nodes_from_list`. -/
def Graph.add_nodes_from_list : Graph α β → List α → Graph α β × Nat
  | g, [] => (g, 0)
  | g, a :: rest =>
    let r := g.add_node a
    let s := Graph.add_nodes_from_list r.1 rest
    (s.1, r.2 + s.2)

/-- Embeds `add_link`: requires both endpoints to exist; computes the forward
and backward tuples (default weight `1.0` for weighted graphs, weight slot
`None` for unweighted ones) and `set.add`s them to both `near` sets. -/
def Graph.add_link (g : Graph α β) (init_id dest_id : α) (weight : Option ℚ) :
    Graph α β × Nat :=
  if g.node_exists init_id && g.node_exists dest_id then
    let tf : α × Option ℚ :=
      if g.hasWeights then (dest_id, some (weight.getD 1)) else (dest_id, none)
    let tb : α × Option ℚ :=
      if g.hasWeights then (init_id, some (weight.getD 1)) else (init_id, none)
    let g1 := g.setNear init_id (setAdd tf)
    let g2 := g1.setNear dest_id (setAdd tb)
    (g2, 1)
  else (g, 0)

/-- Embeds `add_links_from_list`.  A list element `(a, b, none)` stands for a
Python 2-tuple, `(a, b, some w)` for a 3-tuple. -/
def Graph.add_links_from_list : Graph α β → List (α × α × Option ℚ) → Graph α β × Nat
  | g, [] => (g, 0)
  | g, e :: rest =>
    let r := if g.hasWeights then g.add_link e.1 e.2.1 (some (e.2.2.getD 1))
             else g.add_link e.1 e.2.1 none
    let s := Graph.add_links_from_list r.1 rest
    (s.1, r.2 + s.2)

/-- Embeds the private `__get_reference_tuple`: first `near` entry of `init_id`
whose first component is `dest_id`, guarded by `are_neighbors`. -/
def Graph.get_reference_tuple (g : Graph α β) (init_id dest_id : α) :
    Option (α × Option ℚ) :=
  if g.are_neighbors init_id dest_id then
    (g.nearList init_id).find? (fun t => decide (t.1 = dest_id))
  else none

/-- Embeds `remove_link_between_nodes`.  Both reference tuples are computed
before any mutation; each `set.remove` checks membership and raises `KeyError`
when the tuple is gone (which happens for a self-link, whose two removals hit
the same element).  The partially mutated store is returned alongside the
error, matching in-place mutation. -/
def Graph.remove_link_between_nodes (g : Graph α β) (init_id dest_id : α) :
    Graph α β × Except PyErr Nat :=
  if g.are_neighbors init_id dest_id then
    match g.get_reference_tuple init_id dest_id, g.get_reference_tuple dest_id init_id with
    | some tf, some tb =>
      if tf ∈ g.nearList init_id then
        let g1 := g.setNear init_id (setRemove tf)
        if tb ∈ g1.nearList dest_id then
          (g1.setNear dest_id (setRemove tb), .ok 1)
        else (g1, .error .keyError)
      else (g, .error .keyError)
    | _, _ => (g, .ok 0)
  else (g, .ok 0)

/-- The `for nb in nbors: self.remove_link_between_nodes(node_id, nb)` loop of
`remove_node`; an exception aborts the loop with the state reached so far. -/
def Graph.removeLinksLoop (x : α) : Graph α β → List α → Graph α β × Option PyErr
  | g, [] => (g, none)
  | g, nb :: rest =>
    match g.remove_link_between_nodes x nb with
    | (g1, Except.ok _) => Graph.removeLinksLoop x g1 rest
    | (g1, Except.error e) => (g1, some e)

/-- Deletion of a dictionary key (`del self.__data[node_id]`). -/
def Graph.delKey (g : Graph α β) (a : α) : Graph α β :=
  ⟨g.hasWeights, g.data.filter (fun p => decide (p.1 ≠ a))⟩

/-- Embeds `remove_node`: snapshot the neighbor ids, remove each incident link,
then delete the dictionary entry. -/
def Graph.remove_node (g : Graph α β) (a : α) : Graph α β × Except PyErr Nat :=
  if g.node_exists a then
    match Graph.removeLinksLoop a g ((g.nearList a).map Prod.fst) with
    | (g1, none) => (g1.delKey a, .ok 1)
    | (g1, some e) => (g1, .error e)
  else (g, .ok 0)

/-- Embeds `remove_nodes_from_list` (an uncaught exception aborts the loop). -/
def Graph.remove_nodes_from_list : Graph α β → List α → Graph α β × Except PyErr Nat
  | g, [] => (g, .ok 0)
  | g, a :: rest =>
    match g.remove_node a with
    | (g1, Except.ok n) =>
      match Graph.remove_nodes_from_list g1 rest with
      | (g2, Except.ok m) => (g2, .ok (n + m))
      | (g2, Except.error e) => (g2, .error e)
    | (g1, Except.error e) => (g1, .error e)

/-- Embeds `remove_links_from_list_of_neighbors`. -/
def Graph.remove_links_from_list_of_neighbors :
    Graph α β → List (α × α) → Graph α β × Except PyErr Nat
  | g, [] => (g, .ok 0)
  | g, e :: rest =>
    match g.remove_link_between_nodes e.1 e.2 with
    | (g1, Except.ok n) =>
      match Graph.remove_links_from_list_of_neighbors g1 rest with
      | (g2, Except.ok m) => (g2, .ok (n + m))
      | (g2, Except.error e') => (g2, .error e')
    | (g1, Except.error e') => (g1, .error e')

/-- Embeds `get_payload`. -/
def Graph.get_payload (g : Graph α β) (a : α) : Option β :=
  match g.lookupRec a with
  | none => none
  | some r => r.payload

/-- Embeds `add_payload` (`None` payloads are rejected, hence the `Option`). -/
def Graph.add_payload (g : Graph α β) (a : α) (p : Option β) : Graph α β × Nat :=
  if g.node_does_not_exist a || p.isNone then (g, 0)
  else (g.setPayload a p, 1)

/-- Embeds `add_payloads_from_list`. -/
def Graph.add_payloads_from_list : Graph α β → List (α × Option β) → Graph α β × Nat
  | g, [] => (g, 0)
  | g, e :: rest =>
    let r := g.add_payload e.1 e.2
    let s := Graph.add_payloads_from_list r.1 rest
    (s.1, r.2 + s.2)

/-- Embeds `remove_payload`. -/
def Graph.remove_payload (g : Graph α β) (a : α) : Graph α β × Nat :=
  if g.node_does_not_exist a then (g, 0) else (g.setPayload a none, 1)

/-- Embeds `has_payload`. -/
def Graph.has_payload (g : Graph α β) (a : α) : Bool :=
  if g.node_does_not_exist a then false
  else
    match g.get_payload a with
    | none => false
    | some _ => true

/-! ### Traversal algorithms

The recursive Python helpers mutate `visited`/`path`/`stack` lists in place;
we thread them explicitly.  `current` is `Option α` because the source passes
`None` after the path empties.  Iterating `self.get_neighbors(c)` when the
lookup produced `None` raises `TypeError`. -/

/-- Embeds the private `__rec_dfs_traverse`.  One fuel unit per recursive
call; `dfs_traverse` passes provably sufficient fuel. -/
def Graph.recDfs (g : Graph α β) :
    Nat → Option α → List α → List α → Except PyErr (List α)
  | 0, _, _, _ => .error .fuelOut
  | fuel + 1, current, visited, path =>
    if path = [] then .ok visited
    else
      match current.bind g.get_neighbors with
      | none => .error .typeError
      | some links =>
        match links.find? (fun l => decide (l ∉ visited)) with
        | some selected =>
          g.recDfs fuel (some selected) (visited ++ [selected]) (path ++ [selected])
        | none =>
          let path1 := path.dropLast
          g.recDfs fuel path1.getLast? visited path1

/-- Embeds `dfs_traverse`.  Each recursive step of `__rec_dfs_traverse` either
pushes a fresh node (at most `size` pushes) or pops one, so `2*size + 2` fuel
units always suffice. -/
def Graph.dfs_traverse (g : Graph α β) (init_id : α) : Except PyErr (List α) :=
  g.recDfs (2 * g.size + 2) (some init_id) [init_id] [init_id]

/-- Embeds the private `__rec_bfs_traverse` (`stack.pop()` takes the last
element). -/
def Graph.recBfs (g : Graph α β) :
    Nat → List α → List α → Except PyErr (List α)
  | 0, _, _ => .error .fuelOut
  | fuel + 1, visited, stack =>
    if stack = [] then .ok visited
    else
      match stack.getLast?.bind g.get_neighbors with
      | none => .error .typeError
      | some links =>
        let unvisited := links.filter (fun l => decide (l ∉ visited))
        g.recBfs fuel (visited ++ unvisited) (stack.dropLast ++ unvisited)

/-- Total number of neighbor entries stored across all `near` sets. -/
def Graph.totalNear (g : Graph α β) : Nat :=
  (g.data.map (fun p => p.2.near.length)).sum

/-- Embeds `bfs_traverse`.  Each recursive step pops one stack entry, and a
given `near` entry `(y, x)` can push `x` at most once (afterwards `x` is
visited), so `size + totalNear + 2` fuel units always suffice — also on
stores holding duplicate weighted links, where one batch may append the same
node twice. -/
def Graph.bfs_traverse (g : Graph α β) (init_id : α) : Except PyErr (List α) :=
  g.recBfs (g.size + g.totalNear + 2) [init_id] [init_id]

/-- Embeds `is_connected_graph`. -/
def Graph.is_connected_graph (g : Graph α β) (init_id : α) : Except PyErr Bool :=
  (g.dfs_traverse init_id).map (fun visited => visited.length = g.size)

/-- The inner `for nid in self.get_neighbors(nd)` body shared by
`get_depth_layer` and `shortest_path`'s first loop, for a visited-list variant:
append unseen neighbors to `visited` and to the new frontier. -/
def expandNode (visited new_nodes : List α) : List α → List α × List α
  | [] => (visited, new_nodes)
  | nid :: rest =>
    if nid ∈ visited then expandNode visited new_nodes rest
    else expandNode (visited ++ [nid]) (new_nodes ++ [nid]) rest

/-- The `for nd in layer_nodes` loop of `get_depth_layer`. -/
def Graph.expandLayer (g : Graph α β) :
    List α → List α → List α → Except PyErr (List α × List α)
  | [], visited, new_nodes => .ok (visited, new_nodes)
  | nd :: rest, visited, new_nodes =>
    match g.get_neighbors nd with
    | none => .error .typeError
    | some links =>
      let r := expandNode visited new_nodes links
      g.expandLayer rest r.1 r.2

/-- The `while not finished` loop of `get_depth_layer`: on exhaustion the layer
counter is decremented and the previous frontier is reported; when the
requested layer is reached the new frontier is reported. -/
def Graph.depthLoop (g : Graph α β) (layer : Nat) :
    Nat → List α → List α → Nat → Except PyErr (Nat × List α)
  | 0, _, _, _ => .error .fuelOut
  | fuel + 1, layer_nodes, visited, layer_count =>
    match g.expandLayer layer_nodes visited [] with
    | .error e => .error e
    | .ok (visited1, new_nodes) =>
      if new_nodes = [] then .ok (layer_count + 1 - 1, layer_nodes)
      else if layer_count + 1 = layer then .ok (layer_count + 1, new_nodes)
      else g.depthLoop layer fuel new_nodes visited1 (layer_count + 1)

/-- Embeds `get_depth_layer`: layer 0 short-circuits; otherwise run the
level-by-level expansion.  Every loop iteration except the last discovers at
least one new node, so `size + 1` fuel units suffice. -/
def Graph.get_depth_layer (g : Graph α β) (node_id : α) (layer : Nat) :
    Except PyErr (Nat × List α) :=
  if layer = 0 then .ok (0, [node_id])
  else g.depthLoop layer (g.size + 1) [node_id] [node_id] 0

/-- Embeds `is_node_in_layer`. -/
def Graph.is_node_in_layer (g : Graph α β) (start_node target_node : α) (layer : Nat) :
    Except PyErr Bool :=
  if g.node_does_not_exist start_node || g.node_does_not_exist target_node then .ok false
  else
    (g.get_depth_layer start_node layer).map (fun r =>
      if r.1 < layer then false else decide (target_node ∈ r.2))

/-- The inner neighbor scan of `shortest_path`'s first loop, mapping each
newly seen node to its layer in `vis_map`. -/
def expandNodeMap (vis_map : List (α × Nat)) (new_nodes : List α) (lc : Nat) :
    List α → List (α × Nat) × List α
  | [] => (vis_map, new_nodes)
  | nid :: rest =>
    if (pyGet nid vis_map).isSome then expandNodeMap vis_map new_nodes lc rest
    else expandNodeMap (vis_map ++ [(nid, lc)]) (new_nodes ++ [nid]) lc rest

/-- The `for nd in layer_nodes` loop of `shortest_path`'s layering pass. -/
def Graph.expandLayerMap (g : Graph α β) (lc : Nat) :
    List α → List (α × Nat) → List α → Except PyErr (List (α × Nat) × List α)
  | [], vis_map, new_nodes => .ok (vis_map, new_nodes)
  | nd :: rest, vis_map, new_nodes =>
    match g.get_neighbors nd with
    | none => .error .typeError
    | some links =>
      let r := expandNodeMap vis_map new_nodes lc links
      g.expandLayerMap lc rest r.1 r.2

/-- The first `while not finished` loop of `shortest_path`: tag every
reachable node with its layer.  Only `vis_map` is observable afterwards. -/
def Graph.spLoop (g : Graph α β) :
    Nat → List α → List (α × Nat) → Nat → Except PyErr (List (α × Nat))
  | 0, _, _, _ => .error .fuelOut
  | fuel + 1, layer_nodes, vis_map, layer_count =>
    match g.expandLayerMap (layer_count + 1) layer_nodes vis_map [] with
    | .error e => .error e
    | .ok (vis_map1, new_nodes) =>
      if new_nodes = [] then .ok vis_map1
      else g.spLoop fuel new_nodes vis_map1 (layer_count + 1)

/-- The `for nd in nbors` minimum scan of the backtracking loop: Python
evaluates `vis_map[nd]` first (possible `KeyError`), then keeps the first
strict improvement. -/
def scanMin (vis_map : List (α × Nat)) :
    List α → Nat → Option α → Except PyErr (Option α)
  | [], _, best => .ok best
  | nd :: rest, min_layer, best =>
    match pyGet nd vis_map with
    | none => .error .keyError
    | some l =>
      if l < min_layer then scanMin vis_map rest l (some nd)
      else scanMin vis_map rest min_layer best

/-- The backtracking `while` loop of `shortest_path`; the fuel argument is the
source's own `counter < 1000` bound (the loop also stops at `init_id`).  When
the scan selects no parent (a neighborless current node) the source appends
`None` and raises `TypeError` when the next iteration feeds it to
`get_neighbors`; the embedding raises at once, which is observationally equal
except in the unreachable corner where the counter would expire on exactly
that iteration. -/
def Graph.backtrack (g : Graph α β) (vis_map : List (α × Nat)) (init_id : α) :
    Nat → α → List α → Except PyErr (List α)
  | 0, _, node_path => .ok node_path
  | fuel + 1, current, node_path =>
    if current = init_id then .ok node_path
    else
      match g.get_neighbors current with
      | none => .error .typeError
      | some nbors =>
        match scanMin vis_map nbors (g.size + 1) none with
        | .error e => .error e
        | .ok none => .error .typeError
        | .ok (some best_parent) =>
          g.backtrack vis_map init_id fuel best_parent (node_path ++ [best_parent])

/-- Embeds `shortest_path`: empty when either endpoint is absent, `[init]`
when the endpoints coincide, otherwise the full layering pass followed by
backtracking from the destination, reversed. -/
def Graph.shortest_path (g : Graph α β) (init_id dest_id : α) :
    Except PyErr (List α) :=
  if g.node_does_not_exist init_id || g.node_does_not_exist dest_id then .ok []
  else if init_id = dest_id then .ok [init_id]
  else
    match g.spLoop (g.size + 1) [init_id] [(init_id, 0)] 0 with
    | .error e => .error e
    | .ok vis_map =>
      match g.backtrack vis_map init_id 1000 dest_id [dest_id] with
      | .error e => .error e
      | .ok node_path => .ok node_path.reverse

/-! ### Serialization (`save_json` / `load_json`)

`__do_serializable` flattens each `near` set to a list of lists;
`__undo_serializable` rebuilds the sets.  The JSON boundary is modelled
logically: `json.dump(..., sort_keys=True)` emits the node map sorted by key
and converts every dictionary key to a string (`str(key)` for integers), while
values — the neighbor ids inside the lists, the weights, the payloads — keep
their types.  Node ids are therefore modelled by `PyKey` (a Python int or
str); weight floats and payloads are assumed to round-trip through JSON
exactly, so they are carried unchanged.  (On a dictionary with mixed int and
str keys Python's key sort would itself raise; the embedding totalizes the
order by putting ints first.  No claim exercises mixed keys.)  `load_json`
only assigns `self.__data`; the `has_weights` flag of the receiving graph is
left whatever its constructor set. -/

/-- A Python node identifier: an int or a str. -/
inductive PyKey where
  | int (n : Int)
  | str (s : String)
deriving DecidableEq, Repr

/-- String form a key takes as a JSON object key. -/
def PyKey.toJsonKey : PyKey → PyKey
  | .int n => .str (toString n)
  | .str s => .str s

/-- Whether a key is a string. -/
def PyKey.isStr : PyKey → Bool
  | .int _ => false
  | .str _ => true

/-- Lexicographic comparison of char lists by code point (Python str `<=`). -/
def charsLe : List Char → List Char → Bool
  | [], _ => true
  | _ :: _, [] => false
  | a :: as, b :: bs => if a < b then true else if b < a then false else charsLe as bs

/-- Python's key order for `sort_keys=True`: ints numerically, strs
lexicographically (mixed pairs are ordered int-first; see the section note). -/
def pyKeyLe : PyKey → PyKey → Bool
  | .int n, .int m => decide (n ≤ m)
  | .str s, .str t => charsLe s.data t.data
  | .int _, .str _ => true
  | .str _, .int _ => false

/-- Insert into a sorted list (kept stable). -/
def insertSortedBy (le : γ → γ → Bool) (x : γ) : List γ → List γ
  | [] => [x]
  | y :: rest => if le x y then x :: y :: rest else y :: insertSortedBy le x rest

/-- Insertion sort. -/
def sortBy (le : γ → γ → Bool) : List γ → List γ
  | [] => []
  | x :: rest => insertSortedBy le x (sortBy le rest)

/-- Serialized record of one node as written by `__do_serializable`: the
payload together with the `near` set flattened to a list. -/
structure SerRec (α β : Type) where
  neighbors : List (α × Option ℚ)
  payload : Option β
deriving DecidableEq, Repr

/-- Embeds `__do_serializable`. -/
def Graph.do_serializable (g : Graph α β) : List (α × SerRec α β) :=
  g.data.map (fun p => (p.1, ⟨p.2.near, p.2.payload⟩))

/-- Python `set(list_of_tuples)`: fold `set.add` over the list (first
occurrences survive, in order). -/
def setOfList [DecidableEq γ] (l : List γ) : List γ :=
  l.foldl (fun acc x => setAdd x acc) []

/-- Embeds `__undo_serializable`, applied to the receiving graph (whose
`has_weights` flag is untouched). -/
def Graph.undo_serializable (g : Graph α β) (d : List (α × SerRec α β)) : Graph α β :=
  ⟨g.hasWeights, d.map (fun p => (p.1, ⟨setOfList p.2.neighbors, p.2.payload⟩))⟩

/-- The logical effect of `json.dump(..., sort_keys=True)` followed by
`json.load`: entries sorted by key, keys stringified, values untouched. -/
def jsonDumpLoad {β : Type} (d : List (PyKey × SerRec PyKey β)) :
    List (PyKey × SerRec PyKey β) :=
  (sortBy (fun p q => pyKeyLe p.1 q.1) d).map (fun p => (p.1.toJsonKey, p.2))

/-- Embeds `g.save_json(file)` followed by `fresh.load_json(file)`. -/
def saveLoad {β : Type} (g fresh : Graph PyKey β) : Graph PyKey β :=
  fresh.undo_serializable (jsonDumpLoad g.do_serializable)

/-! ### Well-formedness

`wTow g a b` is the ordered list of weights `a`'s `near` set records toward
`b`.  A store is well-formed when its keys are distinct, each `near` set is
duplicate-free (it is a Python set), every referenced neighbor id is a key
(referential closure), and the weight lists of the two directions of every
pair agree (link symmetry).  The empty store is well-formed and every public
mutation preserves well-formedness (proved below), so these are exactly the
states reachable through the API. -/

/-- Ordered list of weights recorded from `a` toward `b`. -/
def wTow (g : Graph α β) (a b : α) : List (Option ℚ) :=
  (g.nearList a).filterMap (fun p => if p.1 = b then some p.2 else none)

/-- Well-formedness invariant of a graph store. -/
def Graph.WF (g : Graph α β) : Prop :=
  (g.data.map Prod.fst).Nodup ∧
  (∀ p ∈ g.data, p.2.near.Nodup) ∧
  (∀ p ∈ g.data, ∀ q ∈ p.2.near, q.1 ∈ g.data.map Prod.fst) ∧
  (∀ a ∈ g.data.map Prod.fst, ∀ b ∈ g.data.map Prod.fst, wTow g a b = wTow g b a)

instance (g : Graph α β) : Decidable g.WF := by
  unfold Graph.WF; infer_instance

/-! ### Operation sequences -/

/-- The public add/remove mutations of the store (with bulk variants), used to
quantify over "any sequence of operations". -/
inductive Op (α : Type) where
  | addNode (a : α)
  | addNodes (l : List α)
  | removeNode (a : α)
  | removeNodes (l : List α)
  | addLink (a b : α) (w : Option ℚ)
  | addLinks (l : List (α × α × Option ℚ))
  | removeLink (a b : α)
  | removeLinks (l : List (α × α))

/-- Apply one operation; if it raises, the returned store is the partially
mutated one. -/
def applyOp (g : Graph α β) : Op α → Graph α β × Option PyErr
  | .addNode a => ((g.add_node a).1, none)
  | .addNodes l => ((g.add_nodes_from_list l).1, none)
  | .removeNode a =>
    match g.remove_node a with
    | (g1, Except.ok _) => (g1, none)
    | (g1, Except.error e) => (g1, some e)
  | .removeNodes l =>
    match g.remove_nodes_from_list l with
    | (g1, Except.ok _) => (g1, none)
    | (g1, Except.error e) => (g1, some e)
  | .addLink a b w => ((g.add_link a b w).1, none)
  | .addLinks l => ((g.add_links_from_list l).1, none)
  | .removeLink a b =>
    match g.remove_link_between_nodes a b with
    | (g1, Except.ok _) => (g1, none)
    | (g1, Except.error e) => (g1, some e)
  | .removeLinks l =>
    match g.remove_links_from_list_of_neighbors l with
    | (g1, Except.ok _) => (g1, none)
    | (g1, Except.error e) => (g1, some e)

/-- Run a sequence of operations; an uncaught exception aborts the rest of the
sequence, leaving the store as far as the raising operation got. -/
def runOps : Graph α β → List (Op α) → Graph α β × Option PyErr
  | g, [] => (g, none)
  | g, op :: rest =>
    match applyOp g op with
    | (g1, none) => runOps g1 rest
    | (g1, some e) => (g1, some e)

/-! ### Concrete stores used by claim theorems and witnesses -/

/-- A weighted store with two nodes 0 and 1. -/
def twoNodeWeighted : Graph Nat Nat :=
  (((Graph.mkEmpty Nat Nat true).add_node 0).1.add_node 1).1

/-- The store after `addLink(0,1,5.0)` followed by `addLink(0,1,9.0)`. -/
def twoNodeRelinked : Graph Nat Nat :=
  ((twoNodeWeighted.add_link 0 1 (some 5)).1.add_link 0 1 (some 9)).1

/-- An unweighted one-node store. -/
def oneNodeStore : Graph Nat Nat := ((Graph.mkEmpty Nat Nat false).add_node 0).1

/-- The one-node store after `addLink(0,0)`. -/
def selfLinked : Graph Nat Nat := (oneNodeStore.add_link 0 0 none).1

/-- An operation sequence exercising adds and removes. -/
def c3ops : List (Op Nat) :=
  [Op.addNode 0, Op.addNode 1, Op.addLink 0 1 (some 5), Op.addNode 2,
   Op.addLink 1 2 none, Op.removeNode 2]

/-- A triangle on nodes 0, 1, 2. -/
def triangleStore : Graph Nat Nat :=
  (runOps (Graph.mkEmpty Nat Nat false)
    [Op.addNodes [0, 1, 2], Op.addLinks [(0, 1, none), (0, 2, none), (1, 2, none)]]).1

/-- The triangle after `remove_node(0)`. -/
def triangleWithout0 : Graph Nat Nat := (triangleStore.remove_node 0).1

/-! ### Reachability and BFS distance (specification side)

These definitions are the mathematical yardstick the traversal claims are
measured against; they are not part of the embedded code. -/

/-- Neighbor ids of a node (empty when the node is absent): the first
components of the `near` entries — exactly what `get_neighbors` returns for an
existing node. -/
def neighborsD (g : Graph α β) (a : α) : List α := (g.nearList a).map Prod.fst

/-- One breadth step: everything in `s` plus every neighbor of a member. -/
def ballStep (g : Graph α β) (s : List α) : List α :=
  s ++ ((s.flatMap (neighborsD g)).dedup.filter (fun v => decide (v ∉ s)))

/-- Nodes within `n` hops of `a`. -/
def ball (g : Graph α β) (a : α) : Nat → List α
  | 0 => [a]
  | n + 1 => ballStep g (ball g a n)

/-- BFS hop distance from `a` to `b`: the least `n` with `b ∈ ball g a n`
(`none` when `b` is unreachable; the ball saturates within `size` steps). -/
def bfsDist (g : Graph α β) (a b : α) : Option Nat :=
  (List.range (g.size + 1)).find? (fun n => decide (b ∈ ball g a n))

/-- Neighbor list of node `i` in the `n`-node path graph `0 - 1 - ... - n-1`. -/
def pnear (n i : Nat) : List (Nat × Option ℚ) :=
  (if 0 < i then [(i - 1, (none : Option ℚ))] else []) ++
    (if i + 1 < n then [(i + 1, (none : Option ℚ))] else [])

/-- The `n`-node path graph, an unweighted store whose node `i` is linked to
`i-1` and `i+1`.  (The same store is produced by `add_nodes_from_list` on
`0..n-1` followed by `add_links_from_list` on the consecutive pairs.) -/
def pathGraph (n : Nat) : Graph Nat Nat :=
  ⟨false, (List.range n).map (fun i => (i, ⟨pnear n i, none⟩))⟩

/-- Number of `near` entries across the whole store whose target is not yet
visited: the potential that bounds the BFS loop, also on stores holding
duplicated neighbor entries. -/
def unvisitedEntries (g : Graph α β) (visited : List α) : Nat :=
  (g.data.map
    (fun p => (p.2.near.filter (fun q => decide (q.1 ∉ visited))).length)).sum

/-- A weighted two-node string-keyed store, for the serialization claims. -/
def strStore : Graph PyKey Nat :=
  (runOps (Graph.mkEmpty PyKey Nat true)
    [Op.addNodes [PyKey.str ("a"), PyKey.str ("b")],
     Op.addLink (PyKey.str ("a")) (PyKey.str ("b")) (some 5)]).1

/-- The 10-node example graph of the shortest-path example (claim C4). -/
def c4Graph : Graph Nat Nat :=
  (runOps (Graph.mkEmpty Nat Nat false)
    [Op.addNodes [0, 1, 2, 3, 4, 5, 6, 7, 8, 9],
     Op.addLinks [(0, 1, none), (0, 2, none), (0, 3, none), (1, 4, none),
       (2, 4, none), (2, 5, none), (3, 5, none), (3, 7, none), (4, 6, none),
       (5, 6, none), (6, 7, none), (4, 8, none), (6, 8, none), (6, 9, none),
       (8, 9, none)]]).1

/-- The 10-node example graph of the depth-layer example (claim C8). -/
def c8Graph : Graph Nat Nat :=
  (runOps (Graph.mkEmpty Nat Nat false)
    [Op.addNodes [0, 1, 2, 3, 4, 5, 6, 7, 8, 9],
     Op.addLinks [(0, 1, none), (0, 2, none), (0, 3, none), (1, 6, none),
       (1, 5, none), (2, 4, none), (5, 6, none), (3, 4, none), (6, 7, none),
       (5, 8, none), (4, 8, none), (4, 9, none), (9, 8, none),
       (4, 5, none)]]).1

/-! ### Association-list lookup toolkit -/

theorem pyGet_eq_none_iff {δ : Type} (k : α) (l : List (α × δ)) :
    pyGet k l = none ↔ k ∉ l.map Prod.fst := by
  induction l with
  | nil => simp [pyGet]
  | cons p rest ih =>
    simp only [pyGet, List.map_cons, List.mem_cons]
    by_cases h : p.1 = k
    · simp [h]
    · simp only [h, if_false, ih]
      constructor
      · intro hn hc
        rcases hc with hc | hc
        · exact h hc.symm
        · exact hn hc
      · intro hn hc
        exact hn (Or.inr hc)

theorem pyGet_isSome_iff {δ : Type} (k : α) (l : List (α × δ)) :
    (pyGet k l).isSome = true ↔ k ∈ l.map Prod.fst := by
  rw [Option.isSome_iff_ne_none, ne_eq, pyGet_eq_none_iff, not_not]

theorem pyGet_mem {δ : Type} {k : α} {l : List (α × δ)} {v : δ}
    (h : pyGet k l = some v) : (k, v) ∈ l := by
  induction l with
  | nil => simp [pyGet] at h
  | cons p rest ih =>
    by_cases hk : p.1 = k
    · simp only [pyGet, hk, if_pos] at h
      cases h
      exact List.mem_cons.mpr (Or.inl (by rw [← hk]))
    · simp only [pyGet, hk, if_neg, not_false_iff] at h
      exact List.mem_cons_of_mem _ (ih h)

theorem pyGet_of_mem {δ : Type} {k : α} {l : List (α × δ)} {v : δ}
    (hnd : (l.map Prod.fst).Nodup) (h : (k, v) ∈ l) : pyGet k l = some v := by
  induction l with
  | nil => simp at h
  | cons p rest ih =>
    simp only [List.map_cons, List.nodup_cons] at hnd
    rcases List.mem_cons.mp h with h1 | h1
    · rw [← h1]
      simp [pyGet]
    · have hne : p.1 ≠ k := by
        intro he
        exact hnd.1 (he ▸ (List.mem_map.mpr ⟨(k, v), h1, rfl⟩))
      simp [pyGet, hne, ih hnd.2 h1]

theorem pyGet_append {δ : Type} (k : α) (l1 l2 : List (α × δ)) :
    pyGet k (l1 ++ l2) =
      match pyGet k l1 with
      | some v => some v
      | none => pyGet k l2 := by
  induction l1 with
  | nil => simp [pyGet]
  | cons p rest ih =>
    by_cases h : p.1 = k <;> simp [pyGet, h, ih]

/-! ### State-update lemmas -/

theorem keys_setNear (g : Graph α β) (a : α) (f : List (α × Option ℚ) → List (α × Option ℚ)) :
    (g.setNear a f).data.map Prod.fst = g.data.map Prod.fst := by
  simp only [Graph.setNear, List.map_map]
  apply List.map_congr_left
  intro p _
  by_cases h : p.1 = a <;> simp [h]

theorem keys_setPayload (g : Graph α β) (a : α) (p : Option β) :
    (g.setPayload a p).data.map Prod.fst = g.data.map Prod.fst := by
  simp only [Graph.setPayload, List.map_map]
  apply List.map_congr_left
  intro q _
  by_cases h : q.1 = a <;> simp [h]

theorem lookupRec_setNear (g : Graph α β) (a : α)
    (f : List (α × Option ℚ) → List (α × Option ℚ)) (x : α) :
    (g.setNear a f).lookupRec x =
      (g.lookupRec x).map (fun r => if x = a then ⟨f r.near, r.payload⟩ else r) := by
  show pyGet x (g.data.map _) = _
  rw [Graph.lookupRec]
  induction g.data with
  | nil => simp [pyGet]
  | cons p rest ih =>
    by_cases hp : p.1 = a
    · by_cases hx : p.1 = x
      · have hxa : x = a := by rw [← hx]; exact hp
        simp [pyGet, hp, hx, hxa]
      · have hax : ¬ x = a := fun h => hx (by rw [hp, ← h])
        have hax1 : ¬ a = x := fun h => hax h.symm
        simp [pyGet, hp, hx, ih, hax, hax1]
    · by_cases hx : p.1 = x
      · have : ¬ x = a := fun h => hp (hx.trans h)
        simp [pyGet, hp, hx, this]
      · simp [pyGet, hp, hx, ih]

theorem lookupRec_setPayload (g : Graph α β) (a : α) (pl : Option β) (x : α) :
    (g.setPayload a pl).lookupRec x =
      (g.lookupRec x).map (fun r => if x = a then ⟨r.near, pl⟩ else r) := by
  show pyGet x (g.data.map _) = _
  rw [Graph.lookupRec]
  induction g.data with
  | nil => simp [pyGet]
  | cons p rest ih =>
    by_cases hp : p.1 = a
    · by_cases hx : p.1 = x
      · have hxa : x = a := by rw [← hx]; exact hp
        simp [pyGet, hp, hx, hxa]
      · have hax : ¬ x = a := fun h => hx (by rw [hp, ← h])
        have hax1 : ¬ a = x := fun h => hax h.symm
        simp [pyGet, hp, hx, ih, hax, hax1]
    · by_cases hx : p.1 = x
      · have : ¬ x = a := fun h => hp (hx.trans h)
        simp [pyGet, hp, hx, this]
      · simp [pyGet, hp, hx, ih]

theorem lookupRec_delKey (g : Graph α β) (a x : α) :
    (g.delKey a).lookupRec x = if x = a then none else g.lookupRec x := by
  unfold Graph.delKey Graph.lookupRec
  simp only [ne_eq, decide_not]
  induction g.data with
  | nil => simp [pyGet]
  | cons p rest ih =>
    rw [List.filter_cons]
    by_cases hp : p.1 = a
    · rw [show (!decide (p.1 = a)) = false by simp [hp]]
      simp only [Bool.false_eq_true, if_false]
      rw [ih]
      by_cases hx : x = a
      · simp [hx]
      · have hpx : ¬ p.1 = x := fun h => hx (by rw [← h]; exact hp)
        simp [pyGet, hx, hpx]
    · rw [show (!decide (p.1 = a)) = true by simp [hp]]
      simp only [if_true]
      by_cases hx : p.1 = x
      · have hxa : ¬ x = a := fun h => hp (by rw [hx, h])
        simp [pyGet, hx, hxa]
      · simp only [pyGet, hx, if_false]
        exact ih

theorem nearList_setNear (g : Graph α β) (a : α)
    (f : List (α × Option ℚ) → List (α × Option ℚ)) (x : α) :
    (g.setNear a f).nearList x =
      if x = a then
        match g.lookupRec a with
        | none => []
        | some r => f r.near
      else g.nearList x := by
  unfold Graph.nearList
  rw [lookupRec_setNear]
  by_cases h : x = a
  · subst h
    cases g.lookupRec x <;> simp
  · cases g.lookupRec x <;> simp [h]

theorem nearList_eq_nil_of_not_exists {g : Graph α β} {a : α}
    (h : g.node_exists a = false) : g.nearList a = [] := by
  unfold Graph.nearList
  unfold Graph.node_exists at h
  cases hl : g.lookupRec a with
  | none => rfl
  | some r => rw [hl] at h; simp at h

theorem node_exists_iff_mem (g : Graph α β) (a : α) :
    g.node_exists a = true ↔ a ∈ g.data.map Prod.fst := by
  unfold Graph.node_exists Graph.lookupRec
  rw [pyGet_isSome_iff]

/-! ### Weight-list lemmas -/

theorem mem_nearList_iff_wTow (g : Graph α β) (a b : α) (w : Option ℚ) :
    (b, w) ∈ g.nearList a ↔ w ∈ wTow g a b := by
  unfold wTow
  rw [List.mem_filterMap]
  constructor
  · intro h
    exact ⟨(b, w), h, by simp⟩
  · rintro ⟨⟨b1, w1⟩, hmem, heq⟩
    by_cases hb : b1 = b
    · subst hb
      simp only [if_pos] at heq
      cases heq
      exact hmem
    · simp [hb] at heq

theorem fst_mem_near_iff_wTow (g : Graph α β) (a b : α) :
    b ∈ (g.nearList a).map Prod.fst ↔ wTow g a b ≠ [] := by
  constructor
  · intro h hnil
    rcases List.mem_map.mp h with ⟨q, hmem, heq⟩
    have hw : q.2 ∈ wTow g a q.1 := (mem_nearList_iff_wTow g a q.1 q.2).mp hmem
    rw [heq, hnil] at hw
    simp at hw
  · intro h
    rcases List.exists_mem_of_ne_nil _ h with ⟨w, hw⟩
    have := (mem_nearList_iff_wTow g a b w).mpr hw
    exact List.mem_map.mpr ⟨(b, w), this, rfl⟩

theorem wTow_eq_nil_of_not_exists {g : Graph α β} {a : α}
    (h : g.node_exists a = false) (b : α) : wTow g a b = [] := by
  unfold wTow
  rw [nearList_eq_nil_of_not_exists h]
  rfl

/-! ### Unbounded forms of the well-formedness clauses -/

theorem nearList_eq_of_mem {g : Graph α β} (hnd : (g.data.map Prod.fst).Nodup)
    {p : α × NodeRec α β} (hp : p ∈ g.data) : g.nearList p.1 = p.2.near := by
  unfold Graph.nearList Graph.lookupRec
  rw [pyGet_of_mem hnd hp]

theorem lookupRec_mem {g : Graph α β} {a : α} {r : NodeRec α β}
    (h : g.lookupRec a = some r) : (a, r) ∈ g.data :=
  pyGet_mem h

theorem Graph.WF.keys_nodup {g : Graph α β} (h : g.WF) :
    (g.data.map Prod.fst).Nodup := h.1

theorem Graph.WF.near_nodup {g : Graph α β} (h : g.WF) (a : α) :
    (g.nearList a).Nodup := by
  unfold Graph.nearList
  cases hl : g.lookupRec a with
  | none => simp
  | some r => exact h.2.1 (a, r) (lookupRec_mem hl)

theorem Graph.WF.closure {g : Graph α β} (h : g.WF) {a : α} {q : α × Option ℚ}
    (hq : q ∈ g.nearList a) : q.1 ∈ g.data.map Prod.fst := by
  unfold Graph.nearList at hq
  cases hl : g.lookupRec a with
  | none => rw [hl] at hq; simp at hq
  | some r =>
    rw [hl] at hq
    exact h.2.2.1 (a, r) (lookupRec_mem hl) q hq

theorem wTow_eq_nil_of_target_not_mem {g : Graph α β} (h : g.WF) {a : α}
    (ha : a ∉ g.data.map Prod.fst) (x : α) : wTow g x a = [] := by
  unfold wTow
  rw [List.filterMap_eq_nil_iff]
  intro q hq
  have : q.1 ∈ g.data.map Prod.fst := h.closure hq
  have hne : ¬ q.1 = a := fun he => ha (he ▸ this)
  simp [hne]

theorem Graph.WF.wTow_symm {g : Graph α β} (h : g.WF) (a b : α) :
    wTow g a b = wTow g b a := by
  by_cases ha : a ∈ g.data.map Prod.fst
  · by_cases hb : b ∈ g.data.map Prod.fst
    · exact h.2.2.2 a ha b hb
    · rw [wTow_eq_nil_of_target_not_mem h hb a]
      have : g.node_exists b = false := by
        rw [← Bool.not_eq_true, node_exists_iff_mem]
        exact hb
      exact (wTow_eq_nil_of_not_exists this a).symm
  · rw [wTow_eq_nil_of_target_not_mem h ha b]
    have : g.node_exists a = false := by
      rw [← Bool.not_eq_true, node_exists_iff_mem]
      exact ha
    exact wTow_eq_nil_of_not_exists this b

theorem Graph.WF.mem_near_symm {g : Graph α β} (h : g.WF) {a b : α} {w : Option ℚ}
    (hm : (b, w) ∈ g.nearList a) : (a, w) ∈ g.nearList b := by
  rw [mem_nearList_iff_wTow] at hm ⊢
  rw [← h.wTow_symm a b]
  exact hm

theorem Graph.WF.ofFacts {g : Graph α β}
    (h1 : (g.data.map Prod.fst).Nodup)
    (h2 : ∀ a, (g.nearList a).Nodup)
    (h3 : ∀ a, ∀ q ∈ g.nearList a, q.1 ∈ g.data.map Prod.fst)
    (h4 : ∀ a b, wTow g a b = wTow g b a) : g.WF := by
  refine ⟨h1, ?_, ?_, ?_⟩
  · intro p hp
    have := h2 p.1
    rwa [nearList_eq_of_mem h1 hp] at this
  · intro p hp q hq
    refine h3 p.1 q ?_
    rwa [nearList_eq_of_mem h1 hp]
  · intro a _ b _
    exact h4 a b

/-! ### Set-operation lemmas -/

theorem mem_setAdd {γ : Type} [DecidableEq γ] (x y : γ) (s : List γ) :
    y ∈ setAdd x s ↔ y = x ∨ y ∈ s := by
  unfold setAdd
  by_cases h : x ∈ s
  · simp only [h, if_true]
    constructor
    · exact Or.inr
    · rintro (rfl | hy)
      · exact h
      · exact hy
  · simp [h, or_comm]

theorem nodup_setAdd {γ : Type} [DecidableEq γ] (x : γ) {s : List γ}
    (h : s.Nodup) : (setAdd x s).Nodup := by
  unfold setAdd
  by_cases hx : x ∈ s
  · simp [hx, h]
  · simp [hx, h, List.nodup_append]

theorem setRemove_subset {γ : Type} [DecidableEq γ] (x : γ) (s : List γ) :
    setRemove x s ⊆ s := by
  induction s with
  | nil => simp [setRemove]
  | cons y rest ih =>
    unfold setRemove
    by_cases h : y = x
    · simp only [h, if_true]
      exact List.subset_cons_self _ _
    · simp only [h, if_false]
      exact List.cons_subset_cons y ih

theorem nodup_setRemove {γ : Type} [DecidableEq γ] (x : γ) {s : List γ}
    (h : s.Nodup) : (setRemove x s).Nodup := by
  induction s with
  | nil => simp [setRemove]
  | cons y rest ih =>
    rw [List.nodup_cons] at h
    unfold setRemove
    by_cases hy : y = x
    · simp [hy, h.2]
    · simp only [hy, if_false, List.nodup_cons]
      exact ⟨fun hm => h.1 (setRemove_subset x rest hm), ih h.2⟩

theorem filterMap_setAdd {γ δ : Type} [DecidableEq γ] (f : γ → Option δ) (x : γ) (s : List γ) :
    (setAdd x s).filterMap f =
      if x ∈ s then s.filterMap f else s.filterMap f ++ (f x).toList := by
  unfold setAdd
  by_cases h : x ∈ s
  · simp [h]
  · simp only [h, if_false, List.filterMap_append]
    rcases hf : f x with _ | v <;> simp [List.filterMap_cons, hf]

/-- Removing the first tuple toward `b` (the one `__get_reference_tuple`
finds) drops the head of the weight list toward `b` and leaves the weight
lists toward every other target unchanged. -/
theorem find?_fst_remove {s : List (α × Option ℚ)} {b : α} {t : α × Option ℚ}
    (h : s.find? (fun q => decide (q.1 = b)) = some t) :
    t.1 = b ∧ t ∈ s ∧
    (s.filterMap (fun p => if p.1 = b then some p.2 else none)).head? = some t.2 ∧
    (setRemove t s).filterMap (fun p => if p.1 = b then some p.2 else none)
      = (s.filterMap (fun p => if p.1 = b then some p.2 else none)).tail ∧
    ∀ y, y ≠ b →
      (setRemove t s).filterMap (fun p => if p.1 = y then some p.2 else none)
        = s.filterMap (fun p => if p.1 = y then some p.2 else none) := by
  induction s with
  | nil => simp at h
  | cons q rest ih =>
    by_cases hq : q.1 = b
    · rw [List.find?_cons_of_pos _ (by simp [hq])] at h
      cases h
      refine ⟨hq, List.mem_cons_self _ _, ?_, ?_, ?_⟩
      · simp [List.filterMap_cons, hq]
      · simp [setRemove, List.filterMap_cons, hq]
      · intro y hy
        have hty : ¬ t.1 = y := by rw [hq]; exact fun hh => hy hh.symm
        simp [setRemove, List.filterMap_cons, hty]
    · rw [List.find?_cons_of_neg _ (by simp [hq])] at h
      obtain ⟨ht1, ht2, ht3, ht4, ht5⟩ := ih h
      have hqt : ¬ q = t := fun he => hq (by rw [he, ht1])
      refine ⟨ht1, List.mem_cons_of_mem _ ht2, ?_, ?_, ?_⟩
      · simp [List.filterMap_cons, hq, ht3]
      · simp only [setRemove, hqt, if_false]
        simp [List.filterMap_cons, hq, ht4]
      · intro y hy
        by_cases hqy : q.1 = y
        · simp only [setRemove, hqt, if_false]
          simp [List.filterMap_cons, hqy, ht5 y hy]
        · simp only [setRemove, hqt, if_false]
          simp [List.filterMap_cons, hqy, ht5 y hy]

/-! ### Characterizations of the mutating operations -/

theorem are_neighbors_iff (g : Graph α β) (a b : α) :
    g.are_neighbors a b = true ↔
      a ∈ g.data.map Prod.fst ∧ b ∈ g.data.map Prod.fst ∧
      wTow g a b ≠ [] ∧ wTow g b a ≠ [] := by
  unfold Graph.are_neighbors
  by_cases h : (g.node_exists a && g.node_exists b) = true
  · rw [if_pos h]
    rw [Bool.and_eq_true] at h
    rw [node_exists_iff_mem] at h
    rw [node_exists_iff_mem] at h
    simp only [Bool.and_eq_true, decide_eq_true_eq]
    rw [fst_mem_near_iff_wTow, fst_mem_near_iff_wTow]
    tauto
  · rw [if_neg h]
    rw [Bool.and_eq_true] at h
    rw [node_exists_iff_mem] at h
    rw [node_exists_iff_mem] at h
    simp only [Bool.false_eq_true, false_iff]
    tauto

theorem node_exists_congr_keys {g g' : Graph α β}
    (h : g'.data.map Prod.fst = g.data.map Prod.fst) (a : α) :
    g'.node_exists a = g.node_exists a := by
  rcases hb : g.node_exists a with _ | _
  · rw [← Bool.not_eq_true, node_exists_iff_mem, h]
    rw [← Bool.not_eq_true, node_exists_iff_mem] at hb
    exact hb
  · rw [node_exists_iff_mem, h]
    rw [node_exists_iff_mem] at hb
    exact hb

theorem nearList_setNear_exists {g : Graph α β} {a : α}
    (h : g.node_exists a = true)
    (f : List (α × Option ℚ) → List (α × Option ℚ)) (x : α) :
    (g.setNear a f).nearList x = if x = a then f (g.nearList a) else g.nearList x := by
  rw [nearList_setNear]
  unfold Graph.node_exists at h
  by_cases hx : x = a
  · cases hl : g.lookupRec a with
    | none => rw [hl] at h; simp at h
    | some r =>
      simp only [hx, if_true]
      unfold Graph.nearList
      rw [hl]
  · simp [hx]

theorem keys_add_node (g : Graph α β) (a : α) :
    (g.add_node a).1.data.map Prod.fst =
      if g.node_exists a then g.data.map Prod.fst else g.data.map Prod.fst ++ [a] := by
  unfold Graph.add_node Graph.node_does_not_exist
  cases h : g.node_exists a <;> simp

theorem nearList_add_node (g : Graph α β) (a x : α) :
    (g.add_node a).1.nearList x = g.nearList x := by
  unfold Graph.add_node Graph.node_does_not_exist
  cases h : g.node_exists a with
  | true => simp
  | false =>
    simp only [Bool.not_false, if_true]
    unfold Graph.nearList Graph.lookupRec
    show (match pyGet x (g.data ++ [(a, ⟨[], none⟩)]) with
          | none => []
          | some r => r.near) = _
    rw [pyGet_append]
    cases hl : pyGet x g.data with
    | some r => simp
    | none =>
      simp only [pyGet]
      by_cases hx : a = x <;> simp [hx]

theorem wTow_add_node (g : Graph α β) (a x y : α) :
    wTow (g.add_node a).1 x y = wTow g x y := by
  unfold wTow
  rw [nearList_add_node]

theorem wTow_congr {g g' : Graph α β} {a : α}
    (h : g'.nearList a = g.nearList a) (b : α) : wTow g' a b = wTow g a b := by
  unfold wTow
  rw [h]

theorem tow_setAdd_ne {s : List (α × Option ℚ)} {c : α} (tw : Option ℚ) {y : α} (h : ¬ c = y) :
    (setAdd (c, tw) s).filterMap (fun p => if p.1 = y then some p.2 else none)
      = s.filterMap (fun p => if p.1 = y then some p.2 else none) := by
  rw [filterMap_setAdd]
  by_cases hm : (c, tw) ∈ s
  · simp [hm]
  · simp [hm, h]

theorem tow_setAdd_self (s : List (α × Option ℚ)) (c : α) (tw : Option ℚ) :
    (setAdd (c, tw) s).filterMap (fun p => if p.1 = c then some p.2 else none)
      = if (c, tw) ∈ s then s.filterMap (fun p => if p.1 = c then some p.2 else none)
        else s.filterMap (fun p => if p.1 = c then some p.2 else none) ++ [tw] := by
  rw [filterMap_setAdd]
  by_cases hm : (c, tw) ∈ s <;> simp [hm]

/-- Normal form of `add_link`: both inserted tuples carry the same weight
slot. -/
theorem add_link_eq (g : Graph α β) (i d : α) (w : Option ℚ) :
    g.add_link i d w =
      if g.node_exists i && g.node_exists d then
        (((g.setNear i (setAdd (d, if g.hasWeights then some (w.getD 1) else none))).setNear d
            (setAdd (i, if g.hasWeights then some (w.getD 1) else none))), 1)
      else (g, 0) := by
  unfold Graph.add_link
  cases g.hasWeights <;> simp

theorem keys_add_link (g : Graph α β) (i d : α) (w : Option ℚ) :
    (g.add_link i d w).1.data.map Prod.fst = g.data.map Prod.fst := by
  rw [add_link_eq]
  by_cases h : (g.node_exists i && g.node_exists d) = true
  · rw [if_pos h]
    show ((_ : Graph α β).setNear _ _).data.map Prod.fst = _
    rw [keys_setNear, keys_setNear]
  · rw [if_neg h]

theorem WF_add_link {g : Graph α β} (h : g.WF) (i d : α) (w : Option ℚ) :
    (g.add_link i d w).1.WF := by
  rw [add_link_eq]
  by_cases hg : (g.node_exists i && g.node_exists d) = true
  swap
  · rw [if_neg hg]; exact h
  rw [if_pos hg]
  rw [Bool.and_eq_true] at hg
  obtain ⟨hi, hd⟩ := hg
  set tw := if g.hasWeights then some (w.getD 1) else none with htw
  set g1 := g.setNear i (setAdd (d, tw)) with hg1
  set g2 := g1.setNear d (setAdd (i, tw)) with hg2
  have hkeys1 : g1.data.map Prod.fst = g.data.map Prod.fst := keys_setNear g i _
  have hkeys2 : g2.data.map Prod.fst = g.data.map Prod.fst := by
    rw [hg2, keys_setNear, hkeys1]
  have hd1 : g1.node_exists d = true := by
    rw [node_exists_congr_keys hkeys1]; exact hd
  have hnl1 : ∀ x, g1.nearList x =
      if x = i then setAdd (d, tw) (g.nearList i) else g.nearList x :=
    fun x => nearList_setNear_exists hi _ x
  have hnl2 : ∀ x, g2.nearList x =
      if x = d then setAdd (i, tw) (g1.nearList d) else g1.nearList x :=
    fun x => nearList_setNear_exists hd1 _ x
  have himem : i ∈ g.data.map Prod.fst := (node_exists_iff_mem g i).mp hi
  have hdmem : d ∈ g.data.map Prod.fst := (node_exists_iff_mem g d).mp hd
  apply Graph.WF.ofFacts
  · rw [hkeys2]
    exact h.keys_nodup
  · intro x
    rw [hnl2]
    by_cases hx : x = d
    · rw [if_pos hx]
      apply nodup_setAdd
      rw [hnl1]
      by_cases hxi : d = i
      · rw [if_pos hxi]
        exact nodup_setAdd _ (h.near_nodup i)
      · rw [if_neg hxi]
        exact h.near_nodup d
    · rw [if_neg hx, hnl1]
      by_cases hxi : x = i
      · rw [if_pos hxi]
        exact nodup_setAdd _ (h.near_nodup i)
      · rw [if_neg hxi]
        exact h.near_nodup x
  · intro x q hq
    rw [hkeys2]
    rw [hnl2] at hq
    have step1 : q ∈ g1.nearList d ∨ q ∈ g1.nearList x ∨ q = (i, tw) := by
      by_cases hx : x = d
      · rw [if_pos hx] at hq
        rcases (mem_setAdd _ _ _).mp hq with hq1 | hq1
        · exact Or.inr (Or.inr hq1)
        · exact Or.inl hq1
      · rw [if_neg hx] at hq
        exact Or.inr (Or.inl hq)
    have step2 : ∀ z, q ∈ g1.nearList z → q ∈ g.nearList i ∨ q ∈ g.nearList z ∨ q = (d, tw) := by
      intro z hz
      rw [hnl1] at hz
      by_cases hzi : z = i
      · rw [if_pos hzi] at hz
        rcases (mem_setAdd _ _ _).mp hz with hz1 | hz1
        · exact Or.inr (Or.inr hz1)
        · exact Or.inl hz1
      · rw [if_neg hzi] at hz
        exact Or.inr (Or.inl hz)
    rcases step1 with hc | hc | hc
    · rcases step2 d hc with hc1 | hc1 | hc1
      · exact h.closure hc1
      · exact h.closure hc1
      · rw [hc1]; exact hdmem
    · rcases step2 x hc with hc1 | hc1 | hc1
      · exact h.closure hc1
      · exact h.closure hc1
      · rw [hc1]; exact hdmem
    · rw [hc]; exact himem
  · intro x y
    by_cases hxy : x = y
    · rw [hxy]
    by_cases hid : i = d
    · have unchanged : ∀ u v, ¬ u = v → wTow g2 u v = wTow g u v := by
        intro u v huv
        unfold wTow
        rw [hnl2 u]
        by_cases hud : u = d
        · rw [if_pos hud, hnl1 d, if_pos hid.symm]
          have hc : ¬ i = v := fun he => huv (by rw [hud, ← hid, he])
          have hc2 : ¬ d = v := fun he => hc (hid.trans he)
          rw [tow_setAdd_ne tw hc, tow_setAdd_ne tw hc2, hud, ← hid]
        · have hui : ¬ u = i := fun he => hud (he.trans hid)
          rw [if_neg hud, hnl1 u, if_neg hui]
      rw [unchanged x y hxy, unchanged y x (fun he => hxy he.symm)]
      exact h.wTow_symm x y
    · have hdi : ¬ d = i := fun he => hid he.symm
      have hmemiff : ((i, tw) ∈ g.nearList d) ↔ ((d, tw) ∈ g.nearList i) := by
        rw [mem_nearList_iff_wTow, mem_nearList_iff_wTow, h.wTow_symm d i]
      have hg1d : g1.nearList d = g.nearList d := by rw [hnl1, if_neg hdi]
      have main : ∀ u v, ¬ u = v → wTow g2 u v =
          wTow g u v ++
            (if ((u = i ∧ v = d) ∨ (u = d ∧ v = i)) ∧ (d, tw) ∉ g.nearList i
             then [tw] else []) := by
        intro u v huv
        unfold wTow
        rw [hnl2]
        by_cases hud : u = d
        · rw [if_pos hud, hg1d]
          by_cases hvi : v = i
          · rw [hud, hvi]
            rw [tow_setAdd_self]
            by_cases hmem : (d, tw) ∈ g.nearList i
            · rw [if_pos (hmemiff.mpr hmem)]
              have hcond : ¬ (((d = i ∧ i = d) ∨ (d = d ∧ i = i)) ∧ (d, tw) ∉ g.nearList i) :=
                fun hc => hc.2 hmem
              rw [if_neg hcond, List.append_nil]
            · rw [if_neg (fun hc => hmem (hmemiff.mp hc))]
              have hcond : (((d = i ∧ i = d) ∨ (d = d ∧ i = i)) ∧ (d, tw) ∉ g.nearList i) :=
                ⟨Or.inr ⟨rfl, rfl⟩, hmem⟩
              rw [if_pos hcond]
          · have hiv : ¬ i = v := fun he => hvi he.symm
            rw [tow_setAdd_ne tw hiv]
            have hcond : ¬ (((u = i ∧ v = d) ∨ (u = d ∧ v = i)) ∧ (d, tw) ∉ g.nearList i) := by
              rintro ⟨hc | hc, _⟩
              · exact hid (by rw [← hc.1, hud])
              · exact hvi hc.2
            rw [if_neg hcond, List.append_nil, hud]
        · rw [if_neg hud, hnl1]
          by_cases hui : u = i
          · rw [if_pos hui]
            by_cases hvd : v = d
            · rw [hui, hvd]
              rw [tow_setAdd_self]
              by_cases hmem : (d, tw) ∈ g.nearList i
              · rw [if_pos hmem]
                have hcond : ¬ (((i = i ∧ d = d) ∨ (i = d ∧ d = i)) ∧ (d, tw) ∉ g.nearList i) :=
                  fun hc => hc.2 hmem
                rw [if_neg hcond, List.append_nil]
              · rw [if_neg hmem]
                have hcond : (((i = i ∧ d = d) ∨ (i = d ∧ d = i)) ∧ (d, tw) ∉ g.nearList i) :=
                  ⟨Or.inl ⟨rfl, rfl⟩, hmem⟩
                rw [if_pos hcond]
            · have hdv : ¬ d = v := fun he => hvd he.symm
              rw [tow_setAdd_ne tw hdv]
              have hcond : ¬ (((u = i ∧ v = d) ∨ (u = d ∧ v = i)) ∧ (d, tw) ∉ g.nearList i) := by
                rintro ⟨hc | hc, _⟩
                · exact hvd hc.2
                · exact hud hc.1
              rw [if_neg hcond, List.append_nil, hui]
          · have hcond : ¬ (((u = i ∧ v = d) ∨ (u = d ∧ v = i)) ∧ (d, tw) ∉ g.nearList i) := by
              rintro ⟨hc | hc, _⟩
              · exact hui hc.1
              · exact hud hc.1
            rw [if_neg hui, if_neg hcond, List.append_nil]
      rw [main x y hxy, main y x (fun he => hxy he.symm), h.wTow_symm x y]
      by_cases hc : ((x = i ∧ y = d) ∨ (x = d ∧ y = i)) ∧ (d, tw) ∉ g.nearList i
      · rw [if_pos hc, if_pos (by tauto)]
      · rw [if_neg hc, if_neg (by tauto)]

theorem find?_isSome_of_mem {γ : Type} (p : γ → Bool) {l : List γ} {x : γ}
    (hx : x ∈ l) (hp : p x = true) : ∃ t, l.find? p = some t := by
  induction l with
  | nil => simp at hx
  | cons y rest ih =>
    by_cases hy : p y = true
    · exact ⟨y, List.find?_cons_of_pos _ hy⟩
    · rcases List.mem_cons.mp hx with he | hx1
      · rw [he] at hp
        exact absurd hp hy
      · rcases ih hx1 with ⟨t, ht⟩
        exact ⟨t, by rw [List.find?_cons_of_neg _ hy, ht]⟩

theorem not_mem_setRemove_self {γ : Type} [DecidableEq γ] {s : List γ} (h : s.Nodup) (x : γ) :
    x ∉ setRemove x s := by
  induction s with
  | nil => simp [setRemove]
  | cons y rest ih =>
    rw [List.nodup_cons] at h
    unfold setRemove
    by_cases hy : y = x
    · rw [if_pos hy]
      rw [hy] at h
      exact h.1
    · rw [if_neg hy]
      intro hm
      rcases List.mem_cons.mp hm with he | hm1
      · exact hy he.symm
      · exact ih h.2 hm1

/-- `are_neighbors` is symmetric in any state: its body is a conjunction of
the two directional membership checks. -/
theorem are_neighbors_symm (g : Graph α β) (a b : α) :
    g.are_neighbors a b = g.are_neighbors b a := by
  unfold Graph.are_neighbors
  rw [Bool.and_comm (g.node_exists b) (g.node_exists a)]
  by_cases h : (g.node_exists a && g.node_exists b) = true
  · rw [if_pos h, if_pos h, Bool.and_comm]
  · rw [if_neg h, if_neg h]

theorem nearList_delKey (g : Graph α β) (a x : α) :
    (g.delKey a).nearList x = if x = a then [] else g.nearList x := by
  unfold Graph.nearList
  rw [lookupRec_delKey]
  by_cases hx : x = a <;> simp [hx]

theorem mem_keys_delKey (g : Graph α β) (a y : α) :
    y ∈ (g.delKey a).data.map Prod.fst ↔ y ∈ g.data.map Prod.fst ∧ ¬ y = a := by
  unfold Graph.delKey
  constructor
  · intro hy
    rcases List.mem_map.mp hy with ⟨q, hq, rfl⟩
    rw [List.mem_filter] at hq
    refine ⟨List.mem_map.mpr ⟨q, hq.1, rfl⟩, ?_⟩
    have := hq.2
    simpa using this
  · rintro ⟨hy, hne⟩
    rcases List.mem_map.mp hy with ⟨q, hq, rfl⟩
    exact List.mem_map.mpr ⟨q, List.mem_filter.mpr ⟨hq, by simpa using hne⟩, rfl⟩

theorem keys_delKey_nodup {g : Graph α β} (h : g.WF) (a : α) :
    ((g.delKey a).data.map Prod.fst).Nodup :=
  List.Nodup.sublist (List.Sublist.map Prod.fst (List.filter_sublist _)) h.keys_nodup

/-- Deleting a node whose `near` set has already been emptied preserves
well-formedness. -/
theorem WF_delKey {g : Graph α β} (h : g.WF) {a : α} (hempty : g.nearList a = []) :
    (g.delKey a).WF := by
  have hwt_nil : ∀ y, wTow g y a = [] := by
    intro y
    rw [← h.wTow_symm a y]
    unfold wTow
    rw [hempty]
    rfl
  apply Graph.WF.ofFacts
  · exact keys_delKey_nodup h a
  · intro x
    rw [nearList_delKey]
    by_cases hx : x = a
    · simp [hx]
    · rw [if_neg hx]
      exact h.near_nodup x
  · intro x q hq
    rw [nearList_delKey] at hq
    by_cases hx : x = a
    · rw [if_pos hx] at hq
      simp at hq
    · rw [if_neg hx] at hq
      have hq1 : q.1 ∈ g.data.map Prod.fst := h.closure hq
      have hqa : ¬ q.1 = a := by
        intro he
        have : q.2 ∈ wTow g x a := by
          rw [← mem_nearList_iff_wTow]
          have : ((a, q.2) : α × Option ℚ) = q := by
            rw [← he]
          rw [this]
          exact hq
        rw [hwt_nil x] at this
        simp at this
      exact (mem_keys_delKey g a q.1).mpr ⟨hq1, hqa⟩
  · intro x y
    have key : ∀ u v, wTow (g.delKey a) u v = if u = a then [] else wTow g u v := by
      intro u v
      unfold wTow
      rw [nearList_delKey]
      by_cases hu : u = a <;> simp [hu]
    rw [key, key]
    by_cases hx : x = a
    · rw [if_pos hx]
      by_cases hy : y = a
      · rw [if_pos hy]
      · rw [if_neg hy, hx]
        exact (hwt_nil y).symm
    · rw [if_neg hx]
      by_cases hy : y = a
      · rw [if_pos hy, hy]
        exact hwt_nil x
      · rw [if_neg hy]
        exact h.wTow_symm x y

/-- Successful removal of a link between two distinct neighboring nodes: the
first tuple toward the other endpoint disappears from each side, nothing else
changes, and well-formedness is preserved. -/
theorem remove_link_spec {g : Graph α β} (h : g.WF) {i d : α} (hne : ¬ i = d)
    (hab : g.are_neighbors i d = true) :
    ∃ tf tb g1,
      (g.nearList i).find? (fun t => decide (t.1 = d)) = some tf ∧
      (g.nearList d).find? (fun t => decide (t.1 = i)) = some tb ∧
      g.remove_link_between_nodes i d = (g1, Except.ok 1) ∧
      g1.hasWeights = g.hasWeights ∧
      g1.data.map Prod.fst = g.data.map Prod.fst ∧
      g1.nearList i = setRemove tf (g.nearList i) ∧
      g1.nearList d = setRemove tb (g.nearList d) ∧
      (∀ x, ¬ x = i → ¬ x = d → g1.nearList x = g.nearList x) ∧
      g1.WF := by
  obtain ⟨himem, hdmem, hwid, hwdi⟩ := (are_neighbors_iff g i d).mp hab
  have hdm : d ∈ (g.nearList i).map Prod.fst := (fst_mem_near_iff_wTow g i d).mpr hwid
  have him : i ∈ (g.nearList d).map Prod.fst := (fst_mem_near_iff_wTow g d i).mpr hwdi
  obtain ⟨q1, hq1mem, hq1fst⟩ := List.mem_map.mp hdm
  obtain ⟨tf, htf⟩ := find?_isSome_of_mem (fun t => decide (t.1 = d)) hq1mem
    (by simp [hq1fst])
  obtain ⟨q2, hq2mem, hq2fst⟩ := List.mem_map.mp him
  obtain ⟨tb, htb⟩ := find?_isSome_of_mem (fun t => decide (t.1 = i)) hq2mem
    (by simp [hq2fst])
  obtain ⟨htf1, htfmem, htfhead, htftail, htfother⟩ := find?_fst_remove htf
  obtain ⟨htb1, htbmem, htbhead, htbtail, htbother⟩ := find?_fst_remove htb
  have hex_i : g.node_exists i = true := (node_exists_iff_mem g i).mpr himem
  have hex_d : g.node_exists d = true := (node_exists_iff_mem g d).mpr hdmem
  have hrt_fwd : g.get_reference_tuple i d = some tf := by
    unfold Graph.get_reference_tuple
    rw [if_pos hab]
    exact htf
  have hab2 : g.are_neighbors d i = true := by
    rw [are_neighbors_symm]
    exact hab
  have hrt_bwd : g.get_reference_tuple d i = some tb := by
    unfold Graph.get_reference_tuple
    rw [if_pos hab2]
    exact htb
  set gm := g.setNear i (setRemove tf) with hgm
  have hkeysm : gm.data.map Prod.fst = g.data.map Prod.fst := keys_setNear g i _
  have hnlm : ∀ x, gm.nearList x = if x = i then setRemove tf (g.nearList i) else g.nearList x :=
    fun x => nearList_setNear_exists hex_i _ x
  have hm_d : gm.nearList d = g.nearList d := by
    rw [hnlm, if_neg (fun he => hne he.symm)]
  have htbinm : tb ∈ gm.nearList d := by
    rw [hm_d]
    exact htbmem
  set g1 := gm.setNear d (setRemove tb) with hg1
  have hexm_d : gm.node_exists d = true := by
    rw [node_exists_congr_keys hkeysm]
    exact hex_d
  have hnl1 : ∀ x, g1.nearList x =
      if x = d then setRemove tb (gm.nearList d) else gm.nearList x :=
    fun x => nearList_setNear_exists hexm_d _ x
  have hrun : g.remove_link_between_nodes i d = (g1, Except.ok 1) := by
    unfold Graph.remove_link_between_nodes
    rw [if_pos hab, hrt_fwd, hrt_bwd]
    dsimp only
    rw [if_pos htfmem, ← hgm, if_pos htbinm, ← hg1]
  have hkeys1 : g1.data.map Prod.fst = g.data.map Prod.fst := by
    rw [hg1, keys_setNear, hkeysm]
  have hn_i : g1.nearList i = setRemove tf (g.nearList i) := by
    rw [hnl1, if_neg hne, hnlm, if_pos rfl]
  have hn_d : g1.nearList d = setRemove tb (g.nearList d) := by
    rw [hnl1, if_pos rfl, hm_d]
  have hn_o : ∀ x, ¬ x = i → ¬ x = d → g1.nearList x = g.nearList x := by
    intro x hxi hxd
    rw [hnl1, if_neg hxd, hnlm, if_neg hxi]
  have t_i : ∀ y, wTow g1 i y = if y = d then (wTow g i d).tail else wTow g i y := by
    intro y
    unfold wTow
    rw [hn_i]
    by_cases hy : y = d
    · rw [if_pos hy, hy]
      exact htftail
    · rw [if_neg hy]
      exact htfother y hy
  have t_d : ∀ y, wTow g1 d y = if y = i then (wTow g d i).tail else wTow g d y := by
    intro y
    unfold wTow
    rw [hn_d]
    by_cases hy : y = i
    · rw [if_pos hy, hy]
      exact htbtail
    · rw [if_neg hy]
      exact htbother y hy
  have t_o : ∀ x y, ¬ x = i → ¬ x = d → wTow g1 x y = wTow g x y := by
    intro x y hxi hxd
    unfold wTow
    rw [hn_o x hxi hxd]
  have hwf : g1.WF := by
    apply Graph.WF.ofFacts
    · rw [hkeys1]
      exact h.keys_nodup
    · intro x
      by_cases hxd : x = d
      · rw [hxd, hn_d]
        exact nodup_setRemove _ (h.near_nodup d)
      · by_cases hxi : x = i
        · rw [hxi, hn_i]
          exact nodup_setRemove _ (h.near_nodup i)
        · rw [hn_o x hxi hxd]
          exact h.near_nodup x
    · intro x q hq
      rw [hkeys1]
      by_cases hxd : x = d
      · rw [hxd, hn_d] at hq
        exact h.closure (setRemove_subset _ _ hq)
      · by_cases hxi : x = i
        · rw [hxi, hn_i] at hq
          exact h.closure (setRemove_subset _ _ hq)
        · rw [hn_o x hxi hxd] at hq
          exact h.closure hq
    · intro x y
      by_cases hxi : x = i
      · by_cases hyd : y = d
        · rw [hxi, hyd, t_i d, if_pos rfl, t_d i, if_pos rfl, h.wTow_symm i d]
        · by_cases hyi : y = i
          · rw [hxi, hyi]
          · rw [hxi, t_i y, if_neg hyd, t_o y i hyi hyd, h.wTow_symm i y]
      · by_cases hxd : x = d
        · by_cases hyi : y = i
          · rw [hxd, hyi, t_d i, if_pos rfl, t_i d, if_pos rfl, h.wTow_symm i d]
          · by_cases hyd : y = d
            · rw [hxd, hyd]
            · rw [hxd, t_d y, if_neg hyi, t_o y d hyi hyd, h.wTow_symm d y]
        · rw [t_o x y hxi hxd]
          by_cases hyi : y = i
          · rw [hyi, t_i x, if_neg hxd, h.wTow_symm x i]
          · by_cases hyd : y = d
            · rw [hyd, t_d x, if_neg hxi, h.wTow_symm x d]
            · rw [t_o y x hyi hyd, h.wTow_symm x y]
  exact ⟨tf, tb, g1, htf, htb, hrun, rfl, hkeys1, hn_i, hn_d, hn_o, hwf⟩

/-- Attempting to remove a self-link raises `KeyError` (the two `set.remove`
calls hit the same tuple); the partially mutated state has lost that tuple
and remains well-formed. -/
theorem remove_link_self_spec {g : Graph α β} (h : g.WF) {i : α}
    (hab : g.are_neighbors i i = true) :
    ∃ tf g1,
      (g.nearList i).find? (fun t => decide (t.1 = i)) = some tf ∧
      g.remove_link_between_nodes i i = (g1, Except.error PyErr.keyError) ∧
      g1.hasWeights = g.hasWeights ∧
      g1.data.map Prod.fst = g.data.map Prod.fst ∧
      g1.nearList i = setRemove tf (g.nearList i) ∧
      (∀ x, ¬ x = i → g1.nearList x = g.nearList x) ∧
      g1.WF := by
  obtain ⟨himem, _, hwid, _⟩ := (are_neighbors_iff g i i).mp hab
  have hdm : i ∈ (g.nearList i).map Prod.fst := (fst_mem_near_iff_wTow g i i).mpr hwid
  obtain ⟨q1, hq1mem, hq1fst⟩ := List.mem_map.mp hdm
  obtain ⟨tf, htf⟩ := find?_isSome_of_mem (fun t => decide (t.1 = i)) hq1mem
    (by simp [hq1fst])
  obtain ⟨htf1, htfmem, htfhead, htftail, htfother⟩ := find?_fst_remove htf
  have hex_i : g.node_exists i = true := (node_exists_iff_mem g i).mpr himem
  have hrt : g.get_reference_tuple i i = some tf := by
    unfold Graph.get_reference_tuple
    rw [if_pos hab]
    exact htf
  set gm := g.setNear i (setRemove tf) with hgm
  have hkeysm : gm.data.map Prod.fst = g.data.map Prod.fst := keys_setNear g i _
  have hnlm : ∀ x, gm.nearList x = if x = i then setRemove tf (g.nearList i) else g.nearList x :=
    fun x => nearList_setNear_exists hex_i _ x
  have hn_i : gm.nearList i = setRemove tf (g.nearList i) := by
    rw [hnlm, if_pos rfl]
  have hnotin : tf ∉ gm.nearList i := by
    rw [hn_i]
    exact not_mem_setRemove_self (h.near_nodup i) tf
  have hrun : g.remove_link_between_nodes i i = (gm, Except.error PyErr.keyError) := by
    unfold Graph.remove_link_between_nodes
    rw [if_pos hab, hrt]
    dsimp only
    rw [if_pos htfmem, ← hgm, if_neg hnotin]
  have t_i : ∀ y, wTow gm i y = if y = i then (wTow g i i).tail else wTow g i y := by
    intro y
    unfold wTow
    rw [hn_i]
    by_cases hy : y = i
    · rw [if_pos hy, hy]
      exact htftail
    · rw [if_neg hy]
      exact htfother y hy
  have t_o : ∀ x y, ¬ x = i → wTow gm x y = wTow g x y := by
    intro x y hxi
    unfold wTow
    rw [hnlm, if_neg hxi]
  have hwf : gm.WF := by
    apply Graph.WF.ofFacts
    · rw [hkeysm]
      exact h.keys_nodup
    · intro x
      by_cases hxi : x = i
      · rw [hxi, hn_i]
        exact nodup_setRemove _ (h.near_nodup i)
      · rw [hnlm, if_neg hxi]
        exact h.near_nodup x
    · intro x q hq
      rw [hkeysm]
      by_cases hxi : x = i
      · rw [hxi, hn_i] at hq
        exact h.closure (setRemove_subset _ _ hq)
      · rw [hnlm, if_neg hxi] at hq
        exact h.closure hq
    · intro x y
      by_cases hxi : x = i
      · by_cases hyi : y = i
        · rw [hxi, hyi]
        · rw [hxi, t_i y, if_neg hyi, t_o y i hyi, h.wTow_symm i y]
      · rw [t_o x y hxi]
        by_cases hyi : y = i
        · rw [hyi, t_i x, if_neg hxi, h.wTow_symm x i]
        · rw [t_o y x hyi, h.wTow_symm x y]
  exact ⟨tf, gm, htf, hrun, rfl, hkeysm, hn_i, fun x hx => by rw [hnlm, if_neg hx], hwf⟩

/-- `remove_link_between_nodes` preserves well-formedness in every case. -/
theorem WF_remove_link {g : Graph α β} (h : g.WF) (i d : α) :
    (g.remove_link_between_nodes i d).1.WF := by
  by_cases hab : g.are_neighbors i d = true
  · by_cases hne : i = d
    · subst hne
      obtain ⟨tf, g1, _, hrun, _, _, _, _, hwf⟩ := remove_link_self_spec h hab
      rw [hrun]
      exact hwf
    · obtain ⟨tf, tb, g1, _, _, hrun, _, _, _, _, _, hwf⟩ := remove_link_spec h hne hab
      rw [hrun]
      exact hwf
  · unfold Graph.remove_link_between_nodes
    rw [if_neg hab]
    exact h

/-- Keys and the `has_weights` flag are untouched by
`remove_link_between_nodes`. -/
theorem remove_link_preserves_shape (g : Graph α β) (i d : α) :
    (g.remove_link_between_nodes i d).1.hasWeights = g.hasWeights ∧
    (g.remove_link_between_nodes i d).1.data.map Prod.fst = g.data.map Prod.fst := by
  unfold Graph.remove_link_between_nodes
  by_cases hab : g.are_neighbors i d = true
  · rw [if_pos hab]
    cases hf : g.get_reference_tuple i d with
    | none => exact ⟨rfl, rfl⟩
    | some tf =>
      cases hb : g.get_reference_tuple d i with
      | none => exact ⟨rfl, rfl⟩
      | some tb =>
        dsimp only
        by_cases h1 : tf ∈ g.nearList i
        · rw [if_pos h1]
          by_cases h2 : tb ∈ (g.setNear i (setRemove tf)).nearList d
          · rw [if_pos h2]
            exact ⟨rfl, by rw [keys_setNear, keys_setNear]⟩
          · rw [if_neg h2]
            exact ⟨rfl, by rw [keys_setNear]⟩
        · rw [if_neg h1]
          exact ⟨rfl, rfl⟩
  · rw [if_neg hab]
    exact ⟨rfl, rfl⟩

theorem mem_keys_of_nearList_ne_nil {g : Graph α β} {a : α} (h : g.nearList a ≠ []) :
    a ∈ g.data.map Prod.fst := by
  unfold Graph.nearList at h
  cases hl : g.lookupRec a with
  | none => rw [hl] at h; simp at h
  | some r => exact List.mem_map.mpr ⟨(a, r), lookupRec_mem hl, rfl⟩

/-- The link-removal loop of `remove_node`, run on the snapshot of `a`'s
`near` set: it preserves well-formedness, keys and the flag in every case, and
on normal completion `a`'s `near` set has been emptied. -/
theorem removeLinksLoop_spec {a : α} :
    ∀ (ts : List (α × Option ℚ)) (g : Graph α β), g.WF → g.nearList a = ts →
    (Graph.removeLinksLoop a g (ts.map Prod.fst)).1.WF ∧
    (Graph.removeLinksLoop a g (ts.map Prod.fst)).1.hasWeights = g.hasWeights ∧
    (Graph.removeLinksLoop a g (ts.map Prod.fst)).1.data.map Prod.fst = g.data.map Prod.fst ∧
    ((Graph.removeLinksLoop a g (ts.map Prod.fst)).2 = none →
      (Graph.removeLinksLoop a g (ts.map Prod.fst)).1.nearList a = []) := by
  intro ts
  induction ts with
  | nil =>
    intro g hwf hnl
    exact ⟨hwf, rfl, rfl, fun _ => hnl⟩
  | cons t rest ih =>
    intro g hwf hnl
    have htmem : t ∈ g.nearList a := by
      rw [hnl]
      exact List.mem_cons_self _ _
    have hamem : a ∈ g.data.map Prod.fst :=
      mem_keys_of_nearList_ne_nil (by rw [hnl]; simp)
    have htenear : t.1 ∈ (g.nearList a).map Prod.fst := List.mem_map.mpr ⟨t, htmem, rfl⟩
    have hwta : wTow g a t.1 ≠ [] := (fst_mem_near_iff_wTow g a t.1).mp htenear
    have hab : g.are_neighbors a t.1 = true := by
      rw [are_neighbors_iff]
      refine ⟨hamem, hwf.closure htmem, hwta, ?_⟩
      rw [← hwf.wTow_symm]
      exact hwta
    by_cases hself : t.1 = a
    · rw [hself] at hab
      obtain ⟨tf, g1, htf, hrun, hwflag, hkeys, hn1, hno, hwf1⟩ :=
        remove_link_self_spec hwf hab
      have hrun1 : g.remove_link_between_nodes a t.1 = (g1, Except.error PyErr.keyError) := by
        rw [hself]
        exact hrun
      have hstep : Graph.removeLinksLoop a g ((t :: rest).map Prod.fst)
          = (g1, some PyErr.keyError) := by
        show Graph.removeLinksLoop a g (t.1 :: rest.map Prod.fst) = _
        rw [show Graph.removeLinksLoop a g (t.1 :: rest.map Prod.fst) =
            match g.remove_link_between_nodes a t.1 with
            | (g2, Except.ok _) => Graph.removeLinksLoop a g2 (rest.map Prod.fst)
            | (g2, Except.error e) => (g2, some e) from rfl, hrun1]
      rw [hstep]
      exact ⟨hwf1, hwflag, hkeys, fun hc => by simp at hc⟩
    · obtain ⟨tf, tb, g1, htf, htb, hrun, hwflag, hkeys, hni, hnd, hno, hwf1⟩ :=
        remove_link_spec hwf (fun he => hself he.symm) hab
      have htf_eq : tf = t := by
        rw [hnl, List.find?_cons_of_pos _ (by simp)] at htf
        exact (Option.some_inj.mp htf).symm
      have hn_a_rest : g1.nearList a = rest := by
        rw [hni, hnl, htf_eq]
        simp [setRemove]
      have hstep : Graph.removeLinksLoop a g ((t :: rest).map Prod.fst)
          = Graph.removeLinksLoop a g1 (rest.map Prod.fst) := by
        show Graph.removeLinksLoop a g (t.1 :: rest.map Prod.fst) = _
        rw [show Graph.removeLinksLoop a g (t.1 :: rest.map Prod.fst) =
            match g.remove_link_between_nodes a t.1 with
            | (g2, Except.ok _) => Graph.removeLinksLoop a g2 (rest.map Prod.fst)
            | (g2, Except.error e) => (g2, some e) from rfl, hrun]
      obtain ⟨ih1, ih2, ih3, ih4⟩ := ih g1 hwf1 hn_a_rest
      rw [hstep]
      exact ⟨ih1, ih2.trans hwflag, ih3.trans hkeys, ih4⟩

/-- `remove_node` preserves well-formedness in every case. -/
theorem WF_remove_node {g : Graph α β} (h : g.WF) (a : α) : (g.remove_node a).1.WF := by
  unfold Graph.remove_node
  by_cases hex : g.node_exists a = true
  · rw [if_pos hex]
    obtain ⟨hw1, _, _, hnil⟩ := removeLinksLoop_spec (g.nearList a) g h rfl
    cases hloop : Graph.removeLinksLoop a g ((g.nearList a).map Prod.fst) with
    | mk gm err =>
      rw [hloop] at hw1 hnil
      cases err with
      | none =>
        dsimp only
        exact WF_delKey hw1 (hnil rfl)
      | some e =>
        dsimp only
        exact hw1
  · rw [if_neg hex]
    exact h

/-- Specification of a successful `remove_node`: the node is gone from the key
set, no remaining `near` set references it, and the store stays well-formed
(hence referentially closed). -/
theorem remove_node_success_spec {g : Graph α β} (h : g.WF) {a : α}
    {g1 : Graph α β} {n : Nat}
    (hrun : g.remove_node a = (g1, Except.ok n)) (hex : g.node_exists a = true) :
    g1.WF ∧ a ∉ g1.data.map Prod.fst ∧
    (∀ y, ∀ q ∈ g1.nearList y, ¬ q.1 = a) := by
  unfold Graph.remove_node at hrun
  rw [if_pos hex] at hrun
  obtain ⟨hw1, _, _, hnil⟩ := removeLinksLoop_spec (g.nearList a) g h rfl
  cases hloop : Graph.removeLinksLoop a g ((g.nearList a).map Prod.fst) with
  | mk gm err =>
    rw [hloop] at hrun hw1 hnil
    cases err with
    | some e => simp at hrun
    | none =>
      dsimp only at hrun hw1 hnil
      have hnil1 : gm.nearList a = [] := hnil rfl
      have hwnil : ∀ y, wTow gm y a = [] := by
        intro y
        rw [← hw1.wTow_symm a y]
        unfold wTow
        rw [hnil1]
        rfl
      injection hrun with h1 h2
      rw [← h1]
      refine ⟨WF_delKey hw1 hnil1, ?_, ?_⟩
      · intro hmem
        exact ((mem_keys_delKey gm a a).mp hmem).2 rfl
      · intro y q hq he
        rw [nearList_delKey] at hq
        by_cases hy : y = a
        · rw [if_pos hy] at hq
          simp at hq
        · rw [if_neg hy] at hq
          have hqeq : ((a, q.2) : α × Option ℚ) = q := by
            rw [← he]
          have : q.2 ∈ wTow gm y a := by
            rw [← mem_nearList_iff_wTow, hqeq]
            exact hq
          rw [hwnil y] at this
          simp at this

/-- Bulk node removal preserves well-formedness. -/
theorem WF_remove_nodes_from_list :
    ∀ (l : List α) {g : Graph α β}, g.WF → (g.remove_nodes_from_list l).1.WF := by
  intro l
  induction l with
  | nil => intro g h; exact h
  | cons a rest ih =>
    intro g h
    unfold Graph.remove_nodes_from_list
    cases hr : g.remove_node a with
    | mk g1 res =>
      have hw1 : g1.WF := by
        have := WF_remove_node h a
        rw [hr] at this
        exact this
      cases res with
      | ok n =>
        dsimp only
        cases hrest : Graph.remove_nodes_from_list g1 rest with
        | mk g2 res2 =>
          have hw2 : g2.WF := by
            have := ih hw1
            rw [hrest] at this
            exact this
          cases res2 with
          | ok m => exact hw2
          | error e => exact hw2
      | error e => exact hw1

/-- Bulk link removal preserves well-formedness. -/
theorem WF_remove_links_from_list :
    ∀ (l : List (α × α)) {g : Graph α β}, g.WF →
      (g.remove_links_from_list_of_neighbors l).1.WF := by
  intro l
  induction l with
  | nil => intro g h; exact h
  | cons e rest ih =>
    intro g h
    unfold Graph.remove_links_from_list_of_neighbors
    cases hr : g.remove_link_between_nodes e.1 e.2 with
    | mk g1 res =>
      have hw1 : g1.WF := by
        have := WF_remove_link h e.1 e.2
        rw [hr] at this
        exact this
      cases res with
      | ok n =>
        dsimp only
        cases hrest : Graph.remove_links_from_list_of_neighbors g1 rest with
        | mk g2 res2 =>
          have hw2 : g2.WF := by
            have := ih hw1
            rw [hrest] at this
            exact this
          cases res2 with
          | ok m => exact hw2
          | error e2 => exact hw2
      | error e2 => exact hw1

theorem WF_add_node {g : Graph α β} (h : g.WF) (a : α) : (g.add_node a).1.WF := by
  apply Graph.WF.ofFacts
  · rw [keys_add_node]
    cases hx : g.node_exists a with
    | true => simp [h.keys_nodup]
    | false =>
      simp only [Bool.false_eq_true, if_false]
      have hna : a ∉ g.data.map Prod.fst := by
        rw [← node_exists_iff_mem, hx]
        simp
      rw [List.nodup_append]
      refine ⟨h.keys_nodup, by simp, ?_⟩
      intro x hx1 hx2
      simp only [List.mem_singleton] at hx2
      exact hna (hx2 ▸ hx1)
  · intro x
    rw [nearList_add_node]
    exact h.near_nodup x
  · intro x q hq
    rw [nearList_add_node] at hq
    rw [keys_add_node]
    have := h.closure hq
    cases g.node_exists a <;> simp [this]
  · intro x y
    rw [wTow_add_node, wTow_add_node]
    exact h.wTow_symm x y

/-- Bulk node addition preserves well-formedness. -/
theorem WF_add_nodes_from_list :
    ∀ (l : List α) {g : Graph α β}, g.WF → (g.add_nodes_from_list l).1.WF := by
  intro l
  induction l with
  | nil => intro g h; exact h
  | cons a rest ih =>
    intro g h
    unfold Graph.add_nodes_from_list
    exact ih (WF_add_node h a)

/-- Bulk link addition preserves well-formedness. -/
theorem WF_add_links_from_list :
    ∀ (l : List (α × α × Option ℚ)) {g : Graph α β}, g.WF →
      (g.add_links_from_list l).1.WF := by
  intro l
  induction l with
  | nil => intro g h; exact h
  | cons e rest ih =>
    intro g h
    unfold Graph.add_links_from_list
    by_cases hw : g.hasWeights = true
    · rw [if_pos hw]
      exact ih (WF_add_link h e.1 e.2.1 _)
    · rw [if_neg hw]
      exact ih (WF_add_link h e.1 e.2.1 _)

theorem WF_empty (α β : Type) [DecidableEq α] (w : Bool) : (Graph.mkEmpty α β w).WF := by
  refine ⟨by simp [Graph.mkEmpty], ?_, ?_, ?_⟩
  · intro p hp
    simp [Graph.mkEmpty] at hp
  · intro p hp
    simp [Graph.mkEmpty] at hp
  · intro a ha
    simp [Graph.mkEmpty] at ha

theorem WF_applyOp {g : Graph α β} (h : g.WF) (op : Op α) : (applyOp g op).1.WF := by
  cases op with
  | addNode a => exact WF_add_node h a
  | addNodes l => exact WF_add_nodes_from_list l h
  | removeNode a =>
    have hh := WF_remove_node h a
    unfold applyOp
    dsimp only
    cases hr : g.remove_node a with
    | mk g1 res =>
      rw [hr] at hh
      cases res with
      | ok n => exact hh
      | error e => exact hh
  | removeNodes l =>
    have hh := WF_remove_nodes_from_list l h
    unfold applyOp
    dsimp only
    cases hr : g.remove_nodes_from_list l with
    | mk g1 res =>
      rw [hr] at hh
      cases res with
      | ok n => exact hh
      | error e => exact hh
  | addLink a b w => exact WF_add_link h a b w
  | addLinks l => exact WF_add_links_from_list l h
  | removeLink a b =>
    have hh := WF_remove_link h a b
    unfold applyOp
    dsimp only
    cases hr : g.remove_link_between_nodes a b with
    | mk g1 res =>
      rw [hr] at hh
      cases res with
      | ok n => exact hh
      | error e => exact hh
  | removeLinks l =>
    have hh := WF_remove_links_from_list l h
    unfold applyOp
    dsimp only
    cases hr : g.remove_links_from_list_of_neighbors l with
    | mk g1 res =>
      rw [hr] at hh
      cases res with
      | ok n => exact hh
      | error e => exact hh

theorem WF_runOps : ∀ (ops : List (Op α)) {g : Graph α β}, g.WF → (runOps g ops).1.WF := by
  intro ops
  induction ops with
  | nil => intro g h; exact h
  | cons op rest ih =>
    intro g h
    unfold runOps
    have hh := WF_applyOp h op
    cases ha : applyOp g op with
    | mk g1 err =>
      rw [ha] at hh
      cases err with
      | none => exact ih hh
      | some e => exact hh

/-- Every store reachable by running public mutations from a freshly
constructed graph is well-formed. -/
theorem WF_reachable (α β : Type) [DecidableEq α] (w : Bool) (ops : List (Op α)) :
    (runOps (Graph.mkEmpty α β w) ops).1.WF :=
  WF_runOps ops (WF_empty α β w)

/-! ### Ball and distance lemmas -/

theorem mem_ballStep (g : Graph α β) (s : List α) (v : α) :
    v ∈ ballStep g s ↔ v ∈ s ∨ ∃ u ∈ s, v ∈ neighborsD g u := by
  unfold ballStep
  rw [List.mem_append]
  constructor
  · rintro (hv | hv)
    · exact Or.inl hv
    · rw [List.mem_filter] at hv
      rcases List.mem_flatMap.mp (List.mem_dedup.mp hv.1) with ⟨u, hu, hvu⟩
      exact Or.inr ⟨u, hu, hvu⟩
  · rintro (hv | ⟨u, hu, hvu⟩)
    · exact Or.inl hv
    · by_cases hvs : v ∈ s
      · exact Or.inl hvs
      · refine Or.inr (List.mem_filter.mpr ?_)
        exact ⟨List.mem_dedup.mpr (List.mem_flatMap.mpr ⟨u, hu, hvu⟩), by simpa using hvs⟩

theorem ball_subset_succ (g : Graph α β) (a : α) (n : Nat) :
    ball g a n ⊆ ball g a (n + 1) := by
  intro v hv
  exact (mem_ballStep _ _ _).mpr (Or.inl hv)

theorem ball_mono (g : Graph α β) (a : α) : ∀ {m n : Nat}, m ≤ n →
    ball g a m ⊆ ball g a n := by
  intro m n h
  induction n with
  | zero =>
    rw [Nat.le_zero.mp h]
    exact fun v hv => hv
  | succ k ih =>
    by_cases hm : m = k + 1
    · rw [hm]
      exact fun v hv => hv
    · have hmk : m ≤ k := Nat.lt_succ_iff.mp (Nat.lt_of_le_of_ne h hm)
      exact fun v hv => ball_subset_succ g a k (ih hmk hv)

theorem nodup_ball (g : Graph α β) (a : α) : ∀ n, (ball g a n).Nodup := by
  intro n
  induction n with
  | zero => simp [ball]
  | succ k ih =>
    show (ballStep g (ball g a k)).Nodup
    unfold ballStep
    rw [List.nodup_append]
    refine ⟨ih, (List.nodup_dedup _).filter _, ?_⟩
    intro v hv hvf
    rw [List.mem_filter] at hvf
    have := hvf.2
    simp only [decide_eq_true_eq] at this
    exact this hv

theorem ball_subset_keys {g : Graph α β} (h : g.WF) {a : α} :
    ∀ n, ∀ v ∈ ball g a n, v ∈ g.data.map Prod.fst ∨ v = a := by
  intro n
  induction n with
  | zero =>
    intro v hv
    simp only [ball, List.mem_singleton] at hv
    exact Or.inr hv
  | succ k ih =>
    intro v hv
    rcases (mem_ballStep _ _ _).mp hv with hv1 | ⟨u, hu, hvu⟩
    · exact ih v hv1
    · rcases List.mem_map.mp hvu with ⟨q, hq, rfl⟩
      exact Or.inl (h.closure hq)

theorem ball_subset_keys_of_mem {g : Graph α β} (h : g.WF) {a : α}
    (ha : a ∈ g.data.map Prod.fst) :
    ∀ n, ∀ v ∈ ball g a n, v ∈ g.data.map Prod.fst := by
  intro n v hv
  rcases ball_subset_keys h n v hv with hc | hc
  · exact hc
  · rw [hc]
    exact ha

theorem ball_length_le {g : Graph α β} (h : g.WF) {a : α}
    (ha : a ∈ g.data.map Prod.fst) (n : Nat) : (ball g a n).length ≤ g.size := by
  have h1 : (ball g a n).toFinset.card = (ball g a n).length :=
    List.toFinset_card_of_nodup (nodup_ball g a n)
  have h2 : (ball g a n).toFinset ⊆ (g.data.map Prod.fst).toFinset := by
    intro v hv
    rw [List.mem_toFinset] at hv ⊢
    exact ball_subset_keys_of_mem h ha n v hv
  have h3 := Finset.card_le_card h2
  have h4 := List.toFinset_card_le (g.data.map Prod.fst)
  rw [h1] at h3
  unfold Graph.size
  have h5 : (List.map Prod.fst g.data).length = g.data.length := List.length_map _ _
  omega

theorem ball_stab_of_eq {g : Graph α β} {a : α} {n : Nat}
    (h : ball g a (n + 1) = ball g a n) :
    ∀ m, n ≤ m → ball g a m = ball g a n := by
  intro m hm
  induction m with
  | zero =>
    rw [Nat.le_zero.mp hm]
  | succ k ih =>
    by_cases hk : n = k + 1
    · rw [← hk]
    · have hnk : n ≤ k := Nat.lt_succ_iff.mp (Nat.lt_of_le_of_ne hm hk)
      have hik := ih hnk
      show ballStep g (ball g a k) = ball g a n
      rw [hik]
      exact h

theorem ball_grows {g : Graph α β} {a : α} {n : Nat}
    (h : ball g a (n + 1) ≠ ball g a n) :
    (ball g a (n + 1)).length ≥ (ball g a n).length + 1 := by
  show (ballStep g (ball g a n)).length ≥ _
  unfold ballStep
  rw [List.length_append]
  have hne : ((ball g a n).flatMap (neighborsD g)).dedup.filter
      (fun v => decide (v ∉ ball g a n)) ≠ [] := by
    intro hnil
    apply h
    show ballStep g (ball g a n) = _
    unfold ballStep
    rw [hnil, List.append_nil]
  have hlen : 0 < (((ball g a n).flatMap (neighborsD g)).dedup.filter
      (fun v => decide (v ∉ ball g a n))).length := List.length_pos.mpr hne
  omega

theorem ball_eventually_stable {g : Graph α β} (h : g.WF) {a : α}
    (ha : a ∈ g.data.map Prod.fst) :
    ∃ k, k ≤ g.size ∧ ball g a (k + 1) = ball g a k := by
  have aux : ∀ n, (∃ k, k ≤ n ∧ ball g a (k + 1) = ball g a k) ∨
      (ball g a (n + 1)).length ≥ n + 2 := by
    intro n
    induction n with
    | zero =>
      by_cases h0 : ball g a 1 = ball g a 0
      · exact Or.inl ⟨0, Nat.le_refl 0, h0⟩
      · have := ball_grows h0
        have hb0 : (ball g a 0).length = 1 := by simp [ball]
        exact Or.inr (by omega)
    | succ k ih =>
      rcases ih with ⟨j, hj, hjeq⟩ | hlen
      · exact Or.inl ⟨j, Nat.le_succ_of_le hj, hjeq⟩
      · by_cases hk : ball g a (k + 2) = ball g a (k + 1)
        · exact Or.inl ⟨k + 1, Nat.le_refl _, hk⟩
        · have := ball_grows hk
          exact Or.inr (by omega)
  rcases aux g.size with ⟨k, hk, hkeq⟩ | hlen
  · exact ⟨k, hk, hkeq⟩
  · have := ball_length_le h ha (g.size + 1)
    omega

theorem mem_ball_size_of_mem {g : Graph α β} (h : g.WF) {a : α}
    (ha : a ∈ g.data.map Prod.fst) {v : α} {n : Nat} (hv : v ∈ ball g a n) :
    v ∈ ball g a g.size := by
  by_cases hn : n ≤ g.size
  · exact ball_mono g a hn hv
  · obtain ⟨k, hk, hkeq⟩ := ball_eventually_stable h ha
    have h1 : ball g a n = ball g a k := ball_stab_of_eq hkeq n (by omega)
    have h2 : ball g a g.size = ball g a k := ball_stab_of_eq hkeq g.size hk
    rw [h1] at hv
    rw [h2]
    exact hv

theorem find?_append_eq {γ : Type} (p : γ → Bool) (l1 l2 : List γ) :
    (l1 ++ l2).find? p =
      match l1.find? p with
      | some a => some a
      | none => l2.find? p := by
  induction l1 with
  | nil => simp
  | cons x rest ih =>
    by_cases hx : p x = true
    · rw [List.cons_append, List.find?_cons_of_pos _ hx, List.find?_cons_of_pos _ hx]
    · rw [List.cons_append, List.find?_cons_of_neg _ hx, List.find?_cons_of_neg _ hx, ih]

theorem find?_range_least {p : Nat → Bool} :
    ∀ {N n : Nat}, (List.range N).find? p = some n → p n = true ∧ ∀ m < n, p m = false := by
  intro N
  induction N with
  | zero =>
    intro n h
    simp at h
  | succ k ih =>
    intro n h
    rw [List.range_succ, find?_append_eq] at h
    cases hk : (List.range k).find? p with
    | some a =>
      rw [hk] at h
      cases h
      exact ih hk
    | none =>
      rw [hk] at h
      by_cases hpk : p k = true
      · rw [List.find?_cons_of_pos _ hpk] at h
        cases h
        refine ⟨hpk, ?_⟩
        intro m hm
        have hnone := List.find?_eq_none.mp hk m (List.mem_range.mpr hm)
        cases hpm : p m with
        | false => rfl
        | true => exact absurd hpm hnone
      · rw [List.find?_cons_of_neg _ hpk] at h
        simp at h

theorem bfsDist_spec {g : Graph α β} {a b : α} {n : Nat}
    (h : bfsDist g a b = some n) :
    b ∈ ball g a n ∧ (∀ m < n, b ∉ ball g a m) ∧ n ≤ g.size := by
  obtain ⟨h1, h2⟩ := find?_range_least h
  refine ⟨by simpa using h1, ?_, ?_⟩
  · intro m hm hmem
    have := h2 m hm
    simp [hmem] at this
  · have := List.mem_of_find?_eq_some h
    exact Nat.lt_succ_iff.mp (List.mem_range.mp this)

theorem bfsDist_isSome {g : Graph α β} (h : g.WF) {a : α}
    (ha : a ∈ g.data.map Prod.fst) {b : α} {n : Nat} (hb : b ∈ ball g a n) :
    ∃ k, bfsDist g a b = some k ∧ k ≤ n := by
  have hsz : b ∈ ball g a g.size := mem_ball_size_of_mem h ha hb
  obtain ⟨t, ht⟩ := find?_isSome_of_mem (fun m => decide (b ∈ ball g a m))
    (List.mem_range.mpr (Nat.lt_succ_self g.size)) (by simpa using hsz)
  refine ⟨t, ht, ?_⟩
  obtain ⟨h1, h2, h3⟩ := bfsDist_spec ht
  by_contra hlt
  push_neg at hlt
  exact h2 n hlt hb

theorem bfsDist_self (g : Graph α β) (a : α) : bfsDist g a a = some 0 := by
  unfold bfsDist
  rw [List.range_succ_eq_map, List.find?_cons_of_pos _ (by simp [ball])]

theorem bfsDist_zero_iff {g : Graph α β} {a b : α} :
    bfsDist g a b = some 0 ↔ b = a := by
  constructor
  · intro h
    have := (bfsDist_spec h).1
    simpa [ball] using this
  · intro h
    rw [h]
    exact bfsDist_self g a

theorem bfsDist_eq_none {g : Graph α β} (h : g.WF) {a : α}
    (ha : a ∈ g.data.map Prod.fst) {b : α} (hb : b ∉ ball g a g.size) :
    bfsDist g a b = none := by
  unfold bfsDist
  rw [List.find?_eq_none]
  intro m hm
  simp only [decide_eq_true_eq]
  intro hmem
  exact hb (mem_ball_size_of_mem h ha hmem)

theorem neighborsD_symm {g : Graph α β} (h : g.WF) {u v : α} :
    u ∈ neighborsD g v ↔ v ∈ neighborsD g u := by
  unfold neighborsD
  rw [fst_mem_near_iff_wTow, fst_mem_near_iff_wTow, h.wTow_symm]

theorem mem_ball_succ_of_neighbor {g : Graph α β} {a u v : α} {n : Nat}
    (hu : u ∈ ball g a n) (hv : v ∈ neighborsD g u) : v ∈ ball g a (n + 1) :=
  (mem_ballStep _ _ _).mpr (Or.inr ⟨u, hu, hv⟩)

theorem are_neighbors_of_neighborsD {g : Graph α β} (h : g.WF) {u v : α}
    (huv : u ∈ neighborsD g v) : g.are_neighbors v u = true := by
  rw [are_neighbors_iff]
  have hvk : v ∈ g.data.map Prod.fst := by
    apply mem_keys_of_nearList_ne_nil
    intro hnil
    unfold neighborsD at huv
    rw [hnil] at huv
    simp at huv
  have hw1 : wTow g v u ≠ [] := (fst_mem_near_iff_wTow g v u).mp huv
  have huk : u ∈ g.data.map Prod.fst := by
    rcases List.mem_map.mp huv with ⟨q, hq, rfl⟩
    exact h.closure hq
  refine ⟨hvk, huk, hw1, ?_⟩
  rw [← h.wTow_symm]
  exact hw1

/-- The two facts backtracking rests on: every neighbor of a node at distance
`m+1` is at distance at least `m`, and some neighbor is at distance exactly
`m`. -/
theorem dist_pos_neighbors {g : Graph α β} (h : g.WF) {a : α}
    (ha : a ∈ g.data.map Prod.fst) {v : α} {m : Nat}
    (hv : bfsDist g a v = some (m + 1)) :
    (∀ u ∈ neighborsD g v, ∃ k, bfsDist g a u = some k ∧ m ≤ k ∧ k ≤ g.size) ∧
    (∃ u ∈ neighborsD g v, bfsDist g a u = some m) := by
  obtain ⟨hball, hleast, hsize⟩ := bfsDist_spec hv
  have hall : ∀ u ∈ neighborsD g v,
      ∃ k, bfsDist g a u = some k ∧ m ≤ k ∧ k ≤ g.size := by
    intro u hu
    have hu1 : v ∈ neighborsD g u := (neighborsD_symm h).mp hu
    have humem : u ∈ ball g a (m + 2) := mem_ball_succ_of_neighbor hball hu
    obtain ⟨k, hk, _⟩ := bfsDist_isSome h ha humem
    refine ⟨k, hk, ?_, (bfsDist_spec hk).2.2⟩
    by_contra hkm
    push_neg at hkm
    have hv1 : v ∈ ball g a (k + 1) := mem_ball_succ_of_neighbor (bfsDist_spec hk).1 hu1
    have hv2 : v ∈ ball g a m := ball_mono g a (by omega) hv1
    exact hleast m (Nat.lt_succ_self m) hv2
  refine ⟨hall, ?_⟩
  have hnotm : v ∉ ball g a m := hleast m (Nat.lt_succ_self m)
  rcases (mem_ballStep _ _ _).mp hball with hc | ⟨u, hu, hvu⟩
  · exact absurd hc hnotm
  · have huv : u ∈ neighborsD g v := (neighborsD_symm h).mpr hvu
    obtain ⟨k, hk, hkle⟩ := bfsDist_isSome h ha hu
    obtain ⟨k2, hk2, hmk, _⟩ := hall u huv
    rw [hk] at hk2
    cases hk2
    have hkm : k = m := Nat.le_antisymm hkle hmk
    exact ⟨u, huv, hkm ▸ hk⟩

/-! ### Neighbor-expansion lemmas -/

theorem get_neighbors_eq_some {g : Graph α β} {a : α} (h : g.node_exists a = true) :
    g.get_neighbors a = some (neighborsD g a) := by
  unfold Graph.get_neighbors Graph.get_links Graph.node_does_not_exist
  rw [if_pos h, h]
  simp only [Bool.not_true, Bool.false_eq_true, if_false, Option.map_some]
  cases hw : g.hasWeights <;>
    simp [neighborsD, List.map_map] <;>
    (intro x w hm; rfl)

theorem get_neighbors_eq_none {g : Graph α β} {a : α} (h : g.node_exists a = false) :
    g.get_neighbors a = none := by
  unfold Graph.get_neighbors
  rw [h]
  simp

theorem expandNodeMap_spec (lc : Nat) :
    ∀ (ns : List α) (M : List (α × Nat)) (acc : List α),
    ∃ extra, expandNodeMap M acc lc ns
        = (M ++ extra.map (fun v => (v, lc)), acc ++ extra) ∧
      extra.Nodup ∧
      (∀ v ∈ extra, v ∉ M.map Prod.fst) ∧
      (∀ v, v ∈ extra ↔ (v ∉ M.map Prod.fst ∧ v ∈ ns)) := by
  intro ns
  induction ns with
  | nil =>
    intro M acc
    refine ⟨[], by simp [expandNodeMap], by simp, by simp, by simp⟩
  | cons nid rest ih =>
    intro M acc
    by_cases hmem : (pyGet nid M).isSome = true
    · obtain ⟨extra, heq, hnd, hnotin, hiff⟩ := ih M acc
      refine ⟨extra, ?_, hnd, hnotin, ?_⟩
      · unfold expandNodeMap
        rw [if_pos hmem]
        exact heq
      · intro v
        rw [hiff v]
        constructor
        · rintro ⟨h1, h2⟩
          exact ⟨h1, List.mem_cons_of_mem _ h2⟩
        · rintro ⟨h1, h2⟩
          rcases List.mem_cons.mp h2 with he | h3
          · rw [pyGet_isSome_iff] at hmem
            rw [he] at h1
            exact absurd hmem h1
          · exact ⟨h1, h3⟩
    · obtain ⟨extra, heq, hnd, hnotin, hiff⟩ := ih (M ++ [(nid, lc)]) (acc ++ [nid])
      have hknew : (M ++ [(nid, lc)]).map Prod.fst = M.map Prod.fst ++ [nid] := by
        simp
      have hnidM : nid ∉ M.map Prod.fst := by
        rw [← pyGet_isSome_iff]
        simpa using hmem
      refine ⟨nid :: extra, ?_, ?_, ?_, ?_⟩
      · unfold expandNodeMap
        rw [if_neg hmem, heq]
        simp [List.append_assoc]
      · rw [List.nodup_cons]
        refine ⟨?_, hnd⟩
        intro hm
        have := hnotin nid hm
        rw [hknew] at this
        simp at this
      · intro v hv
        rcases List.mem_cons.mp hv with he | hv1
        · rw [he]
          exact hnidM
        · have := hnotin v hv1
          rw [hknew] at this
          intro hc
          exact this (List.mem_append.mpr (Or.inl hc))
      · intro v
        constructor
        · intro hv
          rcases List.mem_cons.mp hv with he | hv1
          · rw [he]
            exact ⟨hnidM, List.mem_cons_self _ _⟩
          · obtain ⟨h1, h2⟩ := (hiff v).mp hv1
            rw [hknew] at h1
            exact ⟨fun hc => h1 (List.mem_append.mpr (Or.inl hc)),
              List.mem_cons_of_mem _ h2⟩
        · rintro ⟨h1, h2⟩
          rcases List.mem_cons.mp h2 with he | h3
          · rw [he]
            exact List.mem_cons_self _ _
          · by_cases hvn : v = nid
            · rw [hvn]
              exact List.mem_cons_self _ _
            · refine List.mem_cons_of_mem _ ((hiff v).mpr ⟨?_, h3⟩)
              rw [hknew]
              simp only [List.mem_append, List.mem_singleton]
              rintro (hc | hc)
              · exact h1 hc
              · exact hvn hc

theorem expandLayerMap_spec {g : Graph α β} (lc : Nat) :
    ∀ (F : List α) (M : List (α × Nat)) (acc : List α),
    (∀ u ∈ F, g.node_exists u = true) →
    ∃ extra, g.expandLayerMap lc F M acc
        = Except.ok (M ++ extra.map (fun v => (v, lc)), acc ++ extra) ∧
      extra.Nodup ∧
      (∀ v ∈ extra, v ∉ M.map Prod.fst) ∧
      (∀ v, v ∈ extra ↔ (v ∉ M.map Prod.fst ∧ ∃ u ∈ F, v ∈ neighborsD g u)) := by
  intro F
  induction F with
  | nil =>
    intro M acc hF
    refine ⟨[], ?_, by simp, by simp, by simp⟩
    unfold Graph.expandLayerMap
    simp
  | cons u F1 ih =>
    intro M acc hF
    have hu := hF u (List.mem_cons_self _ _)
    obtain ⟨e1, he1, hnd1, hni1, hif1⟩ := expandNodeMap_spec lc (neighborsD g u) M acc
    obtain ⟨e2, he2, hnd2, hni2, hif2⟩ := ih (M ++ e1.map (fun v => (v, lc))) (acc ++ e1)
      (fun x hx => hF x (List.mem_cons_of_mem _ hx))
    have hkeys1 : (M ++ e1.map (fun v => (v, lc))).map Prod.fst
        = M.map Prod.fst ++ e1 := by
      rw [List.map_append, List.map_map]
      have hcid : (Prod.fst ∘ fun v : α => (v, lc)) = id := rfl
      rw [hcid, List.map_id]
    refine ⟨e1 ++ e2, ?_, ?_, ?_, ?_⟩
    · unfold Graph.expandLayerMap
      rw [get_neighbors_eq_some hu]
      dsimp only
      rw [he1]
      dsimp only
      rw [he2]
      simp [List.append_assoc]
    · rw [List.nodup_append]
      refine ⟨hnd1, hnd2, ?_⟩
      intro v hv1 hv2
      have := hni2 v hv2
      rw [hkeys1] at this
      exact this (List.mem_append.mpr (Or.inr hv1))
    · intro v hv
      rcases List.mem_append.mp hv with hv1 | hv2
      · exact hni1 v hv1
      · have := hni2 v hv2
        rw [hkeys1] at this
        intro hc
        exact this (List.mem_append.mpr (Or.inl hc))
    · intro v
      constructor
      · intro hv
        rcases List.mem_append.mp hv with hv1 | hv2
        · obtain ⟨h1, h2⟩ := (hif1 v).mp hv1
          exact ⟨h1, u, List.mem_cons_self _ _, h2⟩
        · obtain ⟨h1, h2⟩ := (hif2 v).mp hv2
          rw [hkeys1] at h1
          refine ⟨fun hc => h1 (List.mem_append.mpr (Or.inl hc)), ?_⟩
          rcases h2 with ⟨u1, hu1, hvu1⟩
          exact ⟨u1, List.mem_cons_of_mem _ hu1, hvu1⟩
      · rintro ⟨h1, u1, hu1, hvu1⟩
        rcases List.mem_cons.mp hu1 with he | hu2
        · rw [he] at hvu1
          exact List.mem_append.mpr (Or.inl ((hif1 v).mpr ⟨h1, hvu1⟩))
        · by_cases hv1 : v ∈ e1
          · exact List.mem_append.mpr (Or.inl hv1)
          · refine List.mem_append.mpr (Or.inr ((hif2 v).mpr ⟨?_, u1, hu2, hvu1⟩))
            rw [hkeys1]
            simp only [List.mem_append]
            rintro (hc | hc)
            · exact h1 hc
            · exact hv1 hc

/-! ### Layering-loop correctness -/

theorem pyGet_map_pair (lc : Nat) (v : α) : ∀ (l : List α),
    pyGet v (l.map (fun u => (u, lc))) = if v ∈ l then some lc else none := by
  intro l
  induction l with
  | nil => simp [pyGet]
  | cons x rest ih =>
    by_cases hx : x = v
    · simp [pyGet, hx]
    · have hvx : ¬ v = x := fun he => hx he.symm
      simp only [List.map_cons, pyGet, hx, if_false, ih, List.mem_cons]
      by_cases hm : v ∈ rest
      · simp [hm, hvx]
      · simp [hm, hvx]

theorem ball_all_of_closed {g : Graph α β} {a : α} {c : Nat}
    (hcl : ∀ v ∈ ball g a c, ∀ u ∈ neighborsD g v, u ∈ ball g a c) :
    ∀ n, ∀ v ∈ ball g a n, v ∈ ball g a c := by
  intro n
  induction n with
  | zero =>
    intro v hv
    simp only [ball, List.mem_singleton] at hv
    rw [hv]
    exact ball_mono g a (Nat.zero_le c) (by simp [ball])
  | succ k ih =>
    intro v hv
    rcases (mem_ballStep _ _ _).mp hv with hv1 | ⟨u, hu, hvu⟩
    · exact ih v hv1
    · exact hcl u (ih u hu) v hvu

theorem bfsDist_exact_succ {g : Graph α β} (h : g.WF) {a : α}
    (ha : a ∈ g.data.map Prod.fst) {v : α} {c : Nat}
    (h1 : v ∈ ball g a (c + 1)) (h2 : v ∉ ball g a c) :
    bfsDist g a v = some (c + 1) := by
  obtain ⟨k, hk, hkle⟩ := bfsDist_isSome h ha h1
  have : ¬ k ≤ c := by
    intro hc
    exact h2 (ball_mono g a hc (bfsDist_spec hk).1)
  have : k = c + 1 := by omega
  rw [← this]
  exact hk

theorem bfsDist_le_of_mem_ball {g : Graph α β} {a v : α} {n k : Nat}
    (hk : bfsDist g a v = some k) (hmem : v ∈ ball g a n) : k ≤ n := by
  by_contra hc
  push_neg at hc
  exact (bfsDist_spec hk).2.1 n hc hmem

/-- Invariant-preserving run of `shortest_path`'s layering loop: starting
from a state whose map assigns the exact BFS distance to exactly the nodes
within `c` hops and whose frontier is exactly the nodes at distance `c`, the
loop terminates normally and its final `vis_map` is the BFS distance function
of the graph. -/
theorem spLoop_spec {g : Graph α β} (h : g.WF) {init : α}
    (hinit : init ∈ g.data.map Prod.fst) :
    ∀ (fuel c : Nat) (F : List α) (M : List (α × Nat)),
    (∀ v, (pyGet v M).isSome = true ↔ v ∈ ball g init c) →
    (∀ v k, pyGet v M = some k → bfsDist g init v = some k) →
    (∀ v, v ∈ F ↔ bfsDist g init v = some c) →
    (M.map Prod.fst).Nodup →
    c + 1 ≤ M.length →
    g.size + 1 ≤ fuel + c →
    ∃ M1, g.spLoop fuel F M c = Except.ok M1 ∧
      ∀ v, pyGet v M1 = bfsDist g init v := by
  intro fuel
  induction fuel with
  | zero =>
    intro c F M hIs hVal hF hnd hlen hfuel
    exfalso
    have hsub : ∀ x ∈ M.map Prod.fst, x ∈ g.data.map Prod.fst := by
      intro x hx
      rw [← pyGet_isSome_iff] at hx
      exact ball_subset_keys_of_mem h hinit c x ((hIs x).mp hx)
    have h1 : (M.map Prod.fst).toFinset.card = (M.map Prod.fst).length :=
      List.toFinset_card_of_nodup hnd
    have h2 : (M.map Prod.fst).toFinset ⊆ (g.data.map Prod.fst).toFinset := by
      intro x hx
      rw [List.mem_toFinset] at hx ⊢
      exact hsub x hx
    have h3 := Finset.card_le_card h2
    have h4 := List.toFinset_card_le (g.data.map Prod.fst)
    have h5 : (List.map Prod.fst g.data).length = g.data.length := List.length_map _ _
    have h6 : (List.map Prod.fst M).length = M.length := List.length_map _ _
    have : M.length ≤ g.size := by
      unfold Graph.size
      omega
    omega
  | succ f ih =>
    intro c F M hIs hVal hF hnd hlen hfuel
    have hFkeys : ∀ u ∈ F, g.node_exists u = true := by
      intro u hu
      rw [node_exists_iff_mem]
      exact ball_subset_keys_of_mem h hinit c u (bfsDist_spec ((hF u).mp hu)).1
    obtain ⟨extra, hexp, hnd_e, hni_e, hif_e⟩ := expandLayerMap_spec (c + 1) F M [] hFkeys
    have hstep : g.spLoop (f + 1) F M c =
        (if ([] : List α) ++ extra = [] then Except.ok (M ++ extra.map (fun v => (v, c + 1)))
         else g.spLoop f ([] ++ extra) (M ++ extra.map (fun v => (v, c + 1))) (c + 1)) := by
      show (match g.expandLayerMap (c + 1) F M [] with
            | Except.error e => Except.error e
            | Except.ok (vis_map1, new_nodes) =>
              if new_nodes = [] then Except.ok vis_map1
              else g.spLoop f new_nodes vis_map1 (c + 1)) = _
      rw [hexp]
    rw [List.nil_append] at hstep
    by_cases hempty : extra = []
    · rw [hstep, if_pos hempty, hempty]
      refine ⟨M, by simp, ?_⟩
      have hclosed : ∀ v ∈ ball g init c, ∀ u ∈ neighborsD g v, u ∈ ball g init c := by
        intro v hv u hu
        have hvsome : (pyGet v M).isSome = true := (hIs v).mpr hv
        obtain ⟨k, hk⟩ := Option.isSome_iff_exists.mp hvsome
        have hdk : bfsDist g init v = some k := hVal v k hk
        have hkle : k ≤ c := bfsDist_le_of_mem_ball hdk hv
        by_cases hkc : k = c
        · have hvF : v ∈ F := (hF v).mpr (by rw [← hkc]; exact hdk)
          by_contra hun
          have humem : u ∉ M.map Prod.fst := by
            intro hc
            rw [← pyGet_isSome_iff] at hc
            exact hun ((hIs u).mp hc)
          have : u ∈ extra := (hif_e u).mpr ⟨humem, v, hvF, hu⟩
          rw [hempty] at this
          simp at this
        · have hklt : k < c := Nat.lt_of_le_of_ne hkle hkc
          have : u ∈ ball g init (k + 1) :=
            mem_ball_succ_of_neighbor (bfsDist_spec hdk).1 hu
          exact ball_mono g init (by omega) this
      intro v
      cases hv : pyGet v M with
      | some k => exact (hVal v k hv).symm
      | none =>
        have hnot : v ∉ ball g init c := by
          intro hc
          have := (hIs v).mpr hc
          rw [hv] at this
          simp at this
        have hnots : v ∉ ball g init g.size := by
          intro hc
          exact hnot (ball_all_of_closed hclosed g.size v hc)
        rw [bfsDist_eq_none h hinit hnots]
    · rw [hstep, if_neg hempty]
      have hkeysM1 : (M ++ extra.map (fun v => (v, c + 1))).map Prod.fst
          = M.map Prod.fst ++ extra := by
        rw [List.map_append, List.map_map]
        have hcid : (Prod.fst ∘ fun v : α => (v, c + 1)) = id := rfl
        rw [hcid, List.map_id]
      have hgetM1 : ∀ v, pyGet v (M ++ extra.map (fun v => (v, c + 1)))
          = match pyGet v M with
            | some k => some k
            | none => if v ∈ extra then some (c + 1) else none := by
        intro v
        rw [pyGet_append, pyGet_map_pair]
        cases pyGet v M <;> rfl
      have hextra_dist : ∀ v ∈ extra, bfsDist g init v = some (c + 1) := by
        intro v hv
        obtain ⟨hnotM, u, huF, hvu⟩ := (hif_e v).mp hv
        have hnotball : v ∉ ball g init c := by
          intro hc
          have hs := (hIs v).mpr hc
          rw [pyGet_isSome_iff] at hs
          exact hnotM hs
        have hmem : v ∈ ball g init (c + 1) :=
          mem_ball_succ_of_neighbor (bfsDist_spec ((hF u).mp huF)).1 hvu
        exact bfsDist_exact_succ h hinit hmem hnotball
      have hIs1 : ∀ v, (pyGet v (M ++ extra.map (fun v => (v, c + 1)))).isSome = true
          ↔ v ∈ ball g init (c + 1) := by
        intro v
        rw [hgetM1 v]
        cases hv : pyGet v M with
        | some k =>
          simp only [Option.isSome_some, true_iff]
          have := hVal v k hv
          have hkle : k ≤ c := by
            have hmem : v ∈ ball g init c := (hIs v).mp (by rw [hv]; rfl)
            exact bfsDist_le_of_mem_ball this hmem
          exact ball_mono g init (by omega) (bfsDist_spec this).1
        | none =>
          by_cases hve : v ∈ extra
          · simp only [hve, if_true, Option.isSome_some, true_iff]
            exact (bfsDist_spec (hextra_dist v hve)).1
          · simp only [hve, if_false, Option.isSome_none]
            constructor
            · intro hc
              simp at hc
            · intro hc
              exfalso
              have hnotc : v ∉ ball g init c := by
                intro hcc
                have := (hIs v).mpr hcc
                rw [hv] at this
                simp at this
              rcases (mem_ballStep _ _ _).mp hc with hc1 | ⟨u, hu, hvu⟩
              · exact hnotc hc1
              · obtain ⟨k, hk⟩ := Option.isSome_iff_exists.mp ((hIs u).mpr hu)
                have hdk := hVal u k hk
                have hkle : k ≤ c := bfsDist_le_of_mem_ball hdk hu
                by_cases hkc : k = c
                · have huF : u ∈ F := (hF u).mpr (by rw [← hkc]; exact hdk)
                  have hnotM : v ∉ M.map Prod.fst := by
                    intro hcm
                    rw [← pyGet_isSome_iff] at hcm
                    rw [hv] at hcm
                    simp at hcm
                  exact hve ((hif_e v).mpr ⟨hnotM, u, huF, hvu⟩)
                · have : v ∈ ball g init (k + 1) :=
                    mem_ball_succ_of_neighbor (bfsDist_spec hdk).1 hvu
                  exact hnotc (ball_mono g init (by omega) this)
      have hVal1 : ∀ v k, pyGet v (M ++ extra.map (fun v => (v, c + 1))) = some k
          → bfsDist g init v = some k := by
        intro v k hvk
        rw [hgetM1 v] at hvk
        cases hv : pyGet v M with
        | some k1 =>
          rw [hv] at hvk
          cases hvk
          exact hVal v k hv
        | none =>
          rw [hv] at hvk
          by_cases hve : v ∈ extra
          · rw [if_pos hve] at hvk
            cases hvk
            exact hextra_dist v hve
          · rw [if_neg hve] at hvk
            simp at hvk
      have hF1 : ∀ v, v ∈ extra ↔ bfsDist g init v = some (c + 1) := by
        intro v
        constructor
        · exact hextra_dist v
        · intro hd
          have hmem : v ∈ ball g init (c + 1) := (bfsDist_spec hd).1
          have hnotc : v ∉ ball g init c := (bfsDist_spec hd).2.1 c (Nat.lt_succ_self c)
          have hnotM : v ∉ M.map Prod.fst := by
            intro hcm
            rw [← pyGet_isSome_iff] at hcm
            exact hnotc ((hIs v).mp hcm)
          rcases (mem_ballStep _ _ _).mp hmem with hc1 | ⟨u, hu, hvu⟩
          · exact absurd hc1 hnotc
          · obtain ⟨k, hk⟩ := Option.isSome_iff_exists.mp ((hIs u).mpr hu)
            have hdk := hVal u k hk
            have hkle : k ≤ c := bfsDist_le_of_mem_ball hdk hu
            by_cases hkc : k = c
            · have huF : u ∈ F := (hF u).mpr (by rw [← hkc]; exact hdk)
              exact (hif_e v).mpr ⟨hnotM, u, huF, hvu⟩
            · exfalso
              have : v ∈ ball g init (k + 1) :=
                mem_ball_succ_of_neighbor (bfsDist_spec hdk).1 hvu
              exact hnotc (ball_mono g init (by omega) this)
      have hnd1 : ((M ++ extra.map (fun v => (v, c + 1))).map Prod.fst).Nodup := by
        rw [hkeysM1, List.nodup_append]
        exact ⟨hnd, hnd_e, fun v hv1 hv2 => hni_e v hv2 hv1⟩
      have hlen1 : (c + 1) + 1 ≤ (M ++ extra.map (fun v => (v, c + 1))).length := by
        rw [List.length_append, List.length_map]
        have : extra.length ≥ 1 := by
          cases extra with
          | nil => exact absurd rfl hempty
          | cons x rest => simp
        omega
      have hfuel1 : g.size + 1 ≤ f + (c + 1) := by omega
      exact ih (c + 1) extra (M ++ extra.map (fun v => (v, c + 1)))
        hIs1 hVal1 hF1 hnd1 hlen1 hfuel1

/-! ### Backtracking correctness -/

theorem scanMin_spec (M : List (α × Nat)) :
    ∀ (ns : List α) (ml : Nat) (best : Option α),
    (∀ u ∈ ns, (pyGet u M).isSome = true) →
    ∃ r, scanMin M ns ml best = Except.ok r ∧
      ((∃ u ∈ ns, ∃ k, pyGet u M = some k ∧ k < ml) →
        ∃ u k, r = some u ∧ u ∈ ns ∧ pyGet u M = some k ∧ k < ml ∧
          ∀ u1 ∈ ns, ∀ k1, pyGet u1 M = some k1 → k ≤ k1) ∧
      ((¬ ∃ u ∈ ns, ∃ k, pyGet u M = some k ∧ k < ml) → r = best) := by
  intro ns
  induction ns with
  | nil =>
    intro ml best hdef
    refine ⟨best, rfl, ?_, fun _ => rfl⟩
    rintro ⟨u, hu, _⟩
    simp at hu
  | cons nd rest ih =>
    intro ml best hdef
    have hnddef := hdef nd (List.mem_cons_self _ _)
    obtain ⟨k0, hk0⟩ := Option.isSome_iff_exists.mp hnddef
    by_cases hlt : k0 < ml
    · obtain ⟨r, hr, hmin, hnone⟩ :=
        ih k0 (some nd) (fun u hu => hdef u (List.mem_cons_of_mem _ hu))
      refine ⟨r, ?_, ?_, ?_⟩
      · unfold scanMin
        rw [hk0]
        dsimp only
        rw [if_pos hlt]
        exact hr
      · intro hex
        by_cases hex2 : ∃ u ∈ rest, ∃ k, pyGet u M = some k ∧ k < k0
        · obtain ⟨u, k, hru, humem, hpk, hklt, hmin2⟩ := hmin hex2
          refine ⟨u, k, hru, List.mem_cons_of_mem _ humem, hpk, by omega, ?_⟩
          intro u1 hu1 k1 hpk1
          rcases List.mem_cons.mp hu1 with he | hu2
          · rw [he, hk0] at hpk1
            cases hpk1
            omega
          · exact hmin2 u1 hu2 k1 hpk1
        · have hr_best := hnone hex2
          refine ⟨nd, k0, by rw [hr_best], List.mem_cons_self _ _, hk0, hlt, ?_⟩
          intro u1 hu1 k1 hpk1
          rcases List.mem_cons.mp hu1 with he | hu2
          · rw [he, hk0] at hpk1
            cases hpk1
            omega
          · by_contra hcon
            push_neg at hcon
            exact hex2 ⟨u1, hu2, k1, hpk1, hcon⟩
      · intro hnex
        exfalso
        exact hnex ⟨nd, List.mem_cons_self _ _, k0, hk0, hlt⟩
    · obtain ⟨r, hr, hmin, hnone⟩ :=
        ih ml best (fun u hu => hdef u (List.mem_cons_of_mem _ hu))
      refine ⟨r, ?_, ?_, ?_⟩
      · unfold scanMin
        rw [hk0]
        dsimp only
        rw [if_neg hlt]
        exact hr
      · intro hex
        have hex2 : ∃ u ∈ rest, ∃ k, pyGet u M = some k ∧ k < ml := by
          obtain ⟨u, hu, k, hpk, hklt⟩ := hex
          rcases List.mem_cons.mp hu with he | hu2
          · rw [he, hk0] at hpk
            cases hpk
            exact absurd hklt hlt
          · exact ⟨u, hu2, k, hpk, hklt⟩
        obtain ⟨u, k, hru, humem, hpk, hklt, hmin2⟩ := hmin hex2
        refine ⟨u, k, hru, List.mem_cons_of_mem _ humem, hpk, hklt, ?_⟩
        intro u1 hu1 k1 hpk1
        rcases List.mem_cons.mp hu1 with he | hu2
        · rw [he, hk0] at hpk1
          cases hpk1
          omega
        · exact hmin2 u1 hu2 k1 hpk1
      · intro hnex
        apply hnone
        intro hex2
        apply hnex
        obtain ⟨u, hu, k, hpk, hklt⟩ := hex2
        exact ⟨u, List.mem_cons_of_mem _ hu, k, hpk, hklt⟩

/-- Backtracking from a node at BFS distance `m` with `fuel` remaining loop
iterations: the loop appends `min m fuel` nodes, consecutive appended nodes
are neighbors, and the last node reached sits at distance `m - fuel` (so at
the start node exactly when `fuel ≥ m`). -/
theorem backtrack_spec {g : Graph α β} (h : g.WF) {init : α}
    (hinit : init ∈ g.data.map Prod.fst) {M : List (α × Nat)}
    (hM : ∀ v, pyGet v M = bfsDist g init v) :
    ∀ (m fuel : Nat) (v : α) (p : List α), bfsDist g init v = some m →
    ∃ q, g.backtrack M init fuel v p = Except.ok (p ++ q) ∧
      q.length = min m fuel ∧
      List.Chain' (fun x y => g.are_neighbors x y = true) (v :: q) ∧
      bfsDist g init ((v :: q).getLast (by simp)) = some (m - min m fuel) := by
  intro m
  induction m with
  | zero =>
    intro fuel v p hv
    have hva : v = init := bfsDist_zero_iff.mp hv
    cases fuel with
    | zero =>
      refine ⟨[], by simp [Graph.backtrack], by simp, by simp, ?_⟩
      simpa using hv
    | succ f =>
      refine ⟨[], ?_, by simp, by simp, ?_⟩
      · show (if v = init then Except.ok p else _) = Except.ok (p ++ [])
        rw [if_pos hva, List.append_nil]
      · simpa using hv
  | succ m ih =>
    intro fuel v p hv
    have hvne : ¬ v = init := by
      intro he
      rw [he, bfsDist_self] at hv
      simp at hv
    cases fuel with
    | zero =>
      refine ⟨[], by simp [Graph.backtrack], by simp, by simp, ?_⟩
      simpa using hv
    | succ f =>
      have hvk : v ∈ g.data.map Prod.fst :=
        ball_subset_keys_of_mem h hinit _ v (bfsDist_spec hv).1
      have hex : g.node_exists v = true := (node_exists_iff_mem g v).mpr hvk
      obtain ⟨hall, u0, hu0, hd0⟩ := dist_pos_neighbors h hinit hv
      have hdef : ∀ u ∈ neighborsD g v, (pyGet u M).isSome = true := by
        intro u hu
        obtain ⟨k, hk, _, _⟩ := hall u hu
        rw [hM u, hk]
        rfl
      obtain ⟨r, hscan, hminp, hnonep⟩ :=
        scanMin_spec M (neighborsD g v) (g.size + 1) none hdef
      have hexists : ∃ u ∈ neighborsD g v, ∃ k, pyGet u M = some k ∧ k < g.size + 1 := by
        refine ⟨u0, hu0, m, ?_, ?_⟩
        · rw [hM u0]
          exact hd0
        · have := (bfsDist_spec hd0).2.2
          omega
      obtain ⟨u, k, hru, humem, hpk, hklt, hmin2⟩ := hminp hexists
      have hdu : bfsDist g init u = some k := by
        rw [← hM u]
        exact hpk
      have hkm : k = m := by
        obtain ⟨k2, hk2, hmk2, _⟩ := hall u humem
        rw [hdu] at hk2
        cases hk2
        have hle : k ≤ m := hmin2 u0 hu0 m (by rw [hM u0]; exact hd0)
        omega
      have hstep : g.backtrack M init (f + 1) v p
          = g.backtrack M init f u (p ++ [u]) := by
        show (if v = init then Except.ok p
              else
                match g.get_neighbors v with
                | none => Except.error PyErr.typeError
                | some nbors =>
                  match scanMin M nbors (g.size + 1) none with
                  | Except.error e => Except.error e
                  | Except.ok none => Except.error PyErr.typeError
                  | Except.ok (some best_parent) =>
                    g.backtrack M init f best_parent (p ++ [best_parent])) = _
        rw [if_neg hvne, get_neighbors_eq_some hex]
        dsimp only
        rw [hscan, hru]
      obtain ⟨q1, hq1, hlen1, hchain1, hlast1⟩ := ih f u (p ++ [u])
        (by rw [← hkm]; exact hdu)
      refine ⟨u :: q1, ?_, ?_, ?_, ?_⟩
      · rw [hstep, hq1, List.append_assoc]
        rfl
      · simp only [List.length_cons, hlen1]
        omega
      · refine List.chain'_cons.mpr ⟨?_, hchain1⟩
        exact are_neighbors_of_neighborsD h humem
      · have hgl : (v :: u :: q1).getLast (by simp) = (u :: q1).getLast (by simp) := by
          rw [List.getLast_cons]
        rw [hgl, hlast1]
        congr 1
        omega

/-- `are_neighbors` is symmetric by construction (no invariant needed). -/
theorem are_neighbors_comm (g : Graph α β) (a b : α) :
    g.are_neighbors a b = true ↔ g.are_neighbors b a = true := by
  rw [are_neighbors_iff, are_neighbors_iff]
  tauto

/-- Full run of `shortest_path` when both endpoints exist, are distinct and
the destination is reachable: the layering loop succeeds, backtracking walks
`min d 1000` neighbor steps from the destination, and the reversed walk is
returned. -/
theorem shortest_path_run {g : Graph α β} (h : g.WF) {init dest : α} {d : Nat}
    (hinit : init ∈ g.data.map Prod.fst) (hne : init ≠ dest)
    (hd : bfsDist g init dest = some d) :
    ∃ q, g.shortest_path init dest = Except.ok ((dest :: q).reverse) ∧
      q.length = min d 1000 ∧
      List.Chain' (fun x y => g.are_neighbors x y = true) (dest :: q) ∧
      bfsDist g init ((dest :: q).getLast (by simp)) = some (d - min d 1000) := by
  have hdest : dest ∈ g.data.map Prod.fst :=
    ball_subset_keys_of_mem h hinit d dest (bfsDist_spec hd).1
  have hi : g.node_exists init = true := (node_exists_iff_mem g init).mpr hinit
  have hdk : g.node_exists dest = true := (node_exists_iff_mem g dest).mpr hdest
  obtain ⟨M1, hrun, hM1⟩ := spLoop_spec h hinit (g.size + 1) 0 [init] [(init, 0)]
    (by
      intro v
      rw [pyGet_isSome_iff]
      show v ∈ [(init, 0)].map Prod.fst ↔ v ∈ ball g init 0
      simp [ball])
    (by
      intro v k hvk
      have hm := pyGet_mem hvk
      simp only [List.mem_singleton, Prod.mk.injEq] at hm
      rw [hm.1, hm.2]
      exact bfsDist_self g init)
    (by
      intro v
      rw [bfsDist_zero_iff]
      simp)
    (by simp)
    (by simp)
    (by omega)
  obtain ⟨q, hbt, hlen, hchain, hlast⟩ :=
    backtrack_spec h hinit hM1 d 1000 dest [dest] hd
  refine ⟨q, ?_, hlen, hchain, hlast⟩
  have hnn1 : g.node_does_not_exist init = false := by
    unfold Graph.node_does_not_exist
    rw [hi]
    rfl
  have hnn2 : g.node_does_not_exist dest = false := by
    unfold Graph.node_does_not_exist
    rw [hdk]
    rfl
  unfold Graph.shortest_path
  rw [hnn1, hnn2]
  rw [if_neg (by simp), if_neg hne, hrun]
  dsimp only
  rw [hbt]
  rfl

/-- Under the 1000-step cap, `shortest_path` returns a genuine shortest path:
length one plus the hop distance, starting at `init`, ending at `dest`, with
consecutive entries neighbors. -/
theorem shortest_path_reachable {g : Graph α β} (h : g.WF) {init dest : α}
    {d : Nat} (hinit : init ∈ g.data.map Prod.fst) (hne : init ≠ dest)
    (hd : bfsDist g init dest = some d) (hcap : d ≤ 1000) :
    ∃ p, g.shortest_path init dest = Except.ok p ∧ p.length = d + 1 ∧
      p.head? = some init ∧ p.getLast? = some dest ∧
      List.Chain' (fun x y => g.are_neighbors x y = true) p := by
  obtain ⟨q, hsp, hlen, hchain, hlast⟩ := shortest_path_run h hinit hne hd
  have hmin : min d 1000 = d := Nat.min_eq_left hcap
  rw [hmin] at hlen hlast
  refine ⟨(dest :: q).reverse, hsp, ?_, ?_, ?_, ?_⟩
  · rw [List.length_reverse]
    simp [hlen]
  · rw [List.head?_reverse]
    rw [List.getLast?_eq_getLast _ (by simp)]
    congr 1
    have h0 : bfsDist g init ((dest :: q).getLast (by simp)) = some 0 := by
      rw [hlast]
      congr 1
      omega
    exact bfsDist_zero_iff.mp h0
  · rw [List.getLast?_reverse]
    rfl
  · rw [List.chain'_reverse]
    exact hchain.imp (fun x y hxy => (are_neighbors_comm g x y).mp hxy)

/-! ### The path graph: distances and well-formedness -/

theorem pyGet_range_map {δ : Type} (f : Nat → δ) :
    ∀ (n k : Nat), pyGet k ((List.range n).map (fun i => (i, f i))) =
      if k < n then some (f k) else none := by
  intro n
  induction n with
  | zero =>
    intro k
    simp [pyGet]
  | succ n ih =>
    intro k
    rw [List.range_succ, List.map_append, pyGet_append]
    by_cases h1 : k < n
    · rw [ih k, if_pos h1]
      dsimp only
      rw [if_pos (by omega)]
    · rw [ih k, if_neg h1]
      dsimp only
      by_cases h2 : k = n
      · subst h2
        simp [pyGet]
      · have h3 : ¬ (k < n + 1) := by omega
        have h4 : ¬ (n = k) := fun he => h2 he.symm
        simp [pyGet, h3, h4]

theorem pathGraph_keys (n : Nat) :
    (pathGraph n).data.map Prod.fst = List.range n := by
  show ((List.range n).map
    (fun i => (i, (⟨pnear n i, none⟩ : NodeRec Nat Nat)))).map Prod.fst = _
  rw [List.map_map]
  have hcid : (Prod.fst ∘ fun i : Nat =>
      (i, (⟨pnear n i, none⟩ : NodeRec Nat Nat))) = id := rfl
  rw [hcid, List.map_id]

theorem pathGraph_nearList (n k : Nat) :
    (pathGraph n).nearList k = if k < n then pnear n k else [] := by
  unfold Graph.nearList Graph.lookupRec pathGraph
  rw [pyGet_range_map (fun i => (⟨pnear n i, none⟩ : NodeRec Nat Nat)) n k]
  by_cases h : k < n <;> simp [h]

theorem pathGraph_wTow (n a b : Nat) :
    wTow (pathGraph n) a b =
      if a < n ∧ ((0 < a ∧ a - 1 = b) ∨ (a + 1 < n ∧ a + 1 = b)) then
        [(none : Option ℚ)] else [] := by
  unfold wTow
  rw [pathGraph_nearList]
  by_cases ha : a < n
  · rw [if_pos ha]
    unfold pnear
    rw [List.filterMap_append]
    have e1 : List.filterMap
        (fun p : Nat × Option ℚ => if p.1 = b then some p.2 else none)
        (if 0 < a then [(a - 1, (none : Option ℚ))] else []) =
        if 0 < a ∧ a - 1 = b then [(none : Option ℚ)] else [] := by
      by_cases h1 : 0 < a
      · rw [if_pos h1]
        by_cases hb : a - 1 = b
        · rw [if_pos ⟨h1, hb⟩]
          simp [List.filterMap_cons, hb]
        · rw [if_neg (fun hc => hb hc.2)]
          simp [List.filterMap_cons, hb]
      · rw [if_neg h1, if_neg (fun hc => h1 hc.1)]
        rfl
    have e2 : List.filterMap
        (fun p : Nat × Option ℚ => if p.1 = b then some p.2 else none)
        (if a + 1 < n then [(a + 1, (none : Option ℚ))] else []) =
        if a + 1 < n ∧ a + 1 = b then [(none : Option ℚ)] else [] := by
      by_cases h2 : a + 1 < n
      · rw [if_pos h2]
        by_cases hb : a + 1 = b
        · rw [if_pos ⟨h2, hb⟩]
          simp [List.filterMap_cons, hb]
        · rw [if_neg (fun hc => hb hc.2)]
          simp [List.filterMap_cons, hb]
      · rw [if_neg h2, if_neg (fun hc => h2 hc.1)]
        rfl
    rw [e1, e2]
    by_cases c1 : 0 < a ∧ a - 1 = b <;> by_cases c2 : a + 1 < n ∧ a + 1 = b
    · exfalso
      omega
    · rw [if_pos c1, if_neg c2, if_pos ⟨ha, Or.inl c1⟩]
      rfl
    · rw [if_neg c1, if_pos c2, if_pos ⟨ha, Or.inr c2⟩]
      rfl
    · rw [if_neg c1, if_neg c2, if_neg ?_]
      · rfl
      · rintro ⟨_, hc | hc⟩
        · exact c1 hc
        · exact c2 hc
  · rw [if_neg ha, if_neg (fun hc => ha hc.1)]
    rfl

theorem pathGraph_neighborsD (n a v : Nat) :
    v ∈ neighborsD (pathGraph n) a ↔
      a < n ∧ ((0 < a ∧ a - 1 = v) ∨ (a + 1 < n ∧ a + 1 = v)) := by
  unfold neighborsD
  rw [fst_mem_near_iff_wTow, pathGraph_wTow]
  by_cases c : a < n ∧ ((0 < a ∧ a - 1 = v) ∨ (a + 1 < n ∧ a + 1 = v))
  · rw [if_pos c]
    simpa using c
  · rw [if_neg c]
    simpa using c

theorem pathGraph_WF (n : Nat) : (pathGraph n).WF := by
  refine ⟨?_, ?_, ?_, ?_⟩
  · rw [pathGraph_keys]
    exact List.nodup_range n
  · intro p hp
    obtain ⟨i, hi, rfl⟩ := List.mem_map.mp hp
    show (pnear n i).Nodup
    unfold pnear
    by_cases h1 : 0 < i <;> by_cases h2 : i + 1 < n <;>
      simp [h1, h2, Prod.ext_iff]
  · intro p hp q hq
    obtain ⟨i, hi, rfl⟩ := List.mem_map.mp hp
    rw [List.mem_range] at hi
    rw [pathGraph_keys, List.mem_range]
    have hq2 : q ∈ pnear n i := hq
    unfold pnear at hq2
    rcases List.mem_append.mp hq2 with hl | hl
    · by_cases h1 : 0 < i
      · rw [if_pos h1] at hl
        simp only [List.mem_singleton] at hl
        rw [hl]
        show i - 1 < n
        omega
      · rw [if_neg h1] at hl
        simp at hl
    · by_cases h2 : i + 1 < n
      · rw [if_pos h2] at hl
        simp only [List.mem_singleton] at hl
        rw [hl]
        show i + 1 < n
        omega
      · rw [if_neg h2] at hl
        simp at hl
  · intro a ha b hb
    rw [pathGraph_keys, List.mem_range] at ha hb
    rw [pathGraph_wTow, pathGraph_wTow]
    by_cases c1 : a < n ∧ ((0 < a ∧ a - 1 = b) ∨ (a + 1 < n ∧ a + 1 = b)) <;>
      by_cases c2 : b < n ∧ ((0 < b ∧ b - 1 = a) ∨ (b + 1 < n ∧ b + 1 = a))
    · rw [if_pos c1, if_pos c2]
    · exfalso
      omega
    · exfalso
      omega
    · rw [if_neg c1, if_neg c2]

theorem pathGraph_ball {n : Nat} (hn : 0 < n) :
    ∀ (k v : Nat), v ∈ ball (pathGraph n) 0 k ↔ v ≤ k ∧ v < n := by
  intro k
  induction k with
  | zero =>
    intro v
    show v ∈ [0] ↔ _
    simp only [List.mem_singleton]
    omega
  | succ k ih =>
    intro v
    show v ∈ ballStep (pathGraph n) (ball (pathGraph n) 0 k) ↔ _
    rw [mem_ballStep]
    constructor
    · rintro (hv | ⟨u, hu, hvn⟩)
      · have := (ih v).mp hv
        omega
      · have hu2 := (ih u).mp hu
        have hv2 := (pathGraph_neighborsD n u v).mp hvn
        omega
    · rintro ⟨hv1, hv2⟩
      by_cases hvk : v ≤ k
      · exact Or.inl ((ih v).mpr ⟨hvk, hv2⟩)
      · refine Or.inr ⟨k, (ih k).mpr ⟨le_refl k, by omega⟩, ?_⟩
        rw [pathGraph_neighborsD]
        omega

theorem pathGraph_bfsDist {n j : Nat} (hj : j < n) :
    bfsDist (pathGraph n) 0 j = some j := by
  have hn : 0 < n := by omega
  have h0 : (0 : Nat) ∈ (pathGraph n).data.map Prod.fst := by
    rw [pathGraph_keys]
    exact List.mem_range.mpr hn
  have hmem : j ∈ ball (pathGraph n) 0 j :=
    (pathGraph_ball hn j j).mpr ⟨le_refl j, hj⟩
  obtain ⟨k, hk, hkle⟩ := bfsDist_isSome (pathGraph_WF n) h0 hmem
  have hball := (bfsDist_spec hk).1
  have hjk := (pathGraph_ball hn k j).mp hball
  rw [hk]
  congr 1
  omega

/-! ### Claim theorems C2, C3, C5, C6 -/

/-- Claim C2 (code bug): in a weighted graph containing nodes 0 and 1,
`addLink(0,1,5.0)` followed by `addLink(0,1,9.0)` does not replace the weight.
The second call `set.add`s a differently weighted tuple, so both endpoints
record TWO links between 0 and 1 — weights 5.0 and 9.0 — and `get_links`
reports both, contradicting the claimed replace semantics (and the module
docstring's promise of at most one link per node pair). -/
theorem C2_weighted_link_update_duplicates :
    (twoNodeWeighted.add_link 0 1 (some 5)).2 = 1 ∧
    ((twoNodeWeighted.add_link 0 1 (some 5)).1.add_link 0 1 (some 9)).2 = 1 ∧
    twoNodeRelinked.nearList 0 = [(1, some 5), (1, some 9)] ∧
    twoNodeRelinked.nearList 1 = [(0, some 5), (0, some 9)] ∧
    twoNodeRelinked.get_links 0
      = some [PyTuple.triple 0 1 (some 5), PyTuple.triple 0 1 (some 9)] := by
  refine ⟨rfl, rfl, by decide, by decide, by decide⟩

/-- Claim C3 (confirmed): after any sequence of add/remove operations (single
or bulk) run from a freshly constructed graph, `are_neighbors` is symmetric,
and any `near` entry `(b, w)` of node `a` is mirrored by an entry `(a, w)`
with the identical weight in node `b`'s `near` set. -/
theorem C3_symmetry_invariant (α β : Type) [DecidableEq α] (w : Bool)
    (ops : List (Op α)) (a b : α) :
    (runOps (Graph.mkEmpty α β w) ops).1.are_neighbors a b
      = (runOps (Graph.mkEmpty α β w) ops).1.are_neighbors b a ∧
    ∀ wt, (b, wt) ∈ (runOps (Graph.mkEmpty α β w) ops).1.nearList a →
      (a, wt) ∈ (runOps (Graph.mkEmpty α β w) ops).1.nearList b := by
  constructor
  · exact are_neighbors_symm _ a b
  · intro wt hmem
    exact (WF_reachable α β w ops).mem_near_symm hmem

theorem C3_symmetry_invariant_witness :
    ((runOps (Graph.mkEmpty Nat Nat true) c3ops).1.are_neighbors 0 1
      = (runOps (Graph.mkEmpty Nat Nat true) c3ops).1.are_neighbors 1 0) ∧
    ((1, some 5) ∈ (runOps (Graph.mkEmpty Nat Nat true) c3ops).1.nearList 0) ∧
    ((0, some 5) ∈ (runOps (Graph.mkEmpty Nat Nat true) c3ops).1.nearList 1) :=
  ⟨(C3_symmetry_invariant Nat Nat true c3ops 0 1).1,
   by decide,
   (C3_symmetry_invariant Nat Nat true c3ops 0 1).2 (some 5) (by decide)⟩

/-- Claim C5 (confirmed): in a well-formed store, after `remove_node(x)`
succeeds on an existing node `x`, the node is gone from the key set, no
remaining node's `near` set references `x`, and every identifier appearing in
any `near` set is still a key (referential closure). -/
theorem C5_cascade_delete (α β : Type) [DecidableEq α] (g : Graph α β) (x : α)
    (h : g.WF) (hex : g.node_exists x = true)
    (g1 : Graph α β) (n : Nat) (hrun : g.remove_node x = (g1, Except.ok n)) :
    x ∉ g1.data.map Prod.fst ∧
    (∀ y, ∀ q ∈ g1.nearList y, ¬ q.1 = x) ∧
    (∀ y, ∀ q ∈ g1.nearList y, q.1 ∈ g1.data.map Prod.fst) := by
  obtain ⟨hwf1, hnot, hnoref⟩ := remove_node_success_spec h hrun hex
  exact ⟨hnot, hnoref, fun y q hq => hwf1.closure hq⟩

theorem C5_cascade_delete_witness :
    (0 : Nat) ∉ triangleWithout0.data.map Prod.fst ∧
    ((0 : Nat), (none : Option ℚ)) ∉ triangleWithout0.nearList 1 ∧
    ((0 : Nat), (none : Option ℚ)) ∉ triangleWithout0.nearList 2 := by
  have happ := C5_cascade_delete Nat Nat triangleStore 0 (by decide) (by decide)
    triangleWithout0 1 rfl
  exact ⟨happ.1,
    fun hmem => absurd rfl (happ.2.1 1 (0, none) hmem),
    fun hmem => absurd rfl (happ.2.1 2 (0, none) hmem)⟩

/-- Claim C6 (code bug): `add_link(0,0)` on an existing node is not rejected:
it returns 1, records `(0, None)` in node 0's own `near` set, and
`are_neighbors(0,0)` becomes `True` — the node lists itself as a neighbor,
contradicting the claim (and the module docstring, which says simple graphs
have no link from a node to itself). -/
theorem C6_self_link_created :
    (oneNodeStore.add_link 0 0 none).2 = 1 ∧
    selfLinked.are_neighbors 0 0 = true ∧
    selfLinked.nearList 0 = [(0, none)] := by
  refine ⟨rfl, by decide, by decide⟩

/-! ### Traversal correctness -/

theorem ball_subset_of_closed {g : Graph α β} {a : α} {l : List α}
    (hstart : a ∈ l)
    (hcl : ∀ v ∈ l, ∀ u ∈ neighborsD g v, u ∈ l) :
    ∀ n, ∀ v ∈ ball g a n, v ∈ l := by
  intro n
  induction n with
  | zero =>
    intro v hv
    simp only [ball, List.mem_singleton] at hv
    rw [hv]
    exact hstart
  | succ n ih =>
    intro v hv
    rcases (mem_ballStep _ _ _).mp hv with hv1 | ⟨u, hu, hvu⟩
    · exact ih v hv1
    · exact hcl u (ih u hu) v hvu

theorem length_le_size_of_nodup {g : Graph α β} {l : List α} (hnd : l.Nodup)
    (hsub : ∀ v ∈ l, v ∈ g.data.map Prod.fst) : l.length ≤ g.size := by
  have h1 : l.toFinset.card = l.length := List.toFinset_card_of_nodup hnd
  have h2 : l.toFinset ⊆ (g.data.map Prod.fst).toFinset := by
    intro x hx
    rw [List.mem_toFinset] at hx ⊢
    exact hsub x hx
  have h3 := Finset.card_le_card h2
  have h4 := List.toFinset_card_le (g.data.map Prod.fst)
  have h5 : (List.map Prod.fst g.data).length = g.data.length :=
    List.length_map _ _
  unfold Graph.size
  omega

theorem length_eq_of_nodup_set_eq {l1 l2 : List α} (h1 : l1.Nodup)
    (h2 : l2.Nodup) (he : ∀ v, v ∈ l1 ↔ v ∈ l2) : l1.length = l2.length := by
  have hf : l1.toFinset = l2.toFinset := Finset.ext (fun v => by
    rw [List.mem_toFinset, List.mem_toFinset]
    exact he v)
  have c1 := List.toFinset_card_of_nodup h1
  have c2 := List.toFinset_card_of_nodup h2
  rw [hf] at c1
  omega

/-- Invariant-preserving run of the BFS helper, for stores without duplicated
neighbor entries: from a duplicate-free visited list that contains the start,
is reachable, covers the stack, and whose stack-free members have all their
neighbors visited, the loop returns normally with a duplicate-free,
neighbor-closed, reachable visited list. -/
theorem recBfs_spec {g : Graph α β} (h : g.WF)
    (hNF : ∀ a ∈ g.data.map Prod.fst, (neighborsD g a).Nodup) {start : α}
    (hstart : start ∈ g.data.map Prod.fst) :
    ∀ (fuel : Nat) (visited stack : List α),
    visited.Nodup →
    (∀ v ∈ stack, v ∈ visited) →
    (∀ v ∈ visited, v ∈ ball g start g.size) →
    start ∈ visited →
    (∀ v ∈ visited, v ∈ stack ∨ ∀ u ∈ neighborsD g v, u ∈ visited) →
    g.size + 1 + stack.length ≤ fuel + visited.length →
    ∃ l, g.recBfs fuel visited stack = Except.ok l ∧ l.Nodup ∧
      (∀ v ∈ l, v ∈ ball g start g.size) ∧ start ∈ l ∧
      (∀ v ∈ l, ∀ u ∈ neighborsD g v, u ∈ l) := by
  intro fuel
  induction fuel with
  | zero =>
    intro visited stack hnd hsub hball hst hcl hfuel
    exfalso
    have hkeys : ∀ v ∈ visited, v ∈ g.data.map Prod.fst := fun v hv =>
      ball_subset_keys_of_mem h hstart _ v (hball v hv)
    have := length_le_size_of_nodup hnd hkeys
    omega
  | succ fuel ih =>
    intro visited stack hnd hsub hball hst hcl hfuel
    by_cases hse : stack = []
    · refine ⟨visited, ?_, hnd, hball, hst, ?_⟩
      · show (if stack = [] then Except.ok visited else _) = _
        rw [if_pos hse]
      · intro v hv u hu
        rcases hcl v hv with hc | hc
        · rw [hse] at hc
          simp at hc
        · exact hc u hu
    · have hcv : stack.getLast hse ∈ visited :=
        hsub _ (List.getLast_mem hse)
      have hck : stack.getLast hse ∈ g.data.map Prod.fst :=
        ball_subset_keys_of_mem h hstart _ _ (hball _ hcv)
      have hgn : g.get_neighbors (stack.getLast hse) =
          some (neighborsD g (stack.getLast hse)) :=
        get_neighbors_eq_some ((node_exists_iff_mem g _).mpr hck)
      have hgl : stack.getLast?.bind g.get_neighbors =
          some (neighborsD g (stack.getLast hse)) := by
        rw [List.getLast?_eq_getLast stack hse]
        exact hgn
      have hunvmem : ∀ u, u ∈ (neighborsD g (stack.getLast hse)).filter
          (fun l => decide (l ∉ visited)) ↔
          u ∈ neighborsD g (stack.getLast hse) ∧ u ∉ visited := by
        intro u
        rw [List.mem_filter]
        simp
      have hstep : g.recBfs (fuel + 1) visited stack =
          g.recBfs fuel
            (visited ++ (neighborsD g (stack.getLast hse)).filter
              (fun l => decide (l ∉ visited)))
            (stack.dropLast ++ (neighborsD g (stack.getLast hse)).filter
              (fun l => decide (l ∉ visited))) := by
        show (if stack = [] then Except.ok visited
              else
                match stack.getLast?.bind g.get_neighbors with
                | none => Except.error PyErr.typeError
                | some links =>
                  g.recBfs fuel
                    (visited ++ links.filter (fun l => decide (l ∉ visited)))
                    (stack.dropLast ++
                      links.filter (fun l => decide (l ∉ visited)))) = _
        rw [if_neg hse, hgl]
      have hnd2 : (visited ++ (neighborsD g (stack.getLast hse)).filter
          (fun l => decide (l ∉ visited))).Nodup := by
        rw [List.nodup_append]
        refine ⟨hnd, List.Nodup.filter _ (hNF _ hck), ?_⟩
        intro x hx hx2
        exact ((hunvmem x).mp hx2).2 hx
      have hsub2 : ∀ v ∈ stack.dropLast ++
          (neighborsD g (stack.getLast hse)).filter
            (fun l => decide (l ∉ visited)),
          v ∈ visited ++ (neighborsD g (stack.getLast hse)).filter
            (fun l => decide (l ∉ visited)) := by
        intro v hv
        rcases List.mem_append.mp hv with hv1 | hv1
        · exact List.mem_append.mpr
            (Or.inl (hsub v ((List.dropLast_sublist stack).subset hv1)))
        · exact List.mem_append.mpr (Or.inr hv1)
      have hball2 : ∀ v ∈ visited ++
          (neighborsD g (stack.getLast hse)).filter
            (fun l => decide (l ∉ visited)),
          v ∈ ball g start g.size := by
        intro v hv
        rcases List.mem_append.mp hv with hv1 | hv1
        · exact hball v hv1
        · have h1 := (hunvmem v).mp hv1
          exact mem_ball_size_of_mem h hstart
            (mem_ball_succ_of_neighbor (hball _ hcv) h1.1)
      have hst2 : start ∈ visited ++
          (neighborsD g (stack.getLast hse)).filter
            (fun l => decide (l ∉ visited)) :=
        List.mem_append.mpr (Or.inl hst)
      have hcl2 : ∀ v ∈ visited ++
          (neighborsD g (stack.getLast hse)).filter
            (fun l => decide (l ∉ visited)),
          v ∈ stack.dropLast ++ (neighborsD g (stack.getLast hse)).filter
            (fun l => decide (l ∉ visited)) ∨
          ∀ u ∈ neighborsD g v, u ∈ visited ++
            (neighborsD g (stack.getLast hse)).filter
              (fun l => decide (l ∉ visited)) := by
        intro v hv
        rcases List.mem_append.mp hv with hv1 | hv1
        · rcases hcl v hv1 with hc | hc
          · have hdecomp : v ∈ stack.dropLast ∨ v = stack.getLast hse := by
              have hde : stack.dropLast ++ [stack.getLast hse] = stack :=
                List.dropLast_append_getLast hse
              rw [← hde] at hc
              rcases List.mem_append.mp hc with h1 | h1
              · exact Or.inl h1
              · exact Or.inr (List.mem_singleton.mp h1)
            rcases hdecomp with h1 | h1
            · exact Or.inl (List.mem_append.mpr (Or.inl h1))
            · refine Or.inr ?_
              intro u hu
              rw [h1] at hu
              by_cases huv : u ∈ visited
              · exact List.mem_append.mpr (Or.inl huv)
              · exact List.mem_append.mpr (Or.inr ((hunvmem u).mpr ⟨hu, huv⟩))
          · exact Or.inr
              (fun u hu => List.mem_append.mpr (Or.inl (hc u hu)))
        · exact Or.inl (List.mem_append.mpr (Or.inr hv1))
      have hfuel2 : g.size + 1 + (stack.dropLast ++
          (neighborsD g (stack.getLast hse)).filter
            (fun l => decide (l ∉ visited))).length ≤
          fuel + (visited ++ (neighborsD g (stack.getLast hse)).filter
            (fun l => decide (l ∉ visited))).length := by
        rw [List.length_append, List.length_append, List.length_dropLast]
        have hpos : 1 ≤ stack.length := by
          cases stack with
          | nil => exact absurd rfl hse
          | cons a t => simp
        omega
      obtain ⟨l, hrun, hp⟩ := ih _ _ hnd2 hsub2 hball2 hst2 hcl2 hfuel2
      exact ⟨l, by rw [hstep]; exact hrun, hp⟩

/-- `bfs_traverse` from an existing start node, on a store without duplicated
neighbor entries: the visited list is exactly the reachable set. -/
theorem bfs_traverse_spec {g : Graph α β} (h : g.WF)
    (hNF : ∀ a ∈ g.data.map Prod.fst, (neighborsD g a).Nodup) {start : α}
    (hstart : start ∈ g.data.map Prod.fst) :
    ∃ l, g.bfs_traverse start = Except.ok l ∧ l.Nodup ∧
      (∀ v, v ∈ l ↔ v ∈ ball g start g.size) := by
  obtain ⟨l, hrun, hnd, hball, hst, hcl⟩ :=
    recBfs_spec h hNF hstart (g.size + g.totalNear + 2) [start] [start]
      (by simp)
      (fun v hv => hv)
      (by
        intro v hv
        simp only [List.mem_singleton] at hv
        rw [hv]
        exact mem_ball_size_of_mem h hstart
          (show start ∈ ball g start 0 by simp [ball]))
      (by simp)
      (fun v hv => Or.inl hv)
      (by simp; omega)
  refine ⟨l, hrun, hnd, ?_⟩
  intro v
  constructor
  · intro hv
    exact hball v hv
  · intro hv
    exact ball_subset_of_closed hst hcl g.size v hv

theorem length_filter_mono {p q : γ → Bool}
    (himp : ∀ x, p x = true → q x = true) :
    ∀ (l : List γ), (l.filter p).length ≤ (l.filter q).length := by
  intro l
  induction l with
  | nil => simp
  | cons x rest ih =>
    rw [List.filter_cons, List.filter_cons]
    by_cases hp : p x = true
    · rw [if_pos hp, if_pos (himp x hp)]
      simpa using ih
    · rw [if_neg hp]
      by_cases hq : q x = true
      · rw [if_pos hq]
        exact Nat.le_succ_of_le ih
      · rw [if_neg hq]
        exact ih

theorem length_filter_fst {ε : Type} (visited : List α) :
    ∀ (l : List (α × ε)),
    ((l.map Prod.fst).filter (fun x => decide (x ∉ visited))).length =
    (l.filter (fun q => decide (q.1 ∉ visited))).length := by
  intro l
  induction l with
  | nil => rfl
  | cons x rest ih =>
    show ((x.1 :: rest.map Prod.fst).filter _).length = _
    rw [List.filter_cons, List.filter_cons]
    by_cases hp : decide (x.1 ∉ visited) = true
    · rw [if_pos hp, if_pos hp]
      simpa using ih
    · rw [if_neg hp, if_neg hp]
      exact ih

theorem sum_map_le_sub {f f1 : γ → Nat} {b : Nat} :
    ∀ (l : List γ), (∀ x ∈ l, f1 x ≤ f x) → (∃ x ∈ l, f1 x + b ≤ f x) →
    (l.map f1).sum + b ≤ (l.map f).sum := by
  intro l
  induction l with
  | nil =>
    rintro _ ⟨x, hx, _⟩
    simp at hx
  | cons y rest ih =>
    rintro hmono ⟨x, hx, hgap⟩
    simp only [List.map_cons, List.sum_cons]
    rcases List.mem_cons.mp hx with he | hx2
    · have hrest : (rest.map f1).sum ≤ (rest.map f).sum :=
        List.sum_le_sum (fun z hz => hmono z (List.mem_cons_of_mem _ hz))
      rw [he] at hgap
      omega
    · have hr := ih (fun z hz => hmono z (List.mem_cons_of_mem _ hz))
        ⟨x, hx2, hgap⟩
      have hy : f1 y ≤ f y := hmono y (List.mem_cons_self _ _)
      omega

theorem unvisitedEntries_le_totalNear (g : Graph α β) (visited : List α) :
    unvisitedEntries g visited ≤ g.totalNear := by
  unfold unvisitedEntries Graph.totalNear
  apply List.sum_le_sum
  intro p hp
  exact List.length_filter_le _ _

/-- One BFS iteration strictly pays for its pushed batch: marking the batch
visited removes at least `|batch|` near-entries (those of the popped node
that produced the batch) from the unvisited-target count. -/
theorem unvisitedEntries_step {g : Graph α β} (h : g.WF) {current : α}
    (hck : current ∈ g.data.map Prod.fst) (visited : List α) :
    unvisitedEntries g (visited ++
        (neighborsD g current).filter (fun l => decide (l ∉ visited))) +
      ((neighborsD g current).filter (fun l => decide (l ∉ visited))).length ≤
    unvisitedEntries g visited := by
  obtain ⟨p0, hp0, hp0fst⟩ := List.mem_map.mp hck
  have hp0mem : (current, p0.2) ∈ g.data := by
    rw [← hp0fst]
    exact hp0
  have hnear : g.nearList current = p0.2.near := by
    unfold Graph.nearList Graph.lookupRec
    rw [pyGet_of_mem h.1 hp0mem]
  have hunv : (neighborsD g current).filter (fun l => decide (l ∉ visited)) =
      (p0.2.near.map Prod.fst).filter (fun l => decide (l ∉ visited)) := by
    unfold neighborsD
    rw [hnear]
  unfold unvisitedEntries
  apply sum_map_le_sub
  · intro p hp
    apply length_filter_mono
    intro x hx
    rw [decide_eq_true_eq] at hx ⊢
    intro hc
    exact hx (List.mem_append.mpr (Or.inl hc))
  · refine ⟨p0, hp0, ?_⟩
    have hzero : (p0.2.near.filter (fun q => decide (q.1 ∉ visited ++
        (neighborsD g current).filter (fun l => decide (l ∉ visited))))).length
        = 0 := by
      rw [List.length_eq_zero, List.filter_eq_nil_iff]
      intro q hq
      rw [Bool.not_eq_true, decide_eq_false_iff_not, not_not]
      by_cases hqv : q.1 ∈ visited
      · exact List.mem_append.mpr (Or.inl hqv)
      · refine List.mem_append.mpr (Or.inr ?_)
        rw [hunv]
        refine List.mem_filter.mpr ⟨List.mem_map.mpr ⟨q, hq, rfl⟩, ?_⟩
        rw [decide_eq_true_eq]
        exact hqv
    have hb : ((neighborsD g current).filter
        (fun l => decide (l ∉ visited))).length =
        (p0.2.near.filter (fun q => decide (q.1 ∉ visited))).length := by
      rw [hunv]
      exact length_filter_fst visited p0.2.near
    rw [hzero, hb]
    omega

/-- The BFS helper returns normally from any state whose stack nodes exist,
with fuel covering the stack plus the unvisited-target entry count — no
duplicate-free assumption: the potential pays for every push, also when a
batch appends the same node twice. -/
theorem recBfs_ok {g : Graph α β} (h : g.WF) :
    ∀ (fuel : Nat) (visited stack : List α),
    (∀ v ∈ stack, v ∈ g.data.map Prod.fst) →
    stack.length + unvisitedEntries g visited + 1 ≤ fuel →
    ∃ l, g.recBfs fuel visited stack = Except.ok l := by
  intro fuel
  induction fuel with
  | zero =>
    intro visited stack hsub hfuel
    exfalso
    omega
  | succ fuel ih =>
    intro visited stack hsub hfuel
    by_cases hse : stack = []
    · refine ⟨visited, ?_⟩
      show (if stack = [] then Except.ok visited else _) = _
      rw [if_pos hse]
    · have hck : stack.getLast hse ∈ g.data.map Prod.fst :=
        hsub _ (List.getLast_mem hse)
      have hgn : g.get_neighbors (stack.getLast hse) =
          some (neighborsD g (stack.getLast hse)) :=
        get_neighbors_eq_some ((node_exists_iff_mem g _).mpr hck)
      have hgl : stack.getLast?.bind g.get_neighbors =
          some (neighborsD g (stack.getLast hse)) := by
        rw [List.getLast?_eq_getLast stack hse]
        exact hgn
      have hstep : g.recBfs (fuel + 1) visited stack =
          g.recBfs fuel
            (visited ++ (neighborsD g (stack.getLast hse)).filter
              (fun l => decide (l ∉ visited)))
            (stack.dropLast ++ (neighborsD g (stack.getLast hse)).filter
              (fun l => decide (l ∉ visited))) := by
        show (if stack = [] then Except.ok visited
              else
                match stack.getLast?.bind g.get_neighbors with
                | none => Except.error PyErr.typeError
                | some links =>
                  g.recBfs fuel
                    (visited ++ links.filter (fun l => decide (l ∉ visited)))
                    (stack.dropLast ++
                      links.filter (fun l => decide (l ∉ visited)))) = _
        rw [if_neg hse, hgl]
      have hsub2 : ∀ v ∈ stack.dropLast ++
          (neighborsD g (stack.getLast hse)).filter
            (fun l => decide (l ∉ visited)),
          v ∈ g.data.map Prod.fst := by
        intro v hv
        rcases List.mem_append.mp hv with hv1 | hv1
        · exact hsub v ((List.dropLast_sublist stack).subset hv1)
        · have hvn : v ∈ neighborsD g (stack.getLast hse) :=
            (List.mem_filter.mp hv1).1
          rcases List.mem_map.mp hvn with ⟨q, hq, rfl⟩
          exact h.closure hq
      have hpot := unvisitedEntries_step h hck visited
      have hfuel2 : (stack.dropLast ++
          (neighborsD g (stack.getLast hse)).filter
            (fun l => decide (l ∉ visited))).length +
          unvisitedEntries g (visited ++
            (neighborsD g (stack.getLast hse)).filter
              (fun l => decide (l ∉ visited))) + 1 ≤ fuel := by
        rw [List.length_append, List.length_dropLast]
        have hpos : 1 ≤ stack.length := by
          cases stack with
          | nil => exact absurd rfl hse
          | cons a t => simp
        omega
      obtain ⟨l, hrun⟩ := ih _ _ hsub2 hfuel2
      exact ⟨l, by rw [hstep]; exact hrun⟩

/-- `bfs_traverse` from an existing start node returns normally on every
well-formed store, duplicated neighbor entries included. -/
theorem bfs_traverse_ok {g : Graph α β} (h : g.WF) {start : α}
    (hstart : start ∈ g.data.map Prod.fst) :
    ∃ l, g.bfs_traverse start = Except.ok l := by
  apply recBfs_ok h (g.size + g.totalNear + 2) [start] [start]
  · intro v hv
    simp only [List.mem_singleton] at hv
    rw [hv]
    exact hstart
  · have hle := unvisitedEntries_le_totalNear g [start]
    simp only [List.length_singleton]
    omega

/-- Invariant-preserving run of the DFS helper: the current node is the last
path entry, visited and path are duplicate-free, the path is the visited
frontier, and off-path visited nodes have all neighbors visited.  Holds with
no assumption on duplicated neighbor entries: the scan picks one unvisited
neighbor at a time. -/
theorem recDfs_spec {g : Graph α β} (h : g.WF) {start : α}
    (hstart : start ∈ g.data.map Prod.fst) :
    ∀ (fuel : Nat) (visited path : List α),
    visited.Nodup →
    path.Nodup →
    (∀ v ∈ path, v ∈ visited) →
    (∀ v ∈ visited, v ∈ ball g start g.size) →
    start ∈ visited →
    (∀ v ∈ visited, v ∈ path ∨ ∀ u ∈ neighborsD g v, u ∈ visited) →
    2 * g.size + 1 + path.length ≤ fuel + 2 * visited.length →
    ∃ l, g.recDfs fuel path.getLast? visited path = Except.ok l ∧ l.Nodup ∧
      (∀ v ∈ l, v ∈ ball g start g.size) ∧ start ∈ l ∧
      (∀ v ∈ l, ∀ u ∈ neighborsD g v, u ∈ l) := by
  intro fuel
  induction fuel with
  | zero =>
    intro visited path hnd hpnd hpsub hball hst hcl hfuel
    exfalso
    have hkeys : ∀ v ∈ visited, v ∈ g.data.map Prod.fst := fun v hv =>
      ball_subset_keys_of_mem h hstart _ v (hball v hv)
    have := length_le_size_of_nodup hnd hkeys
    omega
  | succ fuel ih =>
    intro visited path hnd hpnd hpsub hball hst hcl hfuel
    by_cases hpe : path = []
    · refine ⟨visited, ?_, hnd, hball, hst, ?_⟩
      · show (if path = [] then Except.ok visited else _) = _
        rw [if_pos hpe]
      · intro v hv u hu
        rcases hcl v hv with hc | hc
        · rw [hpe] at hc
          simp at hc
        · exact hc u hu
    · have hcv : path.getLast hpe ∈ visited :=
        hpsub _ (List.getLast_mem hpe)
      have hck : path.getLast hpe ∈ g.data.map Prod.fst :=
        ball_subset_keys_of_mem h hstart _ _ (hball _ hcv)
      have hgn : g.get_neighbors (path.getLast hpe) =
          some (neighborsD g (path.getLast hpe)) :=
        get_neighbors_eq_some ((node_exists_iff_mem g _).mpr hck)
      have hbind : path.getLast?.bind g.get_neighbors =
          some (neighborsD g (path.getLast hpe)) := by
        rw [List.getLast?_eq_getLast path hpe]
        exact hgn
      cases hfind : (neighborsD g (path.getLast hpe)).find?
          (fun l => decide (l ∉ visited)) with
      | some selected =>
        have hselmem : selected ∈ neighborsD g (path.getLast hpe) :=
          List.mem_of_find?_eq_some hfind
        have hselnv : selected ∉ visited := by
          have := List.find?_some hfind
          simpa using this
        have hstep : g.recDfs (fuel + 1) path.getLast? visited path =
            g.recDfs fuel (some selected) (visited ++ [selected])
              (path ++ [selected]) := by
          show (if path = [] then Except.ok visited
                else
                  match path.getLast?.bind g.get_neighbors with
                  | none => Except.error PyErr.typeError
                  | some links =>
                    match links.find? (fun l => decide (l ∉ visited)) with
                    | some selected =>
                      g.recDfs fuel (some selected) (visited ++ [selected])
                        (path ++ [selected])
                    | none =>
                      g.recDfs fuel path.dropLast.getLast? visited
                        path.dropLast) = _
          rw [if_neg hpe, hbind]
          dsimp only
          rw [hfind]
        have hnd2 : (visited ++ [selected]).Nodup := by
          rw [List.nodup_append]
          refine ⟨hnd, by simp, ?_⟩
          intro x hx hx2
          rw [List.mem_singleton] at hx2
          rw [hx2] at hx
          exact hselnv hx
        have hpnd2 : (path ++ [selected]).Nodup := by
          rw [List.nodup_append]
          refine ⟨hpnd, by simp, ?_⟩
          intro x hx hx2
          rw [List.mem_singleton] at hx2
          rw [hx2] at hx
          exact hselnv (hpsub _ hx)
        have hpsub2 : ∀ v ∈ path ++ [selected], v ∈ visited ++ [selected] := by
          intro v hv
          rcases List.mem_append.mp hv with hv1 | hv1
          · exact List.mem_append.mpr (Or.inl (hpsub v hv1))
          · exact List.mem_append.mpr (Or.inr hv1)
        have hball2 : ∀ v ∈ visited ++ [selected], v ∈ ball g start g.size := by
          intro v hv
          rcases List.mem_append.mp hv with hv1 | hv1
          · exact hball v hv1
          · rw [List.mem_singleton] at hv1
            rw [hv1]
            exact mem_ball_size_of_mem h hstart
              (mem_ball_succ_of_neighbor (hball _ hcv) hselmem)
        have hst2 : start ∈ visited ++ [selected] :=
          List.mem_append.mpr (Or.inl hst)
        have hcl2 : ∀ v ∈ visited ++ [selected],
            v ∈ path ++ [selected] ∨
            ∀ u ∈ neighborsD g v, u ∈ visited ++ [selected] := by
          intro v hv
          rcases List.mem_append.mp hv with hv1 | hv1
          · rcases hcl v hv1 with hc | hc
            · exact Or.inl (List.mem_append.mpr (Or.inl hc))
            · exact Or.inr
                (fun u hu => List.mem_append.mpr (Or.inl (hc u hu)))
          · exact Or.inl (List.mem_append.mpr (Or.inr hv1))
        have hfuel2 : 2 * g.size + 1 + (path ++ [selected]).length ≤
            fuel + 2 * (visited ++ [selected]).length := by
          rw [List.length_append, List.length_append]
          simp only [List.length_singleton]
          omega
        obtain ⟨l, hrun, hp⟩ :=
          ih _ _ hnd2 hpnd2 hpsub2 hball2 hst2 hcl2 hfuel2
        refine ⟨l, ?_, hp⟩
        rw [hstep]
        have hgl2 : (path ++ [selected]).getLast? = some selected := by simp
        rw [← hgl2]
        exact hrun
      | none =>
        have hall : ∀ u ∈ neighborsD g (path.getLast hpe), u ∈ visited := by
          intro u hu
          have := List.find?_eq_none.mp hfind u hu
          simpa using this
        have hstep : g.recDfs (fuel + 1) path.getLast? visited path =
            g.recDfs fuel path.dropLast.getLast? visited path.dropLast := by
          show (if path = [] then Except.ok visited
                else
                  match path.getLast?.bind g.get_neighbors with
                  | none => Except.error PyErr.typeError
                  | some links =>
                    match links.find? (fun l => decide (l ∉ visited)) with
                    | some selected =>
                      g.recDfs fuel (some selected) (visited ++ [selected])
                        (path ++ [selected])
                    | none =>
                      g.recDfs fuel path.dropLast.getLast? visited
                        path.dropLast) = _
          rw [if_neg hpe, hbind]
          dsimp only
          rw [hfind]
        have hpnd2 : path.dropLast.Nodup :=
          List.Nodup.sublist (List.dropLast_sublist path) hpnd
        have hpsub2 : ∀ v ∈ path.dropLast, v ∈ visited := fun v hv =>
          hpsub v ((List.dropLast_sublist path).subset hv)
        have hcl2 : ∀ v ∈ visited,
            v ∈ path.dropLast ∨ ∀ u ∈ neighborsD g v, u ∈ visited := by
          intro v hv
          rcases hcl v hv with hc | hc
          · have hdecomp : v ∈ path.dropLast ∨ v = path.getLast hpe := by
              have hde : path.dropLast ++ [path.getLast hpe] = path :=
                List.dropLast_append_getLast hpe
              rw [← hde] at hc
              rcases List.mem_append.mp hc with h1 | h1
              · exact Or.inl h1
              · exact Or.inr (List.mem_singleton.mp h1)
            rcases hdecomp with h1 | h1
            · exact Or.inl h1
            · refine Or.inr ?_
              intro u hu
              rw [h1] at hu
              exact hall u hu
          · exact Or.inr hc
        have hfuel2 : 2 * g.size + 1 + path.dropLast.length ≤
            fuel + 2 * visited.length := by
          rw [List.length_dropLast]
          have hpos : 1 ≤ path.length := by
            cases path with
            | nil => exact absurd rfl hpe
            | cons a t => simp
          omega
        obtain ⟨l, hrun, hp⟩ :=
          ih _ _ hnd hpnd2 hpsub2 hball hst hcl2 hfuel2
        refine ⟨l, ?_, hp⟩
        rw [hstep]
        exact hrun

/-- `dfs_traverse` from an existing start node: the visited list is exactly
the reachable set (no duplicate-entry assumption needed). -/
theorem dfs_traverse_spec {g : Graph α β} (h : g.WF) {start : α}
    (hstart : start ∈ g.data.map Prod.fst) :
    ∃ l, g.dfs_traverse start = Except.ok l ∧ l.Nodup ∧
      (∀ v, v ∈ l ↔ v ∈ ball g start g.size) := by
  obtain ⟨l, hrun, hnd, hball, hst, hcl⟩ :=
    recDfs_spec h hstart (2 * g.size + 2) [start] [start]
      (by simp)
      (by simp)
      (fun v hv => hv)
      (by
        intro v hv
        simp only [List.mem_singleton] at hv
        rw [hv]
        exact mem_ball_size_of_mem h hstart
          (show start ∈ ball g start 0 by simp [ball]))
      (by simp)
      (fun v hv => Or.inl hv)
      (by simp only [List.length_singleton]; omega)
  refine ⟨l, ?_, hnd, ?_⟩
  · have hgl : [start].getLast? = some start := by simp
    unfold Graph.dfs_traverse
    rw [← hgl]
    exact hrun
  · intro v
    constructor
    · exact hball v
    · exact ball_subset_of_closed hst hcl g.size v

/-! ### Depth-layer loop correctness -/

theorem expandNode_spec :
    ∀ (ns V acc : List α),
    ∃ extra, expandNode V acc ns = (V ++ extra, acc ++ extra) ∧
      extra.Nodup ∧
      (∀ v, v ∈ extra ↔ (v ∉ V ∧ v ∈ ns)) := by
  intro ns
  induction ns with
  | nil =>
    intro V acc
    refine ⟨[], by simp [expandNode], by simp, by simp⟩
  | cons nid rest ih =>
    intro V acc
    by_cases hmem : nid ∈ V
    · obtain ⟨extra, heq, hnd, hiff⟩ := ih V acc
      refine ⟨extra, ?_, hnd, ?_⟩
      · unfold expandNode
        rw [if_pos hmem]
        exact heq
      · intro v
        rw [hiff v]
        constructor
        · rintro ⟨h1, h2⟩
          exact ⟨h1, List.mem_cons_of_mem _ h2⟩
        · rintro ⟨h1, h2⟩
          rcases List.mem_cons.mp h2 with he | h3
          · rw [he] at h1
            exact absurd hmem h1
          · exact ⟨h1, h3⟩
    · obtain ⟨extra, heq, hnd, hiff⟩ := ih (V ++ [nid]) (acc ++ [nid])
      refine ⟨nid :: extra, ?_, ?_, ?_⟩
      · unfold expandNode
        rw [if_neg hmem, heq]
        simp [List.append_assoc]
      · rw [List.nodup_cons]
        refine ⟨?_, hnd⟩
        intro hm
        have := ((hiff nid).mp hm).1
        simp at this
      · intro v
        constructor
        · intro hv
          rcases List.mem_cons.mp hv with he | hv1
          · rw [he]
            exact ⟨hmem, List.mem_cons_self _ _⟩
          · obtain ⟨h1, h2⟩ := (hiff v).mp hv1
            exact ⟨fun hc => h1 (List.mem_append.mpr (Or.inl hc)),
              List.mem_cons_of_mem _ h2⟩
        · rintro ⟨h1, h2⟩
          rcases List.mem_cons.mp h2 with he | h3
          · rw [he]
            exact List.mem_cons_self _ _
          · by_cases hvn : v = nid
            · rw [hvn]
              exact List.mem_cons_self _ _
            · refine List.mem_cons_of_mem _ ((hiff v).mpr ⟨?_, h3⟩)
              simp only [List.mem_append, List.mem_singleton]
              rintro (hc | hc)
              · exact h1 hc
              · exact hvn hc

theorem expandLayer_spec {g : Graph α β} :
    ∀ (F V acc : List α),
    (∀ u ∈ F, g.node_exists u = true) →
    ∃ extra, g.expandLayer F V acc = Except.ok (V ++ extra, acc ++ extra) ∧
      extra.Nodup ∧
      (∀ v, v ∈ extra ↔ (v ∉ V ∧ ∃ u ∈ F, v ∈ neighborsD g u)) := by
  intro F
  induction F with
  | nil =>
    intro V acc hF
    refine ⟨[], ?_, by simp, by simp⟩
    unfold Graph.expandLayer
    simp
  | cons u F1 ih =>
    intro V acc hF
    have hu := hF u (List.mem_cons_self _ _)
    obtain ⟨e1, he1, hnd1, hif1⟩ := expandNode_spec (neighborsD g u) V acc
    obtain ⟨e2, he2, hnd2, hif2⟩ := ih (V ++ e1) (acc ++ e1)
      (fun x hx => hF x (List.mem_cons_of_mem _ hx))
    refine ⟨e1 ++ e2, ?_, ?_, ?_⟩
    · unfold Graph.expandLayer
      rw [get_neighbors_eq_some hu]
      dsimp only
      rw [he1]
      dsimp only
      rw [he2]
      simp [List.append_assoc]
    · rw [List.nodup_append]
      refine ⟨hnd1, hnd2, ?_⟩
      intro v hv1 hv2
      exact ((hif2 v).mp hv2).1 (List.mem_append.mpr (Or.inr hv1))
    · intro v
      constructor
      · intro hv
        rcases List.mem_append.mp hv with hv1 | hv2
        · obtain ⟨h1, h2⟩ := (hif1 v).mp hv1
          exact ⟨h1, u, List.mem_cons_self _ _, h2⟩
        · obtain ⟨h1, h2⟩ := (hif2 v).mp hv2
          refine ⟨fun hc => h1 (List.mem_append.mpr (Or.inl hc)), ?_⟩
          rcases h2 with ⟨u1, hu1, hvu1⟩
          exact ⟨u1, List.mem_cons_of_mem _ hu1, hvu1⟩
      · rintro ⟨h1, u1, hu1, hvu1⟩
        rcases List.mem_cons.mp hu1 with he | hu2
        · rw [he] at hvu1
          exact List.mem_append.mpr (Or.inl ((hif1 v).mpr ⟨h1, hvu1⟩))
        · by_cases hv1 : v ∈ e1
          · exact List.mem_append.mpr (Or.inl hv1)
          · refine List.mem_append.mpr
              (Or.inr ((hif2 v).mpr ⟨?_, u1, hu2, hvu1⟩))
            simp only [List.mem_append]
            rintro (hc | hc)
            · exact h1 hc
            · exact hv1 hc

/-- Invariant-preserving run of `get_depth_layer`'s while loop: visited is
exactly the ball of radius `c` and the frontier exactly layer `c`.  The loop
returns the last nonempty layer (`L < layer`, graph exhausted — every
reachable node lies within `L` hops) or the requested layer with its exact
node set. -/
theorem depthLoop_spec {g : Graph α β} (h : g.WF) {init : α}
    (hinit : init ∈ g.data.map Prod.fst) (layer : Nat) :
    ∀ (fuel c : Nat) (F V : List α),
    (∀ v, v ∈ V ↔ v ∈ ball g init c) →
    (∀ v, v ∈ F ↔ bfsDist g init v = some c) →
    V.Nodup →
    c + 1 ≤ V.length →
    g.size + 1 ≤ fuel + c →
    c < layer →
    ∃ L ns, g.depthLoop layer fuel F V c = Except.ok (L, ns) ∧
      c ≤ L ∧ L ≤ layer ∧
      (∀ v, v ∈ ns ↔ bfsDist g init v = some L) ∧
      (L < layer → ∀ v k, bfsDist g init v = some k → k ≤ L) := by
  intro fuel
  induction fuel with
  | zero =>
    intro c F V hIs hF hnd hlen hfuel hclt
    exfalso
    have hkeys : ∀ v ∈ V, v ∈ g.data.map Prod.fst := fun v hv =>
      ball_subset_keys_of_mem h hinit c v ((hIs v).mp hv)
    have := length_le_size_of_nodup hnd hkeys
    omega
  | succ f ih =>
    intro c F V hIs hF hnd hlen hfuel hclt
    have hFkeys : ∀ u ∈ F, g.node_exists u = true := by
      intro u hu
      rw [node_exists_iff_mem]
      exact ball_subset_keys_of_mem h hinit c u (bfsDist_spec ((hF u).mp hu)).1
    obtain ⟨extra, hexp, hnd_e, hif_e⟩ := expandLayer_spec F V [] hFkeys
    rw [List.nil_append] at hexp
    have hstep : g.depthLoop layer (f + 1) F V c =
        (if extra = [] then Except.ok (c + 1 - 1, F)
         else if c + 1 = layer then Except.ok (c + 1, extra)
         else g.depthLoop layer f extra (V ++ extra) (c + 1)) := by
      show (match g.expandLayer F V [] with
            | Except.error e => Except.error e
            | Except.ok (visited1, new_nodes) =>
              if new_nodes = [] then Except.ok (c + 1 - 1, F)
              else if c + 1 = layer then Except.ok (c + 1, new_nodes)
              else g.depthLoop layer f new_nodes visited1 (c + 1)) = _
      rw [hexp]
    by_cases hempty : extra = []
    · have hclosed : ∀ v ∈ ball g init c, ∀ u ∈ neighborsD g v,
          u ∈ ball g init c := by
        intro v hv u hu
        obtain ⟨k, hdk, hkle⟩ := bfsDist_isSome h hinit hv
        have hkc : k ≤ c := bfsDist_le_of_mem_ball hdk hv
        by_cases hkeq : k = c
        · have hvF : v ∈ F := (hF v).mpr (by rw [← hkeq]; exact hdk)
          by_contra hun
          have hunv : u ∉ V := fun hc => hun ((hIs u).mp hc)
          have : u ∈ extra := (hif_e u).mpr ⟨hunv, v, hvF, hu⟩
          rw [hempty] at this
          simp at this
        · have hklt : k < c := Nat.lt_of_le_of_ne hkc hkeq
          have : u ∈ ball g init (k + 1) :=
            mem_ball_succ_of_neighbor (bfsDist_spec hdk).1 hu
          exact ball_mono g init (by omega) this
      refine ⟨c, F, ?_, le_refl c, by omega, hF, ?_⟩
      · rw [hstep, if_pos hempty]
        rfl
      · intro _ v k hdk
        have hm : v ∈ ball g init c :=
          ball_all_of_closed hclosed k v (bfsDist_spec hdk).1
        exact bfsDist_le_of_mem_ball hdk hm
    · have hextra_dist : ∀ v ∈ extra, bfsDist g init v = some (c + 1) := by
        intro v hv
        obtain ⟨hnotV, u, huF, hvu⟩ := (hif_e v).mp hv
        have hnotball : v ∉ ball g init c := fun hc => hnotV ((hIs v).mpr hc)
        have hmem : v ∈ ball g init (c + 1) :=
          mem_ball_succ_of_neighbor (bfsDist_spec ((hF u).mp huF)).1 hvu
        exact bfsDist_exact_succ h hinit hmem hnotball
      have hF1 : ∀ v, v ∈ extra ↔ bfsDist g init v = some (c + 1) := by
        intro v
        refine ⟨hextra_dist v, ?_⟩
        intro hd
        have hmem : v ∈ ball g init (c + 1) := (bfsDist_spec hd).1
        have hnotc : v ∉ ball g init c :=
          (bfsDist_spec hd).2.1 c (Nat.lt_succ_self c)
        have hnotV : v ∉ V := fun hc => hnotc ((hIs v).mp hc)
        rcases (mem_ballStep _ _ _).mp hmem with hc1 | ⟨u, hu, hvu⟩
        · exact absurd hc1 hnotc
        · obtain ⟨k, hdk, _⟩ := bfsDist_isSome h hinit hu
          have hkc : k ≤ c := bfsDist_le_of_mem_ball hdk hu
          by_cases hkeq : k = c
          · have huF : u ∈ F := (hF u).mpr (by rw [← hkeq]; exact hdk)
            exact (hif_e v).mpr ⟨hnotV, u, huF, hvu⟩
          · exfalso
            have : v ∈ ball g init (k + 1) :=
              mem_ball_succ_of_neighbor (bfsDist_spec hdk).1 hvu
            exact hnotc (ball_mono g init (by omega) this)
      by_cases hreach : c + 1 = layer
      · refine ⟨c + 1, extra, ?_, by omega, by omega, hF1, ?_⟩
        · rw [hstep, if_neg hempty, if_pos hreach]
        · intro hlt
          exact absurd hreach (by omega)
      · have hIs1 : ∀ v, v ∈ V ++ extra ↔ v ∈ ball g init (c + 1) := by
          intro v
          constructor
          · intro hv
            rcases List.mem_append.mp hv with hv1 | hv1
            · exact ball_mono g init (by omega) ((hIs v).mp hv1)
            · exact (bfsDist_spec (hextra_dist v hv1)).1
          · intro hv
            by_cases hvc : v ∈ ball g init c
            · exact List.mem_append.mpr (Or.inl ((hIs v).mpr hvc))
            · have hd : bfsDist g init v = some (c + 1) :=
                bfsDist_exact_succ h hinit hv hvc
              exact List.mem_append.mpr (Or.inr ((hF1 v).mpr hd))
        have hnd1 : (V ++ extra).Nodup := by
          rw [List.nodup_append]
          refine ⟨hnd, hnd_e, ?_⟩
          intro x hx hx2
          exact ((hif_e x).mp hx2).1 hx
        have hlen1 : c + 2 ≤ (V ++ extra).length := by
          rw [List.length_append]
          have : 0 < extra.length := List.length_pos.mpr hempty
          omega
        obtain ⟨L, ns, hrun, hcL, hLlay, hns, hlast⟩ :=
          ih (c + 1) extra (V ++ extra) hIs1 hF1 hnd1 hlen1 (by omega)
            (by omega)
        refine ⟨L, ns, ?_, by omega, hLlay, hns, hlast⟩
        rw [hstep, if_neg hempty, if_neg hreach]
        exact hrun

/-- `get_depth_layer` from an existing start node with positive requested
layer: the reported layer is at most the request, the reported nodes are
exactly those at the reported BFS distance, and a report short of the
request means the graph is exhausted within that many hops. -/
theorem get_depth_layer_spec {g : Graph α β} (h : g.WF) {init : α}
    (hinit : init ∈ g.data.map Prod.fst) (layer : Nat) (hpos : 0 < layer) :
    ∃ L ns, g.get_depth_layer init layer = Except.ok (L, ns) ∧
      L ≤ layer ∧
      (∀ v, v ∈ ns ↔ bfsDist g init v = some L) ∧
      (L < layer → ∀ v k, bfsDist g init v = some k → k ≤ L) := by
  obtain ⟨L, ns, hrun, hcL, hLlay, hns, hlast⟩ :=
    depthLoop_spec h hinit layer (g.size + 1) 0 [init] [init]
      (by
        intro v
        show v ∈ [init] ↔ v ∈ ball g init 0
        simp [ball])
      (by
        intro v
        rw [bfsDist_zero_iff]
        simp)
      (by simp)
      (by simp)
      (by omega)
      hpos
  refine ⟨L, ns, ?_, hLlay, hns, hlast⟩
  unfold Graph.get_depth_layer
  rw [if_neg (by omega)]
  exact hrun

/-! ### Claim C4 and C9: shortest path -/

theorem bfsDist_getLast_of_getLast? {g : Graph α β} {init : α} {l : List α}
    {m : Nat} (hne : l ≠ [])
    (hlast : bfsDist g init (l.getLast hne) = some m) {x : α}
    (hx : l.getLast? = some x) : bfsDist g init x = some m := by
  rw [List.getLast?_eq_getLast l hne] at hx
  injection hx with hx
  rw [← hx]
  exact hlast

/-- Claim C4 (amended: the general path-correctness holds only when the hop
distance is at most the source's 1000-step backtrack cap): `shortest_path`
returns `[]` when either endpoint is absent and `[start]` when the endpoints
coincide; for a well-formed graph with distinct endpoints whose hop distance
`d` satisfies `d ≤ 1000`, it returns a path of length `d + 1` running from
`start` to `dest` with consecutive entries neighbors; on the ten-node example
graph, `shortest_path 0 9 = [0, 1, 4, 6, 9]` (length 5), `shortest_path 0 1 =
[0, 1]` (length 2) and `shortest_path 0 0 = [0]`. -/
theorem C4_shortest_path_correct :
    (∀ (γ δ : Type) [DecidableEq γ] (g : Graph γ δ) (a b : γ),
      (g.node_does_not_exist a || g.node_does_not_exist b) = true →
      g.shortest_path a b = Except.ok []) ∧
    (∀ (γ δ : Type) [DecidableEq γ] (g : Graph γ δ) (a : γ),
      g.node_exists a = true → g.shortest_path a a = Except.ok [a]) ∧
    (∀ (γ δ : Type) [DecidableEq γ] (g : Graph γ δ) (a b : γ) (d : Nat),
      g.WF → a ∈ g.data.map Prod.fst → a ≠ b → bfsDist g a b = some d →
      d ≤ 1000 →
      ∃ p, g.shortest_path a b = Except.ok p ∧ p.length = d + 1 ∧
        p.head? = some a ∧ p.getLast? = some b ∧
        List.Chain' (fun x y => g.are_neighbors x y = true) p) ∧
    c4Graph.shortest_path 0 9 = Except.ok [0, 1, 4, 6, 9] ∧
    c4Graph.shortest_path 0 1 = Except.ok [0, 1] ∧
    c4Graph.shortest_path 0 0 = Except.ok [0] := by
  refine ⟨?_, ?_, ?_, rfl, rfl, rfl⟩
  · intro γ δ _ g a b h1
    unfold Graph.shortest_path
    rw [if_pos h1]
  · intro γ δ _ g a h1
    have hnn : g.node_does_not_exist a = false := by
      unfold Graph.node_does_not_exist
      rw [h1]
      rfl
    unfold Graph.shortest_path
    rw [hnn]
    rw [if_neg (by simp), if_pos rfl]
  · intro γ δ _ g a b d hwf ha hne hd hcap
    exact shortest_path_reachable hwf ha hne hd hcap

theorem C4_shortest_path_correct_witness :
    (∃ p, c4Graph.shortest_path 0 9 = Except.ok p ∧ p.length = 4 + 1 ∧
      p.head? = some 0 ∧ p.getLast? = some 9 ∧
      List.Chain' (fun x y => c4Graph.are_neighbors x y = true) p) ∧
    c4Graph.shortest_path 7 7 = Except.ok [7] ∧
    c4Graph.shortest_path 0 11 = Except.ok [] := by
  refine ⟨?_, ?_, ?_⟩
  · exact C4_shortest_path_correct.2.2.1 Nat Nat c4Graph 0 9 4 (by decide)
      (by decide) (by decide) (by decide) (by decide)
  · exact C4_shortest_path_correct.2.1 Nat Nat c4Graph 7 (by decide)
  · exact C4_shortest_path_correct.1 Nat Nat c4Graph 0 11 (by decide)

/-- Claim C4, counterexample to the unamended claim: in the 1002-node path
graph `0 - 1 - ... - 1001` the destination 1001 is reachable from 0 at hop
distance 1001, yet `shortest_path 0 1001` returns a list whose length is not
`1001 + 1` and whose first element is not the start node 0 — the 1000-step
backtrack cap truncates the walk before it reaches the start. -/
theorem C4_cap_truncation_counterexample :
    bfsDist (pathGraph 1002) 0 1001 = some 1001 ∧
    ∃ p, (pathGraph 1002).shortest_path 0 1001 = Except.ok p ∧
      p.length ≠ 1001 + 1 ∧ p.head? ≠ some 0 := by
  have hwf := pathGraph_WF 1002
  have h0 : (0 : Nat) ∈ (pathGraph 1002).data.map Prod.fst := by
    rw [pathGraph_keys]
    exact List.mem_range.mpr (by omega)
  have hd : bfsDist (pathGraph 1002) 0 1001 = some 1001 :=
    pathGraph_bfsDist (by omega)
  obtain ⟨q, hsp, hlen, hchain, hlast⟩ :=
    shortest_path_run hwf h0 (by omega) hd
  refine ⟨hd, (1001 :: q).reverse, hsp, ?_, ?_⟩
  · rw [List.length_reverse]
    simp only [List.length_cons, hlen]
    omega
  · intro hc
    rw [List.head?_reverse] at hc
    have h2 := bfsDist_getLast_of_getLast? (by simp) hlast hc
    rw [bfsDist_self] at h2
    have h3 : (0 : Nat) = 1001 - min 1001 1000 := by injection h2
    omega

/-- Claim C9 (code bug): when backtracking exceeds the 1000-step cap,
`shortest_path` neither raises nor returns an empty/error result: on the
1002-node path graph `0 - 1 - ... - 1001` it silently returns a nonempty
list that is not a start-to-destination path (its first element is not the
start node 0). -/
theorem C9_cap_silently_corrupts :
    ∃ p, (pathGraph 1002).shortest_path 0 1001 = Except.ok p ∧
      p ≠ [] ∧ p.head? ≠ some 0 ∧ p.getLast? = some 1001 := by
  have hwf := pathGraph_WF 1002
  have h0 : (0 : Nat) ∈ (pathGraph 1002).data.map Prod.fst := by
    rw [pathGraph_keys]
    exact List.mem_range.mpr (by omega)
  have hd : bfsDist (pathGraph 1002) 0 1001 = some 1001 :=
    pathGraph_bfsDist (by omega)
  obtain ⟨q, hsp, hlen, hchain, hlast⟩ :=
    shortest_path_run hwf h0 (by omega) hd
  refine ⟨(1001 :: q).reverse, hsp, by simp, ?_, ?_⟩
  · intro hc
    rw [List.head?_reverse] at hc
    have h2 := bfsDist_getLast_of_getLast? (by simp) hlast hc
    rw [bfsDist_self] at h2
    have h3 : (0 : Nat) = 1001 - min 1001 1000 := by injection h2
    omega
  · rw [List.getLast?_reverse]
    rfl

/-! ### Claim C7 and C10: traversals -/

/-- Claim C7 (amended: completeness additionally requires that no node's
neighbor set holds duplicated entries for the same endpoint — automatic for
unweighted graphs, but violable on weighted graphs through re-added links):
for every well-formed connected graph of size N and every start node in it,
`dfs_traverse` and `bfs_traverse` return lists of length N without
duplicates whose node-set is the graph's node set. -/
theorem C7_traversal_completeness :
    ∀ (γ δ : Type) [inst : DecidableEq γ] (g : Graph γ δ) (start : γ),
    g.WF → (∀ a ∈ g.data.map Prod.fst, (neighborsD g a).Nodup) →
    start ∈ g.data.map Prod.fst →
    (∀ v ∈ g.data.map Prod.fst, v ∈ ball g start g.size) →
    ∃ ld lb, g.dfs_traverse start = Except.ok ld ∧
      g.bfs_traverse start = Except.ok lb ∧
      ld.length = g.size ∧ lb.length = g.size ∧ ld.Nodup ∧ lb.Nodup ∧
      (∀ v, v ∈ ld ↔ v ∈ g.data.map Prod.fst) ∧
      (∀ v, v ∈ lb ↔ v ∈ g.data.map Prod.fst) := by
  intro γ δ inst g start hwf hNF hstart hconn
  obtain ⟨ld, hd, hdnd, hdball⟩ := dfs_traverse_spec hwf hstart
  obtain ⟨lb, hb, hbnd, hbball⟩ := bfs_traverse_spec hwf hNF hstart
  have hdset : ∀ v, v ∈ ld ↔ v ∈ g.data.map Prod.fst := by
    intro v
    rw [hdball v]
    exact ⟨fun hv => ball_subset_keys_of_mem hwf hstart _ v hv,
      fun hv => hconn v hv⟩
  have hbset : ∀ v, v ∈ lb ↔ v ∈ g.data.map Prod.fst := by
    intro v
    rw [hbball v]
    exact ⟨fun hv => ball_subset_keys_of_mem hwf hstart _ v hv,
      fun hv => hconn v hv⟩
  have hkl : (g.data.map Prod.fst).length = g.size := by
    unfold Graph.size
    exact List.length_map _ _
  refine ⟨ld, lb, hd, hb, ?_, ?_, hdnd, hbnd, hdset, hbset⟩
  · rw [length_eq_of_nodup_set_eq hdnd hwf.keys_nodup hdset, hkl]
  · rw [length_eq_of_nodup_set_eq hbnd hwf.keys_nodup hbset, hkl]

theorem C7_traversal_completeness_witness :
    ∃ ld lb, triangleStore.dfs_traverse 0 = Except.ok ld ∧
      triangleStore.bfs_traverse 0 = Except.ok lb ∧
      ld.length = triangleStore.size ∧ lb.length = triangleStore.size ∧
      ld.Nodup ∧ lb.Nodup ∧
      (∀ v, v ∈ ld ↔ v ∈ triangleStore.data.map Prod.fst) ∧
      (∀ v, v ∈ lb ↔ v ∈ triangleStore.data.map Prod.fst) :=
  C7_traversal_completeness Nat Nat triangleStore 0 (by decide) (by decide)
    (by decide) (by decide)

/-- Claim C7, counterexample to the unamended claim: re-adding the weighted
link (0,1) with a new weight leaves a connected two-node store with a
duplicated neighbor entry (the C2 behavior); `bfs_traverse 0` on it returns
`[0, 1, 1]` — length 3 on a graph of size 2, with a duplicate — because the
source collects the unvisited-neighbor batch without updating `visited`
during the scan. -/
theorem C7_bfs_duplicates_counterexample :
    twoNodeRelinked.size = 2 ∧
    twoNodeRelinked.are_neighbors 0 1 = true ∧
    twoNodeRelinked.dfs_traverse 0 = Except.ok [0, 1] ∧
    twoNodeRelinked.bfs_traverse 0 = Except.ok [0, 1, 1] := by
  exact ⟨rfl, by decide, rfl, rfl⟩

/-- Claim C10: traversal requires an existing start node.  For an absent
start id `get_neighbors` returns the absent sentinel and both traversals
raise `TypeError` instead of returning a visited list; when the start node
exists, both traversals return a visited list on every well-formed store
(duplicated neighbor entries included), so the error branch is
unreachable under the precondition. -/
theorem C10_traversal_requires_start :
    (∀ (γ δ : Type) [inst : DecidableEq γ] (g : Graph γ δ) (start : γ),
      g.node_exists start = false →
      g.get_neighbors start = none ∧
      g.dfs_traverse start = Except.error PyErr.typeError ∧
      g.bfs_traverse start = Except.error PyErr.typeError) ∧
    (∀ (γ δ : Type) [inst : DecidableEq γ] (g : Graph γ δ) (start : γ),
      g.WF → g.node_exists start = true →
      (∃ l, g.dfs_traverse start = Except.ok l) ∧
      (∃ l, g.bfs_traverse start = Except.ok l)) := by
  constructor
  · intro γ δ inst g start habs
    have hgn : g.get_neighbors start = none := get_neighbors_eq_none habs
    refine ⟨hgn, ?_, ?_⟩
    · show g.recDfs (2 * g.size + 2) (some start) [start] [start] = _
      show (if ([start] : List γ) = [] then Except.ok [start]
            else
              match (some start).bind g.get_neighbors with
              | none => Except.error PyErr.typeError
              | some links =>
                match links.find? (fun l => decide (l ∉ ([start] : List γ))) with
                | some selected =>
                  g.recDfs (2 * g.size + 1) (some selected)
                    ([start] ++ [selected]) ([start] ++ [selected])
                | none =>
                  g.recDfs (2 * g.size + 1) ([start] : List γ).dropLast.getLast?
                    [start] ([start] : List γ).dropLast) = _
      rw [if_neg (by simp)]
      show (match g.get_neighbors start with
            | none => Except.error PyErr.typeError
            | some links =>
              match links.find? (fun l => decide (l ∉ ([start] : List γ))) with
              | some selected =>
                g.recDfs (2 * g.size + 1) (some selected)
                  ([start] ++ [selected]) ([start] ++ [selected])
              | none =>
                g.recDfs (2 * g.size + 1) ([start] : List γ).dropLast.getLast?
                  [start] ([start] : List γ).dropLast) = _
      rw [hgn]
    · show g.recBfs (g.size + g.totalNear + 2) [start] [start] = _
      show (if ([start] : List γ) = [] then Except.ok [start]
            else
              match ([start] : List γ).getLast?.bind g.get_neighbors with
              | none => Except.error PyErr.typeError
              | some links =>
                g.recBfs (g.size + g.totalNear + 1)
                  ([start] ++ links.filter
                    (fun l => decide (l ∉ ([start] : List γ))))
                  (([start] : List γ).dropLast ++ links.filter
                    (fun l => decide (l ∉ ([start] : List γ))))) = _
      rw [if_neg (by simp)]
      have hbind : ([start] : List γ).getLast?.bind g.get_neighbors = none := by
        have hgl : ([start] : List γ).getLast? = some start := by simp
        rw [hgl]
        exact hgn
      rw [hbind]
  · intro γ δ inst g start hwf hex
    have hstart : start ∈ g.data.map Prod.fst :=
      (node_exists_iff_mem g start).mp hex
    constructor
    · obtain ⟨l, hrun, _⟩ := dfs_traverse_spec hwf hstart
      exact ⟨l, hrun⟩
    · exact bfs_traverse_ok hwf hstart

theorem C10_traversal_requires_start_witness :
    ((Graph.mkEmpty Nat Nat false).get_neighbors 5 = none ∧
      (Graph.mkEmpty Nat Nat false).dfs_traverse 5 =
        Except.error PyErr.typeError ∧
      (Graph.mkEmpty Nat Nat false).bfs_traverse 5 =
        Except.error PyErr.typeError) ∧
    (∃ l, triangleStore.dfs_traverse 2 = Except.ok l) ∧
    (∃ l, triangleStore.bfs_traverse 2 = Except.ok l) ∧
    (∃ l, twoNodeRelinked.bfs_traverse 0 = Except.ok l) := by
  refine ⟨?_, ?_, ?_, ?_⟩
  · exact C10_traversal_requires_start.1 Nat Nat
      (Graph.mkEmpty Nat Nat false) 5 (by decide)
  · exact (C10_traversal_requires_start.2 Nat Nat triangleStore 2
      (by decide) (by decide)).1
  · exact (C10_traversal_requires_start.2 Nat Nat triangleStore 2
      (by decide) (by decide)).2
  · exact (C10_traversal_requires_start.2 Nat Nat twoNodeRelinked 0
      (by decide) (by decide)).2

/-! ### Claim C8: depth layers -/

/-- Claim C8: `get_depth_layer(start, 0)` short-circuits to layer 0 with the
singleton start (for any graph and id, matching the source's unconditional
check); for an existing start and positive `k` the reported layer `L` is at
most `k`, the reported nodes are exactly the nodes at BFS distance `L`, and
`L < k` only when the graph is exhausted (every reachable node lies within
`L` hops).  On the ten-node example graph, layer 1 from node 0 holds
`{1, 2, 3}` and a request of 10 reaches layer 3 with `{7, 8, 9}`. -/
theorem C8_depth_layer :
    (∀ (γ δ : Type) [inst : DecidableEq γ] (g : Graph γ δ) (s : γ),
      g.get_depth_layer s 0 = Except.ok (0, [s])) ∧
    (∀ (γ δ : Type) [inst : DecidableEq γ] (g : Graph γ δ) (s : γ) (k : Nat),
      g.WF → s ∈ g.data.map Prod.fst → 0 < k →
      ∃ L ns, g.get_depth_layer s k = Except.ok (L, ns) ∧ L ≤ k ∧
        (∀ v, v ∈ ns ↔ bfsDist g s v = some L) ∧
        (L < k → ∀ v d, bfsDist g s v = some d → d ≤ L)) ∧
    c8Graph.get_depth_layer 0 1 = Except.ok (1, [1, 2, 3]) ∧
    c8Graph.get_depth_layer 0 10 = Except.ok (3, [7, 8, 9]) := by
  refine ⟨?_, ?_, rfl, rfl⟩
  · intro γ δ inst g s
    unfold Graph.get_depth_layer
    rw [if_pos rfl]
  · intro γ δ inst g s k hwf hs hk
    exact get_depth_layer_spec hwf hs k hk

theorem C8_depth_layer_witness :
    triangleStore.get_depth_layer 5 0 = Except.ok (0, [5]) ∧
    (∃ L ns, c8Graph.get_depth_layer 0 2 = Except.ok (L, ns) ∧ L ≤ 2 ∧
      (∀ v, v ∈ ns ↔ bfsDist c8Graph 0 v = some L) ∧
      (L < 2 → ∀ v d, bfsDist c8Graph 0 v = some d → d ≤ L)) := by
  refine ⟨C8_depth_layer.1 Nat Nat triangleStore 5, ?_⟩
  exact C8_depth_layer.2.1 Nat Nat c8Graph 0 2 (by decide) (by decide)
    (by decide)

/-! ### Claim C1: serialization -/

theorem insertSortedBy_perm (le : γ → γ → Bool) (x : γ) :
    ∀ (l : List γ), (insertSortedBy le x l).Perm (x :: l) := by
  intro l
  induction l with
  | nil => exact List.Perm.refl _
  | cons y rest ih =>
    unfold insertSortedBy
    by_cases hle : le x y = true
    · rw [if_pos hle]
    · rw [if_neg hle]
      exact (ih.cons y).trans (List.Perm.swap x y rest)

theorem sortBy_perm (le : γ → γ → Bool) :
    ∀ (l : List γ), (sortBy le l).Perm l := by
  intro l
  induction l with
  | nil => exact List.Perm.refl _
  | cons x rest ih =>
    exact (insertSortedBy_perm le x (sortBy le rest)).trans (ih.cons x)

theorem foldl_setAdd_nodup [DecidableEq γ] :
    ∀ (l acc : List γ), (acc ++ l).Nodup →
    l.foldl (fun acc x => setAdd x acc) acc = acc ++ l := by
  intro l
  induction l with
  | nil =>
    intro acc _
    simp
  | cons x rest ih =>
    intro acc h
    show rest.foldl _ (setAdd x acc) = _
    have hx : x ∉ acc := by
      rw [List.nodup_append] at h
      exact fun hc => h.2.2 hc (List.mem_cons_self _ _)
    rw [show setAdd x acc = acc ++ [x] from by unfold setAdd; rw [if_neg hx]]
    rw [ih (acc ++ [x]) (by rw [List.append_assoc]; exact h)]
    simp

theorem setOfList_of_nodup [DecidableEq γ] {l : List γ} (h : l.Nodup) :
    setOfList l = l := by
  unfold setOfList
  have := foldl_setAdd_nodup l [] (by simpa using h)
  simpa using this

theorem pyGet_perm {δ : Type} {l1 l2 : List (α × δ)} (hp : l1.Perm l2)
    (hnd : (l2.map Prod.fst).Nodup) (k : α) : pyGet k l1 = pyGet k l2 := by
  cases hv : pyGet k l1 with
  | some v =>
    rw [pyGet_of_mem hnd (hp.subset (pyGet_mem hv))]
  | none =>
    rw [pyGet_eq_none_iff] at hv
    have hn2 : k ∉ l2.map Prod.fst := by
      intro hc
      exact hv ((hp.map Prod.fst).mem_iff.mpr hc)
    rw [(pyGet_eq_none_iff k l2).mpr hn2]

theorem toJsonKey_of_isStr {k : PyKey} (h : k.isStr = true) :
    k.toJsonKey = k := by
  cases k with
  | int n => simp [PyKey.isStr] at h
  | str s => rfl

theorem serialize_maps_id {δ : Type} :
    ∀ (l : List (PyKey × NodeRec PyKey δ)),
    (∀ p ∈ l, p.2.near.Nodup) →
    (∀ p ∈ l, p.1.isStr = true) →
    ((l.map (fun p => (p.1, (⟨p.2.near, p.2.payload⟩ : SerRec PyKey δ)))).map
      (fun p => (p.1.toJsonKey, p.2))).map
      (fun p =>
        (p.1, (⟨setOfList p.2.neighbors, p.2.payload⟩ : NodeRec PyKey δ))) =
      l := by
  intro l
  induction l with
  | nil =>
    intro _ _
    rfl
  | cons p rest ih =>
    intro hnd hstr
    simp only [List.map_cons]
    rw [ih (fun q hq => hnd q (List.mem_cons_of_mem _ hq))
         (fun q hq => hstr q (List.mem_cons_of_mem _ hq))]
    congr 1
    show (p.1.toJsonKey,
      (⟨setOfList p.2.near, p.2.payload⟩ : NodeRec PyKey δ)) = p
    rw [toJsonKey_of_isStr (hstr p (List.mem_cons_self _ _)),
        setOfList_of_nodup (hnd p (List.mem_cons_self _ _))]

/-- For a store with duplicate-free `near` sets and all-string keys, the
save/load pipeline permutes the node entries (sorting them by key) and
preserves each entry exactly. -/
theorem saveLoad_data_perm {δ : Type} {g : Graph PyKey δ}
    (fresh : Graph PyKey δ)
    (hnd : ∀ p ∈ g.data, p.2.near.Nodup)
    (hstr : ∀ k ∈ g.data.map Prod.fst, k.isStr = true) :
    (saveLoad g fresh).data.Perm g.data := by
  have h1 : (sortBy (fun p q => pyKeyLe p.1 q.1) g.do_serializable).Perm
      g.do_serializable := sortBy_perm _ _
  have h2 : (saveLoad g fresh).data =
      ((sortBy (fun p q => pyKeyLe p.1 q.1) g.do_serializable).map
        (fun p => (p.1.toJsonKey, p.2))).map
        (fun p =>
          (p.1, (⟨setOfList p.2.neighbors, p.2.payload⟩ :
            NodeRec PyKey δ))) := rfl
  rw [h2]
  refine (List.Perm.map _ (List.Perm.map _ h1)).trans ?_
  show ((g.do_serializable).map (fun p => (p.1.toJsonKey, p.2))).map
      (fun p =>
        (p.1, (⟨setOfList p.2.neighbors, p.2.payload⟩ :
          NodeRec PyKey δ))) |>.Perm g.data
  unfold Graph.do_serializable
  rw [serialize_maps_id g.data hnd
    (fun p hp => hstr p.1 (List.mem_map.mpr ⟨p, hp, rfl⟩))]

/-- Claim C1 (amended: the round-trip is exact for graphs whose node
identifiers are all strings; integer identifiers are stringified by the JSON
object-key encoding and do not round-trip.  The `has_weights` flag is not
serialized: the loaded store keeps the receiving graph's flag): for every
well-formed all-string-keyed graph, save followed by load into a fresh graph
permutes the node entries (sorted by key) and preserves node existence, each
node's neighbor set with its weights, and each payload, exactly. -/
theorem C1_serialization_roundtrip :
    ∀ (δ : Type) (g fresh : Graph PyKey δ), g.WF →
    (∀ k ∈ g.data.map Prod.fst, k.isStr = true) →
    (saveLoad g fresh).data.Perm g.data ∧
    (∀ k, (saveLoad g fresh).node_exists k = g.node_exists k) ∧
    (∀ k, (saveLoad g fresh).nearList k = g.nearList k) ∧
    (∀ k, (saveLoad g fresh).get_payload k = g.get_payload k) ∧
    (saveLoad g fresh).hasWeights = fresh.hasWeights := by
  intro δ g fresh hwf hstr
  have hperm := saveLoad_data_perm fresh hwf.2.1 hstr
  have hget : ∀ k, pyGet k (saveLoad g fresh).data = pyGet k g.data :=
    fun k => pyGet_perm hperm hwf.1 k
  refine ⟨hperm, ?_, ?_, ?_, rfl⟩
  · intro k
    unfold Graph.node_exists Graph.lookupRec
    rw [hget k]
  · intro k
    unfold Graph.nearList Graph.lookupRec
    rw [hget k]
  · intro k
    unfold Graph.get_payload Graph.lookupRec
    rw [hget k]

theorem C1_serialization_roundtrip_witness :
    (saveLoad strStore (Graph.mkEmpty PyKey Nat true)).data.Perm
      strStore.data ∧
    (∀ k, (saveLoad strStore (Graph.mkEmpty PyKey Nat true)).node_exists k =
      strStore.node_exists k) ∧
    (∀ k, (saveLoad strStore (Graph.mkEmpty PyKey Nat true)).nearList k =
      strStore.nearList k) ∧
    (∀ k, (saveLoad strStore (Graph.mkEmpty PyKey Nat true)).get_payload k =
      strStore.get_payload k) ∧
    (saveLoad strStore (Graph.mkEmpty PyKey Nat true)).hasWeights =
      (Graph.mkEmpty PyKey Nat true).hasWeights :=
  C1_serialization_roundtrip Nat strStore (Graph.mkEmpty PyKey Nat true)
    (by decide) (by decide)

/-- Claim C1, counterexample to the unamended claim: a graph holding the
integer node 0 does not round-trip — after save/load the integer key is gone
(`node_exists` is false) and the string key "0" stands in its place, because
JSON object keys are strings and `json.dump` converts `0` to `"0"`. -/
theorem C1_int_key_not_roundtripped :
    ((Graph.mkEmpty PyKey Nat false).add_node (PyKey.int 0)).1.node_exists
      (PyKey.int 0) = true ∧
    (saveLoad ((Graph.mkEmpty PyKey Nat false).add_node (PyKey.int 0)).1
      (Graph.mkEmpty PyKey Nat false)).node_exists (PyKey.int 0) = false ∧
    (saveLoad ((Graph.mkEmpty PyKey Nat false).add_node (PyKey.int 0)).1
      (Graph.mkEmpty PyKey Nat false)).node_exists
        (PyKey.str ("0")) = true := by
  refine ⟨by decide, by decide, by decide⟩

end Graflib
